import Mathlib

/-!
# shortcsv: a verification development for `shortcsv.h`

The header defines a field lexer (`ParseField`), a record scanner (`ParseLine`) and a table
builder (`Parse`) on top of three POSIX extended regular expressions that are run with
`std::regex_search`.

Modelling decisions, all taken from the source:

* a `char` is a `Char`, a `std::string` is a `List Char`;
* the iterator pair `(pos, end)` is the remaining text `[pos, end)`, a `List Char`; advancing the
  iterator drops characters from its front, `pos == end` is the empty list, and `*pos` with
  `pos == end` has no value (dereferencing a past-the-end iterator is undefined behaviour);
* the outcome of a call is a `Res`: a normal return, a C++ exception that escapes, undefined
  behaviour, or (only for the loop of `ParseLine`, which is run with a step budget) a run that is
  still going when the budget is used up;
* the three patterns are abstract syntax trees of POSIX extended regular expressions, and
  `std::regex_search` is the leftmost-longest search the standard prescribes for the `extended`
  grammar. Only `match[0]` is used by the source, so capture groups are not represented;
* `intmax_t` and `long long` are 64-bit, `long double` is the x87 extended format: a sign, a
  64-bit significand and a binary exponent. `std::stold` is `strtold` of the GNU C library in the
  default rounding mode: the decimal value of the text is rounded to the nearest value of the
  format, a tie to the even significand, and a range error (`ERANGE`, which `std::stold` turns
  into `std::out_of_range`) is reported when the rounded value exceeds the largest finite value,
  or when the result is below the smallest normal value after rounding and is not exact, where
  version 2.36 of the library leaves one bit out of the test for exactness (see `strtold_round`);
* `throws` stands for the exceptions of the numeric conversions, the only `throw` sites that the
  header reaches. A scan that is still going whatever the budget is a scan that never returns; in
  the machine the vector of fields grows with every round until an allocation fails. That failure
  is not an outcome of its own here: such a run is `running` for every budget.
-/

namespace shortcsv

/-! ## Data model (`shortcsv.h`, lines 16-37) -/

/-- The tag of a field: `enum class Field`. -/
inductive Field
  | Undefined
  | Null
  | Boolean
  | String
  | Integer
  | Float
  deriving DecidableEq, Repr

/-- A `long double` of the x87 extended format: the sign, the 64-bit significand `sig` and the
binary exponent `exp` of its last bit. The value is `sig * 2 ^ exp`, negated when `neg` holds. -/
structure long_double where
  neg : Bool
  sig : Nat
  exp : Int
  deriving DecidableEq, Repr

/-- The value of a `long double` as a rational. -/
def long_double.toRat (x : long_double) : ℚ :=
  (if x.neg then -1 else 1) * ((x.sig : ℚ) * (2 : ℚ) ^ x.exp)

/-- The payload of a field: `std::variant<std::string, long double, intmax_t, bool>`. -/
inductive value_t
  | string (s : List Char)
  | longdouble (x : long_double)
  | intmax (n : Int)
  | bool (b : Bool)
  deriving DecidableEq, Repr

/-- A typed value: `struct field_t`. -/
structure field_t where
  type : Field
  data : value_t
  deriving DecidableEq, Repr

/-- The value-initialised variant `{}`: its first alternative, an empty `std::string`. -/
def value_t.empty : value_t := value_t.string []

/-! ## Outcomes -/

/-- The exceptions thrown by `std::stoll` and `std::stold`. -/
inductive Exc
  | invalid_argument
  | out_of_range
  deriving DecidableEq, Repr

/-- The outcome of running a piece of the program. -/
inductive Res (α : Type)
  | ret (a : α)
  | throws (e : Exc)
  | undefined
  | running
  deriving DecidableEq, Repr

/-! ## Character classification -/

/-- The function `std::isspace` in the "C" locale: space, `\t`, `\n`, `\v`, `\f`, `\r`. -/
def isspace (c : Char) : Bool := c == ' ' || (9 ≤ c.toNat && c.toNat ≤ 13)

/-- The class `[[:digit:]]`. -/
def isdigit (c : Char) : Bool := 48 ≤ c.toNat && c.toNat ≤ 57

/-- The class `[[:xdigit:]]`. -/
def isxdigit (c : Char) : Bool :=
  isdigit c || (97 ≤ c.toNat && c.toNat ≤ 102) || (65 ≤ c.toNat && c.toNat ≤ 70)

/-! ## POSIX extended regular expressions -/

/-- A bracket expression. -/
inductive Bracket
  | digit
  | xdigit
  | oneOf (cs : List Char)
  | noneOf (cs : List Char)
  deriving Repr

/-- Whether a character belongs to a bracket expression. -/
def Bracket.test : Bracket → Char → Bool
  | Bracket.digit, c => isdigit c
  | Bracket.xdigit, c => isxdigit c
  | Bracket.oneOf cs, c => cs.contains c
  | Bracket.noneOf cs, c => !cs.contains c

/-- Abstract syntax of the extended regular expressions used by the source. -/
inductive Regex
  | bol
  | chr (c : Char)
  | cls (b : Bracket)
  | seq (a b : Regex)
  | alt (a b : Regex)
  | star (a : Regex)
  | plus (a : Regex)
  | opt (a : Regex)
  deriving Repr

/-- A position in the searched range: the number of characters before it and the text after it. -/
abbrev Pos := Nat × List Char

/-- Repetition: the positions reached from `p` by at most `k` rounds of `step`, each of which
consumes at least one character (a round that consumes nothing reaches no new position). -/
def iterate (step : Pos → List Pos) : Nat → Pos → List Pos
  | 0, p => [p]
  | k + 1, p =>
    p :: ((step p).filter (fun q => q.2.length < p.2.length)).flatMap (iterate step k)

/-- All positions at which a match of the expression that starts at `p` can end. The anchor `^`
matches at the first position of the searched range only. -/
def Regex.run : Regex → Pos → List Pos
  | Regex.bol, p => if p.1 = 0 then [p] else []
  | Regex.chr c, p =>
    match p.2 with
    | [] => []
    | x :: t => if x = c then [(p.1 + 1, t)] else []
  | Regex.cls b, p =>
    match p.2 with
    | [] => []
    | x :: t => if b.test x then [(p.1 + 1, t)] else []
  | Regex.seq a b, p => (a.run p).flatMap b.run
  | Regex.alt a b, p => a.run p ++ b.run p
  | Regex.star a, p => iterate a.run p.2.length p
  | Regex.plus a, p => (a.run p).flatMap (fun q => iterate a.run q.2.length q)
  | Regex.opt a, p => a.run p ++ [p]

/-- The largest offset in a list of positions. -/
def longest : List Pos → Option Nat
  | [] => none
  | p :: ps =>
    match longest ps with
    | none => some p.1
    | some m => some (max p.1 m)

/-- The function `std::regex_search` for the `extended` grammar on the range `s`, whose first
character is at offset `i` of the searched range: the leftmost offset at which the expression
matches and, there, the length of the longest match. -/
def searchFrom (r : Regex) : Nat → List Char → Option (Nat × Nat)
  | i, [] =>
    match longest (r.run (i, [])) with
    | some e => some (i, e - i)
    | none => none
  | i, x :: t =>
    match longest (r.run (i, x :: t)) with
    | some e => some (i, e - i)
    | none => searchFrom r (i + 1) t

/-- The call `std::regex_search(pos, end, match, re)`: offset and length of `match[0]`. -/
def regex_search (r : Regex) (s : List Char) : Option (Nat × Nat) := searchFrom r 0 s

/-- Concatenation of a list of expressions. -/
def Regex.cat : Regex → List Regex → Regex
  | a, [] => a
  | a, b :: bs => Regex.seq a (Regex.cat b bs)

/-- The bracket expression `[+-]`. -/
def sign : Regex := Regex.cls (Bracket.oneOf ['+', '-'])

/-- The class `[[:digit:]]` as an expression. -/
def digit : Regex := Regex.cls Bracket.digit

/-- The pattern `string_regex` (line 39), which after C++ unescaping reads
`^"(((\.)|([^"])))*"|'(((\.)|([^'])))*'`. Alternation binds weakest, so the anchor belongs to the
first branch only; `\.` is an escaped dot, a literal `.`. -/
def string_regex : Regex :=
  Regex.alt
    (Regex.cat Regex.bol
      [Regex.chr '"',
       Regex.star (Regex.alt (Regex.chr '.') (Regex.cls (Bracket.noneOf ['"']))),
       Regex.chr '"'])
    (Regex.cat (Regex.chr '\'')
      [Regex.star (Regex.alt (Regex.chr '.') (Regex.cls (Bracket.noneOf ['\'']))),
       Regex.chr '\''])

/-- The pattern `integer_regex` (line 40): `^(0x[[:xdigit:]]+)|([+-]?[[:digit:]]+)`. The anchor
belongs to the hexadecimal branch only. -/
def integer_regex : Regex :=
  Regex.alt
    (Regex.cat Regex.bol [Regex.chr '0', Regex.chr 'x', Regex.plus (Regex.cls Bracket.xdigit)])
    (Regex.cat (Regex.opt sign) [Regex.plus digit])

/-- The pattern `float_regex` (line 41):
`^[+-]?([[:digit:]]+[.][[:digit:]]*|[.][[:digit:]]+)([eE][+-]?[[:digit:]]+)?`. -/
def float_regex : Regex :=
  Regex.cat Regex.bol
    [Regex.opt sign,
     Regex.alt
       (Regex.cat (Regex.plus digit) [Regex.cls (Bracket.oneOf ['.']), Regex.star digit])
       (Regex.cat (Regex.cls (Bracket.oneOf ['.'])) [Regex.plus digit]),
     Regex.opt
       (Regex.cat (Regex.cls (Bracket.oneOf ['e', 'E'])) [Regex.opt sign, Regex.plus digit])]

/-- The function `RegexMatch` (lines 43-52): on a match, the matched text `match[0].str()` and the
cursor advanced by `match[0].length()` characters; no value when nothing matches. The cursor is
advanced from where it stood, also when the match was found further along. -/
def RegexMatch (r : Regex) (pos : List Char) : Option (List Char × List Char) :=
  match regex_search r pos with
  | some (i, len) => some ((pos.drop i).take len, pos.drop len)
  | none => none

/-! ## Numeric conversions -/

/-- Sequencing of outcomes. -/
def Res.bind {α β : Type} : Res α → (α → Res β) → Res β
  | Res.ret a, f => f a
  | Res.throws e, _ => Res.throws e
  | Res.undefined, _ => Res.undefined
  | Res.running, _ => Res.running

/-- The value of a run of decimal digits, read left to right. -/
def digitsValue (ds : List Char) : Nat := ds.foldl (fun acc c => acc * 10 + (c.toNat - 48)) 0

/-- The sign character in front of a number, if any, is removed. -/
def dropSign : List Char → List Char
  | '+' :: t => t
  | '-' :: t => t
  | s => s

/-- Whether the number starts with a minus sign. -/
def hasMinus : List Char → Bool
  | '-' :: _ => true
  | _ => false

/-- The call `std::stoll(str)`, that is `strtoll` in base 10: leading white space, an optional
sign, then the longest run of decimal digits. No digit at all is `std::invalid_argument`, a value
outside the 64-bit range is `std::out_of_range`. -/
def stoll (str : List Char) : Res Int :=
  let s := str.dropWhile isspace
  let ds := (dropSign s).takeWhile isdigit
  if ds.isEmpty then Res.throws Exc.invalid_argument
  else
    let v : Int := if hasMinus s then -(digitsValue ds : Int) else (digitsValue ds : Int)
    if v < -(2 : Int) ^ 63 ∨ (2 : Int) ^ 63 ≤ v then Res.throws Exc.out_of_range else Res.ret v

/-- The exponent part of a decimal floating literal: `e` or `E`, an optional sign and at least
one digit; anything else is not an exponent and counts as zero. -/
def exponentValue : List Char → Int
  | [] => 0
  | c :: t =>
    if c = 'e' ∨ c = 'E' then
      let ds := (dropSign t).takeWhile isdigit
      if ds.isEmpty then 0
      else if hasMinus t then -(digitsValue ds : Int) else (digitsValue ds : Int)
    else 0

/-- The fraction digits after a decimal point, if there is a point. -/
def fractionDigits : List Char → List Char
  | '.' :: t => t.takeWhile isdigit
  | _ => []

/-- The text after the fraction part. -/
def afterFraction : List Char → List Char
  | '.' :: t => t.dropWhile isdigit
  | s => s

/-- The number of binary digits of a natural number, counted by halving. -/
def bitLength.go : Nat → Nat → Nat → Nat
  | 0, _, acc => acc
  | fuel + 1, n, acc => if n = 0 then acc else bitLength.go fuel (n / 2) (acc + 1)

/-- The number of binary digits of `n`: the least `k` with `n < 2 ^ k`. -/
def bitLength (n : Nat) : Nat := bitLength.go n n 0

/-- The numerator of `num / den / 2 ^ e` written as a fraction of two naturals. -/
def scaledNum (num : Nat) (e : Int) : Nat := if 0 ≤ e then num else num * 2 ^ (-e).toNat

/-- The denominator of `num / den / 2 ^ e` written as a fraction of two naturals. -/
def scaledDen (den : Nat) (e : Int) : Nat := if 0 ≤ e then den * 2 ^ e.toNat else den

/-- The fraction `n / d` rounded to the nearest integer, a tie to the even one. -/
def roundNearestEven (n d : Nat) : Nat :=
  if d < 2 * (n % d) ∨ (2 * (n % d) = d ∧ (n / d) % 2 = 1) then n / d + 1 else n / d

/-- The exponent `e` for which `num / den / 2 ^ e` lies in `[2^63, 2^64)`: the exponent of the
last bit of a 64-bit significand whose first bit is set. -/
def normalExponent (num den : Nat) : Int :=
  let e0 : Int := (bitLength num : Int) - (bitLength den : Int) - 63
  if scaledNum num e0 / scaledDen den e0 < 2 ^ 63 then e0 - 1 else e0

/-- The positive rational `num / den` as `strtold` returns it (`round_and_return` of the GNU C
library, with `MANT_DIG = 64`, `MIN_EXP = -16381`, `MAX_EXP = 16384`). The significand is the
value rounded at the exponent of its 64th bit, or at the exponent `-16445` of the subnormal
numbers when that is larger. `ERANGE` is reported for a result beyond the largest finite value
`(2^64 - 1) * 2^16320`, and for a result that is tiny and not exact. Tiny is judged after
rounding: a value that rounds up to the smallest normal number `2^-16382` at 64 bits is not
tiny. Exact is judged on the bits that the shift to the exponent `-16445` removes from the 64-bit
significand and on the bits after the first one below that significand: when a single bit is
removed (the value lies in `[2^-16383, 2^-16382)`), the first bit below the 64-bit significand,
the bit `2^-16447`, takes no part in the test. When more bits are removed that bit lies beyond
the 16447 fraction digits that `strtold` converts exactly, and all that follows them counts as
not exact. -/
def strtold_round (neg : Bool) (num den : Nat) : Res long_double :=
  let e1 := normalExponent num den
  let e := max e1 (-16445)
  let sig := roundNearestEven (scaledNum num e) (scaledDen den e)
  let tiny : Bool := decide (e1 < -16445) &&
    !(decide (e1 = -16446) &&
      decide (roundNearestEven (scaledNum num e1) (scaledDen den e1) = 2 ^ 64))
  let inexact : Bool :=
    decide (if e1 = -16446 then
        (scaledNum num e1 / scaledDen den e1) % 2 = 1 ∨
          (2 * (scaledNum num e1 % scaledDen den e1)) % scaledDen den e1 ≠ 0
      else scaledNum num e % scaledDen den e ≠ 0)
  if tiny && inexact then Res.throws Exc.out_of_range
  else if sig = 2 ^ 64 then
    (if 16320 ≤ e then Res.throws Exc.out_of_range else Res.ret ⟨neg, 2 ^ 63, e + 1⟩)
  else if 16320 < e then Res.throws Exc.out_of_range
  else Res.ret ⟨neg, sig, e⟩

/-- The decimal number `a * 10 ^ e10` with sign `neg` as `strtold` returns it: a zero keeps its
sign; a decimal exponent so large or so small that the value lies beyond the range whatever the
digits are is a range error at once, as in `strtold`, which does not convert such a number; any
other value is rounded. -/
def strtold_decimal (neg : Bool) (a : Nat) (e10 : Int) : Res long_double :=
  if a = 0 then Res.ret ⟨neg, 0, 0⟩
  else if 4933 ≤ e10 then Res.throws Exc.out_of_range
  else if e10 < 0 ∧ (bitLength a : Int) + 16447 ≤ 3 * (-e10) then Res.throws Exc.out_of_range
  else if 0 ≤ e10 then strtold_round neg (a * 10 ^ e10.toNat) 1
  else strtold_round neg a (10 ^ (-e10).toNat)

/-- The call `std::stold(str)`, that is `strtold`, on decimal input: leading white space, an
optional sign, digits with an optional decimal point, an optional exponent. No digit in the
mantissa is `std::invalid_argument`; a range error of `strtold` is `std::out_of_range`; otherwise
the result is the decimal value rounded to the format. The hexadecimal, `inf` and `nan` forms of
`strtold` are left out: the text handed over is a match of `float_regex`, which after the sign
starts with a digit run and a point, or with a point. -/
def stold (str : List Char) : Res long_double :=
  let s := str.dropWhile isspace
  let u := dropSign s
  let ip := u.takeWhile isdigit
  let fp := fractionDigits (u.dropWhile isdigit)
  let e := exponentValue (afterFraction (u.dropWhile isdigit))
  if ip.isEmpty && fp.isEmpty then Res.throws Exc.invalid_argument
  else strtold_decimal (hasMinus s) (digitsValue (ip ++ fp)) (e - fp.length)

/-! ## The field lexer (lines 54-70) -/

/-- Lines 63-69 of `ParseField`: the three patterns in their fixed order. The quotes of a string
are removed with `std::string(std::next(begin), std::prev(end))`, which has no defined result on
a text of fewer than two characters. -/
def ParseField.classify (pos : List Char) : Res (field_t × List Char) :=
  match RegexMatch string_regex pos with
  | some (ostr, pos1) =>
    if ostr.length < 2 then Res.undefined
    else Res.ret (⟨Field.String, value_t.string ostr.tail.dropLast⟩, pos1)
  | none =>
    match RegexMatch float_regex pos with
    | some (ostr, pos1) =>
      (stold ostr).bind (fun x => Res.ret (⟨Field.Float, value_t.longdouble x⟩, pos1))
    | none =>
      match RegexMatch integer_regex pos with
      | some (ostr, pos1) =>
        (stoll ostr).bind (fun n => Res.ret (⟨Field.Integer, value_t.intmax n⟩, pos1))
      | none => Res.ret (⟨Field.Undefined, value_t.empty⟩, pos)

/-- The function `ParseField<deliminator>(pos, end)`: the field and the cursor it leaves. The skip
loop of lines 57-62 reads `*pos` in its condition and again after each advance, without a
comparison with `end`. -/
def ParseField (deliminator : Char) : List Char → Res (field_t × List Char)
  | [] => Res.undefined
  | c :: t =>
    if isspace c || c == deliminator then
      match t with
      | [] => Res.undefined
      | c1 :: _ =>
        if c1 = deliminator then Res.ret (⟨Field.Null, value_t.empty⟩, t)
        else ParseField deliminator t
    else ParseField.classify (c :: t)

/-! ## The record scanner (lines 72-85) -/

/-- The loop of `ParseLine` from cursor `pos`, run for at most `fuel` rounds. The fields are
returned in the order in which `emplace_back` appends them. -/
def ParseLine.loop (deliminator : Char) : Nat → List Char → Res (List field_t)
  | _, [] => Res.ret []
  | 0, _ :: _ => Res.running
  | fuel + 1, c :: t =>
    (ParseField deliminator (c :: t)).bind (fun r =>
      (ParseLine.loop deliminator fuel (r.2.dropWhile isspace)).bind (fun values =>
        Res.ret (r.1 :: values)))

/-- The function `ParseLine<deliminator>(line)` with a budget of `fuel` loop rounds. -/
def ParseLine (fuel : Nat) (deliminator : Char) (line : List Char) : Res (List field_t) :=
  ParseLine.loop deliminator fuel line

/-! ## The table builder (lines 87-96) -/

/-- The call `std::getline(input, line)` on a stream with `input` left to read: no value when
nothing is left (the stream fails and the loop ends), otherwise the text up to the next `\n` and
the stream after that `\n`. -/
def getline : List Char → Option (List Char × List Char)
  | [] => none
  | c :: t =>
    some ((c :: t).takeWhile (fun x => x != '\n'), ((c :: t).dropWhile (fun x => x != '\n')).tail)

/-- The loop of `Parse` on the stream `input`; `k` bounds the number of lines still to come. -/
def Parse.loop (fuel : Nat) (deliminator : Char) : Nat → List Char → Res (List (List field_t))
  | 0, _ => Res.ret []
  | k + 1, input =>
    match getline input with
    | none => Res.ret []
    | some (line, input1) =>
      (ParseLine fuel deliminator line).bind (fun record =>
        (Parse.loop fuel deliminator k input1).bind (fun data => Res.ret (record :: data)))

/-- The function `Parse<deliminator>(records)`; each line is scanned with a budget of `fuel`
rounds. Every successful `getline` takes at least one character off the stream, so the loop runs
at most `records.length` times. -/
def Parse (fuel : Nat) (deliminator : Char) (records : List Char) : Res (List (List field_t)) :=
  Parse.loop fuel deliminator records.length records

/-! ## The words matched by an expression -/

/-- Repetition of a language whose first round starts at the front of the range when `b` holds:
a concatenation of non-empty words. -/
inductive StarB (P : Bool → List Char → Prop) : Bool → List Char → Prop
  | nil (b : Bool) : StarB P b []
  | cons (b : Bool) (x y : List Char) : P b x → x ≠ [] → StarB P false y → StarB P b (x ++ y)

/-- The words an expression matches; `b` tells whether the match starts at the first position of
the searched range. -/
def Regex.lang : Regex → Bool → List Char → Prop
  | Regex.bol, b, w => b = true ∧ w = []
  | Regex.chr c, _, w => w = [c]
  | Regex.cls k, _, w => ∃ x, k.test x = true ∧ w = [x]
  | Regex.seq r1 r2, b, w =>
    ∃ u v, r1.lang b u ∧ r2.lang (b && u.isEmpty) v ∧ w = u ++ v
  | Regex.alt r1 r2, b, w => r1.lang b w ∨ r2.lang b w
  | Regex.star r, b, w => StarB r.lang b w
  | Regex.plus r, b, w =>
    ∃ u v, r.lang b u ∧ StarB r.lang (b && u.isEmpty) v ∧ w = u ++ v
  | Regex.opt r, b, w => r.lang b w ∨ w = []

/-! ## Literals, as the specification describes them -/

/-- A run of decimal digits, possibly empty. -/
def AllDigits (w : List Char) : Prop := ∀ c ∈ w, isdigit c = true

instance (w : List Char) : Decidable (AllDigits w) :=
  inferInstanceAs (Decidable (∀ c ∈ w, isdigit c = true))

/-- An optional sign: nothing, `+` or `-`. -/
def IsSign (w : List Char) : Prop := w = [] ∨ w = ['+'] ∨ w = ['-']

/-- A decimal integer literal: an optional sign and one or more digits. -/
def IsDecimalLiteral (w : List Char) : Prop :=
  ∃ sg ds, IsSign sg ∧ ds ≠ [] ∧ AllDigits ds ∧ w = sg ++ ds

/-- A hexadecimal literal: `0x` and one or more hexadecimal digits. -/
def IsHexLiteral (w : List Char) : Prop :=
  ∃ hs, hs ≠ [] ∧ (∀ c ∈ hs, isxdigit c = true) ∧ w = '0' :: 'x' :: hs

/-- An exponent part: `e` or `E`, an optional sign, one or more digits. -/
def IsExponent (w : List Char) : Prop :=
  ∃ e sg ds, (e = 'e' ∨ e = 'E') ∧ IsSign sg ∧ ds ≠ [] ∧ AllDigits ds ∧ w = e :: (sg ++ ds)

/-- A floating-point literal: an optional sign, digits around a mandatory decimal point (they may
be missing on one side of the point, not on both), an optional exponent. -/
def IsFloatLiteral (w : List Char) : Prop :=
  ∃ sg ip fp ex, IsSign sg ∧ AllDigits ip ∧ AllDigits fp ∧ (ip ≠ [] ∨ fp ≠ []) ∧
    (ex = [] ∨ IsExponent ex) ∧ w = sg ++ (ip ++ '.' :: (fp ++ ex))

/-- A quoted string with quote character `q`: `q`, a body without `q`, `q`. -/
def IsQuoted (q : Char) (w : List Char) : Prop :=
  ∃ body, q ∉ body ∧ w = q :: (body ++ [q])

/-- One productive round of a repetition. -/
def Round (step : Pos → List Pos) (p q : Pos) : Prop := q ∈ step p ∧ q.2.length < p.2.length

/-! ## Input texts of the statements -/

/-- The decimal rendering of an integer: `-` in front of a negative number, then its digits. -/
def render (n : Int) : List Char :=
  if n < 0 then '-' :: Nat.toDigits 10 n.natAbs else Nat.toDigits 10 n.toNat

/-- The texts joined by the character `d`. -/
def joinWith (d : Char) : List (List Char) → List Char
  | [] => []
  | [x] => x
  | x :: y :: ys => x ++ d :: joinWith d (y :: ys)

/-- The text after a number does not continue it: it is empty or starts with a character that
is neither a digit nor `x`. -/
def EndsNumber (rest : List Char) : Prop :=
  rest = [] ∨ ∃ x r, rest = x :: r ∧ isdigit x = false ∧ x ≠ 'x'

/-- An integer field. -/
def integerField (n : Int) : field_t := ⟨Field.Integer, value_t.intmax n⟩

/-- A field without a value. -/
def nullField : field_t := ⟨Field.Null, value_t.empty⟩

/-- Whether an integer fits the signed 64-bit range. -/
def InRange (n : Int) : Prop := -(2 : Int) ^ 63 ≤ n ∧ n < (2 : Int) ^ 63

instance (n : Int) : Decidable (InRange n) :=
  inferInstanceAs (Decidable (-(2 : Int) ^ 63 ≤ n ∧ n < (2 : Int) ^ 63))

/-- The rendering of an optional integer: nothing when it is absent. -/
def renderEntry : Option Int → List Char
  | some n => render n
  | none => []

/-- The field expected for an optional integer. -/
def entryField : Option Int → field_t
  | some n => integerField n
  | none => nullField

/-- A delimiter that cannot be confused with a part of a decimal integer, with white space or
with the start of another literal: not white space, not a digit, none of `-`, `.`, `x`, `'`. -/
def PlainDelimiter (d : Char) : Prop :=
  isspace d = false ∧ isdigit d = false ∧ d ≠ '-' ∧ d ≠ '.' ∧ d ≠ 'x' ∧ d ≠ '\''

/-- The text that follows the first entry of a line: each further entry after a delimiter. -/
def entriesTail (d : Char) (es : List (Option Int)) : List Char :=
  es.flatMap (fun e => d :: renderEntry e)

/-- The factor of a sign: `-1` for `-`, `1` otherwise. -/
def signFactor (sg : List Char) : Int := if sg = ['-'] then -1 else 1

/-- The exponent `E` denoted by the exponent part `ex` of a literal: zero when there is no
exponent part, the signed value of its digits otherwise. -/
def ExponentIs (ex : List Char) (E : Int) : Prop :=
  (ex = [] ∧ E = 0) ∨
    ∃ e sg ds, (e = 'e' ∨ e = 'E') ∧ IsSign sg ∧ ds ≠ [] ∧ AllDigits ds ∧ ex = e :: (sg ++ ds) ∧
      E = signFactor sg * (digitsValue ds : Int)

/-- The text of a floating-point literal with sign `sg`, integer digits `ip`, fraction digits
`fp` and exponent part `ex`. -/
def floatText (sg ip fp ex : List Char) : List Char := sg ++ (ip ++ '.' :: (fp ++ ex))

/-- The pieces of a text split at `\n`: one more piece than there are `\n` in the text. -/
def splitNewline : List Char → List (List Char)
  | [] => [[]]
  | c :: t =>
    if c = '\n' then [] :: splitNewline t
    else
      match splitNewline t with
      | [] => [[c]]
      | p :: ps => (c :: p) :: ps

/-- The lines of a text: its pieces split at `\n`, except that the empty piece after a final
`\n`, and the empty piece of an empty text, is not a line. -/
def linesOf (text : List Char) : List (List Char) :=
  if (splitNewline text).getLast? = some [] then (splitNewline text).dropLast
  else splitNewline text

/-- The outcomes of `f` on the elements of a list, in order, up to the first that is not a
normal return. -/
def mapRes {α β : Type} (f : α → Res β) : List α → Res (List β)
  | [] => Res.ret []
  | x :: xs => (f x).bind (fun y => (mapRes f xs).bind (fun ys => Res.ret (y :: ys)))

/-- The cursor values of the loop of `ParseLine` (lines 78-83) run from the cursor `pos` for at
most `fuel` rounds, in the order in which they are taken: the cursor at the head of a round, the
cursor left by `ParseField`, then the values of the next round, which starts after the skip of
trailing white space. -/
def ParseLine.cursors (d : Char) : Nat → List Char → List (List Char)
  | _, [] => [[]]
  | 0, c :: t => [c :: t]
  | fuel + 1, c :: t =>
    match ParseField d (c :: t) with
    | Res.ret r => (c :: t) :: r.2 :: ParseLine.cursors d fuel (r.2.dropWhile isspace)
    | _ => [c :: t]

/-- The vector `values` of `ParseLine` (line 75) after at most `fuel` rounds of its loop from the
cursor `pos`: `emplace_back` (line 80) appends the field of every round in which `ParseField`
returns. -/
def ParseLine.appended (d : Char) : Nat → List Char → List field_t
  | _, [] => []
  | 0, _ :: _ => []
  | fuel + 1, c :: t =>
    match ParseField d (c :: t) with
    | Res.ret r => r.1 :: ParseLine.appended d fuel (r.2.dropWhile isspace)
    | _ => []

/-- The payload of a field agrees with its tag: a string for `String`, an integer for
`Integer`, a floating-point value for `Float`, the value-initialised variant `{}` (no payload)
for `Undefined` and `Null`; the tag `Boolean` does not occur. -/
def WellTagged (f : field_t) : Prop :=
  match f.type with
  | Field.String => ∃ s, f.data = value_t.string s
  | Field.Integer => ∃ n, f.data = value_t.intmax n
  | Field.Float => ∃ x, f.data = value_t.longdouble x
  | Field.Undefined => f.data = value_t.empty
  | Field.Null => f.data = value_t.empty
  | Field.Boolean => False

/-- A run of white-space characters, possibly empty. -/
def AllSpace (w : List Char) : Prop := ∀ c ∈ w, isspace c = true

instance (w : List Char) : Decidable (AllSpace w) :=
  inferInstanceAs (Decidable (∀ c ∈ w, isspace c = true))

/-- An integer rendered between two runs of white space. -/
def renderPadded (e : List Char × Int × List Char) : List Char :=
  e.1 ++ (render e.2.1 ++ e.2.2)

/-- The text that follows the first padded integer of a line: each further one after a
delimiter. -/
def paddedTail (d : Char) (es : List (List Char × Int × List Char)) : List Char :=
  es.flatMap (fun e => d :: renderPadded e)

/-- What a position reached by a match says about the matched word. -/
def Spans (P : Bool → List Char → Prop) (p q : Pos) : Prop :=
  ∃ w, P (decide (p.1 = 0)) w ∧ p.2 = w ++ q.2 ∧ q.1 = p.1 + w.length

/-! ## The range and the rounding of `long double`, as the specification describes them -/

/-- The number denoted by a floating-point literal with sign `sg`, integer digits `ip`, fraction
digits `fp` and exponent `E`. -/
def literalValue (sg ip fp : List Char) (E : Int) : ℚ :=
  (signFactor sg : ℚ) * ((digitsValue ip : ℚ) + (digitsValue fp : ℚ) / 10 ^ fp.length) *
    (10 : ℚ) ^ E

/-- The rational `v` is one on which the conversion to `long double` reports a range error. Its
magnitude is at least `(2^64 - 1/2) * 2^16320`, half a unit in the last place above the largest
finite value `(2^64 - 1) * 2^16320`. Or `v` is not zero, its magnitude is below
`(2^64 - 1/2) * 2^-16446`, so that it stays below the smallest normal value `2^-16382` when
rounded to 64 bits, and the result is not exact: `v` is not a multiple of the smallest subnormal
value `2^-16445`, and it is not one of the values `(4 * k + 1) * 2^-16447` with `2^62 ≤ k`, which
lose the single bit `2^-16447` that the C library leaves out of its test. -/
def LongDoubleRangeError (v : ℚ) : Prop :=
  ((2 : ℚ) ^ 65 - 1) * 2 ^ (16319 : ℤ) ≤ |v| ∨
    (v ≠ 0 ∧ |v| < ((2 : ℚ) ^ 65 - 1) * 2 ^ (-16447 : ℤ) ∧
      (∀ k : ℤ, v ≠ (k : ℚ) * 2 ^ (-16445 : ℤ)) ∧
      ¬ ∃ k : ℕ, 2 ^ 62 ≤ k ∧ |v| = (4 * (k : ℚ) + 1) * 2 ^ (-16447 : ℤ))

/-- The `long double` `x` is the rational `v` rounded to the nearest value of the format, a tie
to the one with an even significand. The significand of `x` has at most 64 bits, all 64 of them
are used unless the exponent is the smallest one, and the sign is that of `v`; `x` is off by at
most half a unit of its last bit; no value `y` of the format (a significand of at most 64 bits
at an exponent of at least `-16445`, of either sign) is nearer to `v` than `x` is; and when
another value is as near as `x`, the significand of `x` is even. -/
def RoundsTo (v : ℚ) (x : long_double) : Prop :=
  x.sig < 2 ^ 64 ∧ -16445 ≤ x.exp ∧ x.exp ≤ 16320 ∧
    (v = 0 → x.sig = 0) ∧ (v ≠ 0 → 2 ^ 63 ≤ x.sig ∨ x.exp = -16445) ∧
    (x.neg = true → v ≤ 0) ∧ (x.neg = false → 0 ≤ v) ∧
    |x.toRat - v| * 2 ≤ (2 : ℚ) ^ x.exp ∧
    (∀ y : long_double, y.sig < 2 ^ 64 → -16445 ≤ y.exp → |x.toRat - v| ≤ |y.toRat - v|) ∧
    (∀ y : long_double, y.sig < 2 ^ 64 → -16445 ≤ y.exp → y.toRat ≠ x.toRat →
      |y.toRat - v| = |x.toRat - v| → x.sig % 2 = 0)

/-! ## Out-of-range literals, as the specification describes them -/

/-- A decimal integer literal whose value is outside the signed 64-bit range. -/
def OutOfRangeInteger (w : List Char) : Prop :=
  ∃ sg ds, IsSign sg ∧ ds ≠ [] ∧ AllDigits ds ∧ w = sg ++ ds ∧
    ¬ InRange (signFactor sg * (digitsValue ds : Int))

/-- A floating-point literal whose value is outside the range of `long double`. -/
def OutOfRangeFloat (w : List Char) : Prop :=
  ∃ sg ip fp ex E, IsSign sg ∧ AllDigits ip ∧ AllDigits fp ∧ (ip ≠ [] ∨ fp ≠ []) ∧
    ExponentIs ex E ∧ w = floatText sg ip fp ex ∧ LongDoubleRangeError (literalValue sg ip fp E)

/-- At the cursor `pos` the text handed to a numeric conversion is an out-of-range literal: no
string matches there, and either the float pattern matches an out-of-range floating-point
literal, or the float pattern does not match and the integer pattern matches an out-of-range
integer literal. -/
def ConvertsOutOfRange (pos : List Char) : Prop :=
  RegexMatch string_regex pos = none ∧
    ((∃ w pos1, RegexMatch float_regex pos = some (w, pos1) ∧ OutOfRangeFloat w) ∨
     (RegexMatch float_regex pos = none ∧
       ∃ w pos1, RegexMatch integer_regex pos = some (w, pos1) ∧ OutOfRangeInteger w))

/-! ## Lemmas on the matcher -/

theorem mem_iterate_of_reach (step : Pos → List Pos) (q : Pos) :
    ∀ (p : Pos), Relation.ReflTransGen (Round step) p q →
      ∀ k, p.2.length ≤ k → q ∈ iterate step k p := by
  intro p h
  induction h using Relation.ReflTransGen.head_induction_on with
  | refl =>
    intro k _
    cases k <;> simp [iterate]
  | head hstep hrest ih =>
    rename_i a c
    intro k hk
    obtain ⟨hmem, hlt⟩ := hstep
    cases k with
    | zero => omega
    | succ k =>
      simp only [iterate, List.mem_cons, List.mem_flatMap, List.mem_filter, decide_eq_true_eq]
      exact Or.inr ⟨c, ⟨hmem, hlt⟩, ih k (by omega)⟩

theorem reach_of_mem_iterate (step : Pos → List Pos) (q : Pos) :
    ∀ k (p : Pos), q ∈ iterate step k p → Relation.ReflTransGen (Round step) p q := by
  intro k
  induction k with
  | zero =>
    intro p h
    simp only [iterate, List.mem_singleton] at h
    subst h
    exact Relation.ReflTransGen.refl
  | succ k ih =>
    intro p h
    simp only [iterate, List.mem_cons, List.mem_flatMap, List.mem_filter,
      decide_eq_true_eq] at h
    rcases h with h | ⟨c, ⟨hmem, hlt⟩, hq⟩
    · subst h
      exact Relation.ReflTransGen.refl
    · exact Relation.ReflTransGen.head ⟨hmem, hlt⟩ (ih c hq)

theorem mem_iterate_iff (step : Pos → List Pos) (p q : Pos) :
    q ∈ iterate step p.2.length p ↔ Relation.ReflTransGen (Round step) p q :=
  ⟨reach_of_mem_iterate step q _ p, fun h => mem_iterate_of_reach step q p h _ (le_refl _)⟩

theorem reach_iff_spans_star (step : Pos → List Pos) (P : Bool → List Char → Prop)
    (hstep : ∀ p q, q ∈ step p ↔ Spans P p q) (p q : Pos) :
    Relation.ReflTransGen (Round step) p q ↔ Spans (StarB P) p q := by
  constructor
  · intro h
    induction h using Relation.ReflTransGen.head_induction_on with
    | refl => exact ⟨[], StarB.nil _, by simp, by simp⟩
    | head hr hrest ih =>
      rename_i a c
      obtain ⟨hmem, hlt⟩ := hr
      obtain ⟨u, hu, hsu, hnu⟩ := (hstep a c).1 hmem
      obtain ⟨v, hv, hsv, hnv⟩ := ih
      have hune : u ≠ [] := by
        intro h0
        subst h0
        simp at hsu
        rw [hsu] at hlt
        omega
      have hc : decide (c.1 = 0) = false := by
        have : 0 < u.length := List.length_pos.2 hune
        simp
        omega
      rw [hc] at hv
      refine ⟨u ++ v, StarB.cons _ u v hu hune hv, ?_, ?_⟩
      · rw [hsu, hsv, List.append_assoc]
      · rw [hnv, hnu, List.length_append]
        omega
  · rintro ⟨w, hw, hs, hn⟩
    generalize hb : decide (p.1 = 0) = b at hw
    induction hw generalizing p with
    | nil b =>
      have : q = p := by
        apply Prod.ext
        · simp at hn
          exact hn
        · simp at hs
          exact hs.symm
      subst this
      exact Relation.ReflTransGen.refl
    | cons b x y hx hne _ ih =>
      have hpos : 0 < x.length := List.length_pos.2 hne
      have hmid : ((p.1 + x.length, y ++ q.2) : Pos) ∈ step p := by
        rw [hstep]
        refine ⟨x, ?_, ?_, rfl⟩
        · rw [hb]
          exact hx
        · rw [hs, List.append_assoc]
      have hround : Round step p (p.1 + x.length, y ++ q.2) := by
        refine ⟨hmid, ?_⟩
        rw [hs]
        simp only [List.length_append]
        omega
      refine Relation.ReflTransGen.head hround (ih (p.1 + x.length, y ++ q.2) rfl ?_ ?_)
      · show q.1 = p.1 + x.length + y.length
        rw [hn, List.length_append]
        omega
      · show decide (p.1 + x.length = 0) = false
        simp only [decide_eq_false_iff_not]
        omega

/-- The matcher and the words of an expression agree. -/
theorem mem_run_iff (r : Regex) : ∀ (p q : Pos), q ∈ r.run p ↔ Spans r.lang p q := by
  induction r with
  | bol =>
    intro p q
    simp only [Regex.run, Spans, Regex.lang]
    constructor
    · intro h
      by_cases h0 : p.1 = 0
      · simp [h0] at h
        subst h
        exact ⟨[], by simp [h0], by simp, by simp⟩
      · simp [h0] at h
    · rintro ⟨w, ⟨hb, hw⟩, hs, hn⟩
      subst hw
      have h0 : p.1 = 0 := by simpa using hb
      have : q = p := Prod.ext (by simpa using hn) (by simpa using hs.symm)
      simp [h0, this]
  | chr c =>
    intro p q
    obtain ⟨n, s⟩ := p
    simp only [Regex.run, Spans, Regex.lang]
    cases s with
    | nil => simp
    | cons x t =>
      by_cases hx : x = c
      · simp [hx]
        constructor
        · intro h
          subst h
          simp
        · rintro ⟨h1, h2⟩
          exact Prod.ext h2 h1.symm
      · simp [hx]
  | cls k =>
    intro p q
    obtain ⟨n, s⟩ := p
    simp only [Regex.run, Spans, Regex.lang]
    cases s with
    | nil =>
      simp only [List.not_mem_nil, false_iff]
      rintro ⟨w, ⟨y, _, hw⟩, h1, _⟩
      subst hw
      simp at h1
    | cons x t =>
      by_cases hx : k.test x = true
      · simp [hx]
        constructor
        · intro h
          subst h
          exact ⟨[x], ⟨x, hx, rfl⟩, by simp, by simp⟩
        · rintro ⟨w, ⟨y, hy, hw⟩, h1, h2⟩
          subst hw
          simp at h1 h2
          exact Prod.ext h2 h1.2.symm
      · simp [hx]
        rintro w y hy hw h1
        subst hw
        simp at h1
        rw [h1.1] at hx
        exact absurd hy hx
  | seq r1 r2 ih1 ih2 =>
    intro p q
    simp only [Regex.run, List.mem_flatMap, Regex.lang]
    constructor
    · rintro ⟨m, hm, hq⟩
      obtain ⟨u, hu, hsu, hnu⟩ := (ih1 p m).1 hm
      obtain ⟨v, hv, hsv, hnv⟩ := (ih2 m q).1 hq
      refine ⟨u ++ v, ⟨u, v, hu, ?_, rfl⟩, ?_, ?_⟩
      · have : decide (m.1 = 0) = (decide (p.1 = 0) && u.isEmpty) := by
          rw [hnu]
          cases u <;> simp
        rw [← this]
        exact hv
      · rw [hsu, hsv, List.append_assoc]
      · rw [hnv, hnu, List.length_append]
        omega
    · rintro ⟨w, ⟨u, v, hu, hv, hw⟩, hs, hn⟩
      subst hw
      refine ⟨(p.1 + u.length, v ++ q.2), (ih1 _ _).2 ⟨u, hu, ?_, rfl⟩, (ih2 _ _).2 ⟨v, ?_, rfl, ?_⟩⟩
      · rw [hs, List.append_assoc]
      · have : decide (p.1 + u.length = 0) = (decide (p.1 = 0) && u.isEmpty) := by
          cases u <;> simp
        simp only [this]
        exact hv
      · rw [hn, List.length_append]
        omega
  | alt r1 r2 ih1 ih2 =>
    intro p q
    simp only [Regex.run, List.mem_append, Regex.lang, ih1 p q, ih2 p q, Spans]
    constructor
    · rintro (⟨w, hw, h1, h2⟩ | ⟨w, hw, h1, h2⟩)
      · exact ⟨w, Or.inl hw, h1, h2⟩
      · exact ⟨w, Or.inr hw, h1, h2⟩
    · rintro ⟨w, hw | hw, h1, h2⟩
      · exact Or.inl ⟨w, hw, h1, h2⟩
      · exact Or.inr ⟨w, hw, h1, h2⟩
  | star r ih =>
    intro p q
    simp only [Regex.run]
    rw [mem_iterate_iff, reach_iff_spans_star r.run r.lang ih]
    rfl
  | plus r ih =>
    intro p q
    simp only [Regex.run, List.mem_flatMap, Regex.lang]
    constructor
    · rintro ⟨m, hm, hq⟩
      obtain ⟨u, hu, hsu, hnu⟩ := (ih p m).1 hm
      rw [mem_iterate_iff, reach_iff_spans_star r.run r.lang ih] at hq
      obtain ⟨v, hv, hsv, hnv⟩ := hq
      refine ⟨u ++ v, ⟨u, v, hu, ?_, rfl⟩, ?_, ?_⟩
      · have : decide (m.1 = 0) = (decide (p.1 = 0) && u.isEmpty) := by
          rw [hnu]
          cases u <;> simp
        rw [← this]
        exact hv
      · rw [hsu, hsv, List.append_assoc]
      · rw [hnv, hnu, List.length_append]
        omega
    · rintro ⟨w, ⟨u, v, hu, hv, hw⟩, hs, hn⟩
      subst hw
      refine ⟨(p.1 + u.length, v ++ q.2), (ih _ _).2 ⟨u, hu, ?_, rfl⟩, ?_⟩
      · rw [hs, List.append_assoc]
      · rw [mem_iterate_iff, reach_iff_spans_star r.run r.lang ih]
        refine ⟨v, ?_, rfl, ?_⟩
        · have : decide (p.1 + u.length = 0) = (decide (p.1 = 0) && u.isEmpty) := by
            cases u <;> simp
          simp only [this]
          exact hv
        · rw [hn, List.length_append]
          omega
  | opt r ih =>
    intro p q
    simp only [Regex.run, List.mem_append, List.mem_singleton, Regex.lang, ih p q, Spans]
    constructor
    · rintro (⟨w, hw, h1, h2⟩ | h)
      · exact ⟨w, Or.inl hw, h1, h2⟩
      · subst h
        exact ⟨[], Or.inr rfl, by simp, by simp⟩
    · rintro ⟨w, hw | hw, h1, h2⟩
      · exact Or.inl ⟨w, hw, h1, h2⟩
      · subst hw
        exact Or.inr (Prod.ext (by simpa using h2) (by simpa using h1.symm))

/-! ## Lemmas on the search -/

theorem longest_eq_none_iff (l : List Pos) : longest l = none ↔ l = [] := by
  cases l with
  | nil => simp [longest]
  | cons p ps =>
    simp only [longest]
    cases longest ps <;> simp

theorem longest_eq_some_iff (l : List Pos) (m : Nat) :
    longest l = some m ↔ (∃ q ∈ l, q.1 = m) ∧ ∀ q ∈ l, q.1 ≤ m := by
  induction l generalizing m with
  | nil => simp [longest]
  | cons p ps ih =>
    simp only [longest]
    cases hps : longest ps with
    | none =>
      have hnil : ps = [] := (longest_eq_none_iff ps).1 hps
      subst hnil
      simp only [Option.some.injEq, List.mem_singleton, exists_eq_left, forall_eq]
      constructor
      · intro h
        exact ⟨h, le_of_eq h⟩
      · intro h
        exact h.1
    | some k =>
      obtain ⟨⟨q0, hq0, hq0k⟩, hle⟩ := (ih k).1 hps
      simp only [Option.some.injEq, List.mem_cons, exists_eq_or_imp, forall_eq_or_imp]
      constructor
      · intro h
        subst h
        refine ⟨?_, le_max_left _ _, fun q hq => le_trans (hle q hq) (le_max_right _ _)⟩
        rcases le_total p.1 k with hpk | hpk
        · exact Or.inr ⟨q0, hq0, by rw [hq0k, max_eq_right hpk]⟩
        · exact Or.inl (max_eq_left hpk).symm
      · rintro ⟨hex, hp, hall⟩
        have hkm : k ≤ m := hq0k ▸ hall q0 hq0
        rcases hex with h | ⟨q, hq, hqm⟩
        · rw [← h] at hkm
          rw [← h]
          exact max_eq_left hkm
        · have : m ≤ k := hqm ▸ hle q hq
          have hmk : m = k := le_antisymm this hkm
          rw [hmk] at hp
          rw [hmk]
          exact max_eq_right hp

/-- A match at the cursor that no other match at the cursor exceeds is the one `RegexMatch`
returns, and the cursor moves past it. -/
theorem RegexMatch_of_longest_word (r : Regex) (w t : List Char) (hw : r.lang true w)
    (hmax : ∀ w1 t1, r.lang true w1 → w ++ t = w1 ++ t1 → w1.length ≤ w.length) :
    RegexMatch r (w ++ t) = some (w, t) := by
  have hl : longest (r.run (0, w ++ t)) = some w.length := by
    rw [longest_eq_some_iff]
    constructor
    · exact ⟨(w.length, t), (mem_run_iff r _ _).2 ⟨w, by simpa using hw, rfl, by simp⟩, rfl⟩
    · intro q hq
      obtain ⟨w1, hw1, hs, hn⟩ := (mem_run_iff r _ _).1 hq
      rw [hn]
      simp only [Nat.zero_add]
      exact hmax w1 q.2 (by simpa using hw1) hs
  have hs : regex_search r (w ++ t) = some (0, w.length) := by
    unfold regex_search
    cases hwt : w ++ t with
    | nil =>
      rw [hwt] at hl
      simp [searchFrom, hl]
    | cons x u =>
      rw [hwt] at hl
      simp [searchFrom, hl]
  simp [RegexMatch, hs]

theorem searchFrom_eq_none (r : Regex) :
    ∀ (s : List Char) (i : Nat), (∀ k, k ≤ s.length → r.run (i + k, s.drop k) = []) →
      searchFrom r i s = none := by
  intro s
  induction s with
  | nil =>
    intro i h
    have h0 := h 0 (le_refl _)
    simp only [Nat.add_zero, List.drop_nil] at h0
    simp [searchFrom, h0, longest]
  | cons x t ih =>
    intro i h
    have h0 := h 0 (Nat.zero_le _)
    simp only [Nat.add_zero, List.drop_zero] at h0
    have ht : searchFrom r (i + 1) t = none := by
      apply ih
      intro k hk
      have := h (k + 1) (by simp only [List.length_cons]; omega)
      rw [List.drop_succ_cons] at this
      rw [← this]
      congr 2
      omega
    simp [searchFrom, h0, longest, ht]

/-- Nothing matches when no word of the expression occurs anywhere in the text. -/
theorem RegexMatch_eq_none (r : Regex) (s : List Char)
    (h : ∀ u w t, s = u ++ (w ++ t) → ¬ r.lang (decide (u.length = 0)) w) :
    RegexMatch r s = none := by
  have hs : regex_search r s = none := by
    unfold regex_search
    apply searchFrom_eq_none
    intro k hk
    rw [List.eq_nil_iff_forall_not_mem]
    intro q hq
    obtain ⟨w, hw, hsw, _⟩ := (mem_run_iff r _ _).1 hq
    simp only [Nat.zero_add] at hw
    apply h (s.take k) w q.2
    · rw [← hsw]
      exact (List.take_append_drop k s).symm
    · rw [List.length_take, Nat.min_eq_left hk]
      exact hw
  simp [RegexMatch, hs]

/-! ## The words of the three patterns -/

theorem starB_single (P : Bool → List Char → Prop) (t : Char → Prop)
    (hP : ∀ b w, P b w ↔ ∃ x, t x ∧ w = [x]) (b : Bool) (w : List Char) :
    StarB P b w ↔ ∀ c ∈ w, t c := by
  constructor
  · intro h
    induction h with
    | nil b => simp
    | cons b x y hx _ _ ih =>
      obtain ⟨c, hc, hxc⟩ := (hP b x).1 hx
      subst hxc
      intro c1 hc1
      simp only [List.singleton_append, List.mem_cons] at hc1
      rcases hc1 with h | h
      · rw [h]
        exact hc
      · exact ih c1 h
  · intro h
    induction w generalizing b with
    | nil => exact StarB.nil b
    | cons x t1 ih =>
      have hx : P b [x] := (hP b [x]).2 ⟨x, h x (List.mem_cons_self _ _), rfl⟩
      have ht : StarB P false t1 := ih false (fun c hc => h c (List.mem_cons_of_mem _ hc))
      exact StarB.cons b [x] t1 hx (by simp) ht

theorem starB_cls (k : Bracket) (b : Bool) (w : List Char) :
    StarB (Regex.cls k).lang b w ↔ ∀ c ∈ w, k.test c = true :=
  starB_single _ (fun c => k.test c = true) (fun _ _ => Iff.rfl) b w

theorem lang_plus_cls (k : Bracket) (b : Bool) (w : List Char) :
    (Regex.plus (Regex.cls k)).lang b w ↔ w ≠ [] ∧ ∀ c ∈ w, k.test c = true := by
  show (∃ u v, (∃ x, k.test x = true ∧ u = [x]) ∧
    StarB (Regex.cls k).lang (b && u.isEmpty) v ∧ w = u ++ v) ↔ _
  simp only [starB_cls]
  constructor
  · rintro ⟨u, v, ⟨x, hx, hu⟩, hv, hw⟩
    subst hu hw
    refine ⟨by simp, ?_⟩
    intro c hc
    simp only [List.singleton_append, List.mem_cons] at hc
    rcases hc with h | h
    · rw [h]
      exact hx
    · exact hv c h
  · rintro ⟨hne, hall⟩
    cases w with
    | nil => exact absurd rfl hne
    | cons x t =>
      exact ⟨[x], t, ⟨x, hall x (List.mem_cons_self _ _), rfl⟩,
        fun c hc => hall c (List.mem_cons_of_mem _ hc), rfl⟩

theorem lang_opt_sign (b : Bool) (w : List Char) : (Regex.opt sign).lang b w ↔ IsSign w := by
  simp only [Regex.lang, sign, Bracket.test, IsSign]
  constructor
  · rintro (⟨x, hx, hw⟩ | hw)
    · simp at hx
      rcases hx with h | h
      · exact Or.inr (Or.inl (by rw [hw, h]))
      · exact Or.inr (Or.inr (by rw [hw, h]))
    · exact Or.inl hw
  · rintro (h | h | h)
    · exact Or.inr h
    · exact Or.inl ⟨'+', by decide, h⟩
    · exact Or.inl ⟨'-', by decide, h⟩

theorem lang_plus_digit (b : Bool) (w : List Char) :
    (Regex.plus digit).lang b w ↔ w ≠ [] ∧ AllDigits w := by
  unfold digit
  rw [lang_plus_cls]
  rfl

/-- The words of `integer_regex`: a hexadecimal literal at the front of the range, or a decimal
literal anywhere. -/
theorem lang_integer_regex (b : Bool) (w : List Char) :
    integer_regex.lang b w ↔ (b = true ∧ IsHexLiteral w) ∨ IsDecimalLiteral w := by
  have hdec : (Regex.cat (Regex.opt sign) [Regex.plus digit]).lang b w ↔ IsDecimalLiteral w := by
    simp only [Regex.cat]
    show (∃ u v, (Regex.opt sign).lang b u ∧ (Regex.plus digit).lang _ v ∧ w = u ++ v) ↔ _
    simp only [lang_opt_sign, lang_plus_digit, IsDecimalLiteral]
    constructor
    · rintro ⟨u, v, hu, ⟨hv1, hv2⟩, hw⟩
      exact ⟨u, v, hu, hv1, hv2, hw⟩
    · rintro ⟨u, v, hu, hv1, hv2, hw⟩
      exact ⟨u, v, hu, ⟨hv1, hv2⟩, hw⟩
  have hhex : (Regex.cat Regex.bol
      [Regex.chr '0', Regex.chr 'x', Regex.plus (Regex.cls Bracket.xdigit)]).lang b w ↔
      (b = true ∧ IsHexLiteral w) := by
    simp only [Regex.cat]
    show (∃ u v, (b = true ∧ u = []) ∧ (∃ u1 v1, u1 = ['0'] ∧ (∃ u2 v2, u2 = ['x'] ∧
      (Regex.plus (Regex.cls Bracket.xdigit)).lang _ v2 ∧ v1 = u2 ++ v2) ∧ v = u1 ++ v1) ∧
      w = u ++ v) ↔ _
    simp only [lang_plus_cls, IsHexLiteral, Bracket.test]
    constructor
    · rintro ⟨u, v, ⟨hb, hu⟩, ⟨u1, v1, hu1, ⟨u2, v2, hu2, ⟨hne, hall⟩, hv1⟩, hv⟩, hw⟩
      subst hu hu1 hu2 hv1 hv hw
      exact ⟨hb, v2, hne, hall, rfl⟩
    · rintro ⟨hb, hs, hne, hall, hw⟩
      exact ⟨[], w, ⟨hb, rfl⟩, ⟨['0'], 'x' :: hs, rfl, ⟨['x'], hs, rfl, ⟨hne, hall⟩, rfl⟩,
        by rw [hw]; rfl⟩, rfl⟩
  show (_ ∨ _) ↔ _
  rw [← hdec, ← hhex]

theorem lang_cls_dot (b : Bool) (w : List Char) :
    (Regex.cls (Bracket.oneOf ['.'])).lang b w ↔ w = ['.'] := by
  simp only [Regex.lang, Bracket.test]
  constructor
  · rintro ⟨x, hx, hw⟩
    simp at hx
    rw [hw, hx]
  · intro h
    exact ⟨'.', by decide, h⟩

theorem lang_star_digit (b : Bool) (w : List Char) :
    (Regex.star digit).lang b w ↔ AllDigits w := by
  show StarB (Regex.cls Bracket.digit).lang b w ↔ _
  rw [starB_cls]
  rfl

/-- The words of the mantissa part of `float_regex`. -/
theorem lang_mantissa (b : Bool) (w : List Char) :
    (Regex.alt
       (Regex.cat (Regex.plus digit) [Regex.cls (Bracket.oneOf ['.']), Regex.star digit])
       (Regex.cat (Regex.cls (Bracket.oneOf ['.'])) [Regex.plus digit])).lang b w ↔
    ∃ ip fp, AllDigits ip ∧ AllDigits fp ∧ (ip ≠ [] ∨ fp ≠ []) ∧ w = ip ++ '.' :: fp := by
  simp only [Regex.cat]
  show ((∃ u v, (Regex.plus digit).lang b u ∧ (∃ u1 v1,
      (Regex.cls (Bracket.oneOf ['.'])).lang _ u1 ∧ (Regex.star digit).lang _ v1 ∧ v = u1 ++ v1) ∧
      w = u ++ v) ∨
    (∃ u v, (Regex.cls (Bracket.oneOf ['.'])).lang b u ∧ (Regex.plus digit).lang _ v ∧
      w = u ++ v)) ↔ _
  simp only [lang_plus_digit, lang_cls_dot, lang_star_digit]
  constructor
  · rintro (⟨u, v, ⟨hne, hu⟩, ⟨u1, v1, hu1, hv1, hv⟩, hw⟩ | ⟨u, v, hu, ⟨hne, hv⟩, hw⟩)
    · subst hu1 hv hw
      exact ⟨u, v1, hu, hv1, Or.inl hne, rfl⟩
    · subst hu hw
      exact ⟨[], v, by simp [AllDigits], hv, Or.inr hne, rfl⟩
  · rintro ⟨ip, fp, hip, hfp, hne, hw⟩
    by_cases h : ip = []
    · subst h
      have hfpne : fp ≠ [] := by
        rcases hne with h1 | h1
        · exact absurd rfl h1
        · exact h1
      exact Or.inr ⟨['.'], fp, rfl, ⟨hfpne, hfp⟩, hw⟩
    · exact Or.inl ⟨ip, '.' :: fp, ⟨h, hip⟩, ⟨['.'], fp, rfl, hfp, rfl⟩, hw⟩

/-- The words of the optional exponent part of `float_regex`. -/
theorem lang_exponent_opt (b : Bool) (w : List Char) :
    (Regex.opt (Regex.cat (Regex.cls (Bracket.oneOf ['e', 'E']))
      [Regex.opt sign, Regex.plus digit])).lang b w ↔ (w = [] ∨ IsExponent w) := by
  simp only [Regex.cat]
  show ((∃ u v, (∃ x, (Bracket.oneOf ['e', 'E']).test x = true ∧ u = [x]) ∧ (∃ u1 v1,
      (Regex.opt sign).lang _ u1 ∧ (Regex.plus digit).lang _ v1 ∧ v = u1 ++ v1) ∧ w = u ++ v) ∨
      w = []) ↔ _
  simp only [lang_opt_sign, lang_plus_digit, IsExponent, Bracket.test]
  constructor
  · rintro (⟨u, v, ⟨x, hx, hu⟩, ⟨u1, v1, hu1, ⟨hne, hv1⟩, hv⟩, hw⟩ | h)
    · subst hu hv hw
      simp at hx
      exact Or.inr ⟨x, u1, v1, hx, hu1, hne, hv1, rfl⟩
    · exact Or.inl h
  · rintro (h | ⟨e, sg, ds, he, hsg, hne, hds, hw⟩)
    · exact Or.inr h
    · refine Or.inl ⟨[e], sg ++ ds, ⟨e, ?_, rfl⟩, ⟨sg, ds, hsg, ⟨hne, hds⟩, rfl⟩, hw⟩
      rcases he with h | h <;> subst h <;> decide

/-- The words of `float_regex`: floating-point literals at the front of the range. -/
theorem lang_float_regex (b : Bool) (w : List Char) :
    float_regex.lang b w ↔ (b = true ∧ IsFloatLiteral w) := by
  unfold float_regex
  simp only [Regex.cat]
  show (∃ u v, (b = true ∧ u = []) ∧ (∃ u1 v1, (Regex.opt sign).lang _ u1 ∧ (∃ u2 v2,
      (Regex.alt
       (Regex.cat (Regex.plus digit) [Regex.cls (Bracket.oneOf ['.']), Regex.star digit])
       (Regex.cat (Regex.cls (Bracket.oneOf ['.'])) [Regex.plus digit])).lang _ u2 ∧
      (Regex.opt (Regex.cat (Regex.cls (Bracket.oneOf ['e', 'E']))
        [Regex.opt sign, Regex.plus digit])).lang _ v2 ∧ v1 = u2 ++ v2) ∧ v = u1 ++ v1) ∧
      w = u ++ v) ↔ _
  simp only [lang_opt_sign, lang_mantissa, lang_exponent_opt, IsFloatLiteral]
  constructor
  · rintro ⟨u, v, ⟨hb, hu⟩, ⟨u1, v1, hu1, ⟨u2, v2, ⟨ip, fp, hip, hfp, hne, hu2⟩, hv2, hv1⟩, hv⟩,
      hw⟩
    subst hu hu2 hv1 hv hw
    refine ⟨hb, u1, ip, fp, v2, hu1, hip, hfp, hne, hv2, ?_⟩
    simp
  · rintro ⟨hb, sg, ip, fp, ex, hsg, hip, hfp, hne, hex, hw⟩
    refine ⟨[], w, ⟨hb, rfl⟩, ⟨sg, ip ++ '.' :: (fp ++ ex), hsg,
      ⟨ip ++ '.' :: fp, ex, ⟨ip, fp, hip, hfp, hne, rfl⟩, hex, by simp⟩, hw⟩, rfl⟩

/-- The words of the body of a quoted string: a `.` or a character other than the quote. -/
theorem starB_body (q : Char) (hq : q ≠ '.') (b : Bool) (w : List Char) :
    StarB (Regex.alt (Regex.chr '.') (Regex.cls (Bracket.noneOf [q]))).lang b w ↔ q ∉ w := by
  rw [starB_single _ (fun c => c ≠ q)]
  · constructor
    · intro h hmem
      exact h q hmem rfl
    · intro h c hc hcq
      rw [hcq] at hc
      exact h hc
  · intro b1 w1
    show (w1 = ['.'] ∨ ∃ x, (Bracket.noneOf [q]).test x = true ∧ w1 = [x]) ↔ _
    simp only [Bracket.test]
    constructor
    · rintro (h | ⟨x, hx, hw⟩)
      · exact ⟨'.', fun h1 => hq h1.symm, h⟩
      · refine ⟨x, ?_, hw⟩
        simpa using hx
    · rintro ⟨x, hx, hw⟩
      exact Or.inr ⟨x, by simpa using hx, hw⟩

/-- The words of one branch of `string_regex`, without its anchor. -/
theorem lang_quoted (q : Char) (hq : q ≠ '.') (b : Bool) (w : List Char) :
    (Regex.cat (Regex.chr q)
      [Regex.star (Regex.alt (Regex.chr '.') (Regex.cls (Bracket.noneOf [q]))),
       Regex.chr q]).lang b w ↔ IsQuoted q w := by
  simp only [Regex.cat]
  show (∃ u v, u = [q] ∧ (∃ u1 v1,
      StarB (Regex.alt (Regex.chr '.') (Regex.cls (Bracket.noneOf [q]))).lang _ u1 ∧
      v1 = [q] ∧ v = u1 ++ v1) ∧ w = u ++ v) ↔ _
  simp only [starB_body q hq, IsQuoted]
  constructor
  · rintro ⟨u, v, hu, ⟨u1, v1, hu1, hv1, hv⟩, hw⟩
    subst hu hv1 hv hw
    exact ⟨u1, hu1, rfl⟩
  · rintro ⟨body, hbody, hw⟩
    exact ⟨[q], body ++ [q], rfl, ⟨body, [q], hbody, rfl, rfl⟩, hw⟩

/-- The words of `string_regex`: a double-quoted string at the front of the range, or a
single-quoted string anywhere. -/
theorem lang_string_regex (b : Bool) (w : List Char) :
    string_regex.lang b w ↔ (b = true ∧ IsQuoted '"' w) ∨ IsQuoted '\'' w := by
  unfold string_regex
  rw [← lang_quoted '"' (by decide) b w, ← lang_quoted '\'' (by decide) b w]
  show ((∃ u v, (b = true ∧ u = []) ∧ (Regex.cat (Regex.chr '"')
      [Regex.star (Regex.alt (Regex.chr '.') (Regex.cls (Bracket.noneOf ['"']))),
       Regex.chr '"']).lang (b && u.isEmpty) v ∧ w = u ++ v) ∨ _) ↔ _
  constructor
  · rintro (⟨u, v, ⟨hb, hu⟩, hv, hw⟩ | h)
    · subst hu
      simp only [List.nil_append] at hw
      subst hw
      rw [lang_quoted '"' (by decide)] at hv
      rw [lang_quoted '"' (by decide)]
      exact Or.inl ⟨hb, hv⟩
    · exact Or.inr h
  · rintro (⟨hb, h⟩ | h)
    · refine Or.inl ⟨[], w, ⟨hb, rfl⟩, ?_, rfl⟩
      rw [lang_quoted '"' (by decide)] at h
      rw [lang_quoted '"' (by decide)]
      exact h
    · exact Or.inr h

/-! ## Lemmas on decimal literals -/


theorem prefix_length_le (p : Char → Bool) (a b u v : List Char) (h : a ++ b = u ++ v)
    (hu : ∀ c ∈ u, p c = true) (hb : b = [] ∨ ∃ x r, b = x :: r ∧ p x = false) :
    u.length ≤ a.length := by
  rcases List.append_eq_append_iff.1 h with ⟨c, hc, hbc⟩ | ⟨c, hc, _⟩
  · cases c with
    | nil =>
      simp at hc
      rw [hc]
    | cons y ys =>
      rcases hb with hb | ⟨x, r, hb, hx⟩
      · rw [hb] at hbc
        simp at hbc
      · rw [hb] at hbc
        simp at hbc
        have : p y = true := hu y (by rw [hc]; simp)
        rw [← hbc.1, hx] at this
        exact absurd this (by simp)
  · rw [hc]
    simp


theorem allDigits_cons {c : Char} {ds : List Char} (h : AllDigits (c :: ds)) :
    isdigit c = true ∧ AllDigits ds :=
  ⟨h c (List.mem_cons_self _ _), fun x hx => h x (List.mem_cons_of_mem _ hx)⟩

theorem RegexMatch_string_none (s : List Char) (h1 : '\'' ∉ s) (h2 : s.head? ≠ some '"') :
    RegexMatch string_regex s = none := by
  apply RegexMatch_eq_none
  intro u w t hs hw
  rw [lang_string_regex] at hw
  rcases hw with ⟨hb, body, _, hw⟩ | ⟨body, _, hw⟩
  · have hu : u = [] := by
      cases u with
      | nil => rfl
      | cons x xs => simp at hb
    subst hu hw
    subst hs
    simp at h2
  · subst hw
    subst hs
    simp at h1

theorem RegexMatch_float_none (s : List Char) (h : '.' ∉ s) :
    RegexMatch float_regex s = none := by
  apply RegexMatch_eq_none
  intro u w t hs hw
  rw [lang_float_regex] at hw
  obtain ⟨_, sg, ip, fp, ex, _, _, _, _, _, hw⟩ := hw
  subst hw
  subst hs
  simp at h

theorem RegexMatch_integer_decimal (lit rest : List Char) (hlit : IsDecimalLiteral lit)
    (hrest : EndsNumber rest) :
    RegexMatch integer_regex (lit ++ rest) = some (lit, rest) := by
  apply RegexMatch_of_longest_word
  · rw [lang_integer_regex]
    exact Or.inr hlit
  · intro w1 t1 hw1 heq
    rw [lang_integer_regex] at hw1
    obtain ⟨sg, ds, hsg, hne, hds, hl⟩ := hlit
    subst hl
    obtain ⟨c, ds1, hcd⟩ := List.exists_cons_of_ne_nil hne
    subst hcd
    obtain ⟨hc, hds1⟩ := allDigits_cons hds
    have hrest1 : rest = [] ∨ ∃ x r, rest = x :: r ∧ isdigit x = false := by
      rcases hrest with h | ⟨x, r, h, hx, _⟩
      · exact Or.inl h
      · exact Or.inr ⟨x, r, h, hx⟩
    rcases hw1 with ⟨_, hs, hne1, _, hw⟩ | ⟨sg1, es, hsg1, hne1, hes, hw⟩
    · -- a hexadecimal literal cannot start where a decimal literal does
      subst hw
      exfalso
      rcases hsg with h | h | h <;> subst h
      · simp only [List.nil_append, List.cons_append, List.cons.injEq] at heq
        obtain ⟨h0, h1⟩ := heq
        cases ds1 with
        | nil =>
          rcases hrest with h | ⟨x, r, h, _, hx⟩
          · rw [h] at h1
            simp at h1
          · rw [h] at h1
            simp at h1
            exact hx h1.1
        | cons y ys =>
          simp at h1
          have := hds1 y (List.mem_cons_self _ _)
          rw [h1.1] at this
          exact absurd this (by decide)
      · simp at heq
      · simp at heq
    · subst hw
      obtain ⟨e, es1, hes1⟩ := List.exists_cons_of_ne_nil hne1
      subst hes1
      obtain ⟨he, _⟩ := allDigits_cons hes
      rcases hsg with h | h | h <;> subst h <;> rcases hsg1 with h1 | h1 | h1 <;> subst h1
      · have := prefix_length_le isdigit (c :: ds1) rest (e :: es1) t1 (by simpa using heq) hes hrest1
        simpa using this
      · simp at heq
        rw [heq.1] at hc
        exact absurd hc (by decide)
      · simp at heq
        rw [heq.1] at hc
        exact absurd hc (by decide)
      · simp at heq
        rw [← heq.1] at he
        exact absurd he (by decide)
      · have := prefix_length_le isdigit (c :: ds1) rest (e :: es1) t1 (by simpa using heq) hes hrest1
        simpa using this
      · simp at heq
      · simp at heq
        rw [← heq.1] at he
        exact absurd he (by decide)
      · simp at heq
      · have := prefix_length_le isdigit (c :: ds1) rest (e :: es1) t1 (by simpa using heq) hes hrest1
        simpa using this


theorem digitsValue_append (xs : List Char) (y : Char) :
    digitsValue (xs ++ [y]) = digitsValue xs * 10 + (y.toNat - 48) := by
  simp [digitsValue, List.foldl_append]

theorem digitChar_spec (k : Nat) (hk : k < 10) :
    isdigit (Nat.digitChar k) = true ∧ (Nat.digitChar k).toNat - 48 = k := by
  interval_cases k <;> decide

theorem toDigitsCore_spec : ∀ (fuel n : Nat) (acc : List Char), n < fuel →
    ∃ pre, Nat.toDigitsCore 10 fuel n acc = pre ++ acc ∧ pre ≠ [] ∧ AllDigits pre ∧
      digitsValue pre = n := by
  intro fuel
  induction fuel with
  | zero => intro n acc h; omega
  | succ fuel ih =>
    intro n acc h
    simp only [Nat.toDigitsCore]
    have hmod := digitChar_spec (n % 10) (Nat.mod_lt _ (by decide))
    by_cases h0 : n / 10 = 0
    · simp only [h0, if_true]
      refine ⟨[Nat.digitChar (n % 10)], rfl, by simp, ?_, ?_⟩
      · intro c hc
        simp at hc
        rw [hc]
        exact hmod.1
      · have hn : n % 10 = n := by omega
        simp only [digitsValue, List.foldl_cons, List.foldl_nil, Nat.zero_mul, Nat.zero_add]
        rw [hmod.2, hn]
    · simp only [h0, if_false]
      obtain ⟨pre, hpre, hne, hall, hval⟩ := ih (n / 10) (Nat.digitChar (n % 10) :: acc) (by omega)
      refine ⟨pre ++ [Nat.digitChar (n % 10)], by rw [hpre]; simp, by simp, ?_, ?_⟩
      · intro c hc
        simp at hc
        rcases hc with hc | hc
        · exact hall c hc
        · rw [hc]
          exact hmod.1
      · rw [digitsValue_append, hval, hmod.2]
        omega

theorem toDigits_spec (n : Nat) :
    Nat.toDigits 10 n ≠ [] ∧ AllDigits (Nat.toDigits 10 n) ∧ digitsValue (Nat.toDigits 10 n) = n := by
  obtain ⟨pre, hpre, hne, hall, hval⟩ := toDigitsCore_spec (n + 1) n [] (by omega)
  simp only [List.append_nil] at hpre
  unfold Nat.toDigits
  rw [hpre]
  exact ⟨hne, hall, hval⟩

theorem render_isDecimalLiteral (n : Int) : IsDecimalLiteral (render n) := by
  unfold render
  split
  · obtain ⟨h1, h2, _⟩ := toDigits_spec n.natAbs
    exact ⟨['-'], _, Or.inr (Or.inr rfl), h1, h2, rfl⟩
  · obtain ⟨h1, h2, _⟩ := toDigits_spec n.toNat
    exact ⟨[], _, Or.inl rfl, h1, h2, rfl⟩

theorem isspace_of_isdigit {c : Char} (h : isdigit c = true) : isspace c = false := by
  unfold isdigit at h
  unfold isspace
  simp only [Bool.and_eq_true, decide_eq_true_eq] at h
  have hne : c ≠ ' ' := by
    intro hc
    rw [hc] at h
    revert h
    decide
  simp [hne]
  omega

theorem takeWhile_allDigits (ds rest : List Char) (h : AllDigits ds)
    (hrest : rest = [] ∨ ∃ x r, rest = x :: r ∧ isdigit x = false) :
    (ds ++ rest).takeWhile isdigit = ds := by
  induction ds with
  | nil =>
    rcases hrest with h | ⟨x, r, h, hx⟩
    · simp [h]
    · simp [h, List.takeWhile_cons, hx]
  | cons c ds ih =>
    have hc : isdigit c = true := h c (List.mem_cons_self _ _)
    simp only [List.cons_append, List.takeWhile_cons, hc, if_true]
    rw [ih (fun x hx => h x (List.mem_cons_of_mem _ hx))]

/-- The value `stoll` reads from a decimal literal (followed by anything that is not a digit). -/
theorem stoll_decimal (sg ds rest : List Char) (hsg : IsSign sg) (hne : ds ≠ [])
    (hds : AllDigits ds) (hrest : rest = [] ∨ ∃ x r, rest = x :: r ∧ isdigit x = false) :
    stoll (sg ++ ds ++ rest) =
      (let v : Int := if sg = ['-'] then -(digitsValue ds : Int) else (digitsValue ds : Int)
       if v < -(2 : Int) ^ 63 ∨ (2 : Int) ^ 63 ≤ v then Res.throws Exc.out_of_range
       else Res.ret v) := by
  obtain ⟨c, ds1, hcd⟩ := List.exists_cons_of_ne_nil hne
  have hc : isdigit c = true := hds c (by rw [hcd]; simp)
  have hsp : isspace c = false := isspace_of_isdigit hc
  have hcp : c ≠ '+' := by intro h; rw [h] at hc; exact absurd hc (by decide)
  have hcm : c ≠ '-' := by intro h; rw [h] at hc; exact absurd hc (by decide)
  have htw := takeWhile_allDigits ds rest hds hrest
  have hemp : ds.isEmpty = false := by rw [hcd]; rfl
  rcases hsg with h | h | h <;> subst h
  · have h1 : ([] ++ ds ++ rest).dropWhile isspace = ds ++ rest := by
      rw [hcd]
      simp [List.dropWhile_cons, hsp]
    have h2 : dropSign (ds ++ rest) = ds ++ rest := by
      rw [hcd]
      simp only [List.cons_append]
      unfold dropSign
      split
      · rename_i heq; simp at heq; exact absurd heq.1 hcp
      · rename_i heq; simp at heq; exact absurd heq.1 hcm
      · rfl
    have h3 : hasMinus (ds ++ rest) = false := by
      rw [hcd]
      simp only [List.cons_append]
      unfold hasMinus
      split
      · rename_i heq; simp at heq; exact absurd heq.1 hcm
      · rfl
    simp only [stoll, h1, h2, h3, htw, hemp]
    simp
  · have h1 : (['+'] ++ ds ++ rest).dropWhile isspace = '+' :: (ds ++ rest) := by
      simp [List.dropWhile_cons, show isspace '+' = false by decide]
    simp only [stoll, h1, dropSign, hasMinus, htw, hemp]
    simp
  · have h1 : (['-'] ++ ds ++ rest).dropWhile isspace = '-' :: (ds ++ rest) := by
      simp [List.dropWhile_cons, show isspace '-' = false by decide]
    simp only [stoll, h1, dropSign, hasMinus, htw, hemp]
    simp

theorem stoll_render (n : Int) (h1 : -(2 : Int) ^ 63 ≤ n) (h2 : n < (2 : Int) ^ 63) :
    stoll (render n) = Res.ret n := by
  have hr : ¬ (n < -(2 : Int) ^ 63 ∨ (2 : Int) ^ 63 ≤ n) := by
    rintro (h | h)
    · exact absurd h1 (not_le.2 h)
    · exact absurd h2 (not_lt.2 h)
  unfold render
  split
  · rename_i hneg
    obtain ⟨hne, hds, hval⟩ := toDigits_spec n.natAbs
    have := stoll_decimal ['-'] _ [] (Or.inr (Or.inr rfl)) hne hds (Or.inl rfl)
    simp only [List.append_nil, List.singleton_append] at this
    rw [this, hval]
    have hn : -((n.natAbs : Nat) : Int) = n := by omega
    simp only [if_true, hn]
    rw [if_neg hr]
  · rename_i hneg
    obtain ⟨hne, hds, hval⟩ := toDigits_spec n.toNat
    have := stoll_decimal [] _ [] (Or.inl rfl) hne hds (Or.inl rfl)
    simp only [List.append_nil, List.nil_append] at this
    rw [this, hval]
    have hn : ((n.toNat : Nat) : Int) = n := by omega
    have hf : ¬ (([] : List Char) = ['-']) := by simp
    simp only [hn, if_neg hf]
    rw [if_neg hr]

/-! ## The field lexer and the record scanner on decimal integers -/

theorem decimal_head (lit : List Char) (h : IsDecimalLiteral lit) :
    ∃ c t, lit = c :: t ∧ (isdigit c = true ∨ c = '+' ∨ c = '-') := by
  obtain ⟨sg, ds, hsg, hne, hds, hl⟩ := h
  obtain ⟨c, ds1, hcd⟩ := List.exists_cons_of_ne_nil hne
  subst hcd
  rcases hsg with h | h | h <;> subst h
  · exact ⟨c, ds1, hl, Or.inl (hds c (List.mem_cons_self _ _))⟩
  · exact ⟨'+', c :: ds1, hl, Or.inr (Or.inl rfl)⟩
  · exact ⟨'-', c :: ds1, hl, Or.inr (Or.inr rfl)⟩

theorem decimal_head_not_space {c : Char} (h : isdigit c = true ∨ c = '+' ∨ c = '-') :
    isspace c = false := by
  rcases h with h | h | h
  · exact isspace_of_isdigit h
  · rw [h]; decide
  · rw [h]; decide

/-- The three patterns on a decimal literal: the string and float patterns do not match, the
integer pattern matches the literal. -/
theorem classify_decimal (lit rest : List Char) (hlit : IsDecimalLiteral lit)
    (hrest : EndsNumber rest) (hq : '\'' ∉ lit ++ rest) (hdot : '.' ∉ lit ++ rest) :
    ParseField.classify (lit ++ rest) =
      (stoll lit).bind (fun n => Res.ret (⟨Field.Integer, value_t.intmax n⟩, rest)) := by
  obtain ⟨c, t, hct, hc⟩ := decimal_head lit hlit
  have hhead : (lit ++ rest).head? ≠ some '"' := by
    rw [hct]
    simp only [List.cons_append, List.head?_cons, ne_eq, Option.some.injEq]
    rintro rfl
    rcases hc with h | h | h
    · exact absurd h (by decide)
    · exact absurd h (by decide)
    · exact absurd h (by decide)
  unfold ParseField.classify
  rw [RegexMatch_string_none _ hq hhead, RegexMatch_float_none _ hdot,
    RegexMatch_integer_decimal lit rest hlit hrest]

/-- The first round of the skip loop. -/
theorem ParseField_cons (d c : Char) (t : List Char) :
    ParseField d (c :: t) =
      if isspace c || c == d then
        match t with
        | [] => Res.undefined
        | c1 :: _ =>
          if c1 = d then Res.ret (⟨Field.Null, value_t.empty⟩, t)
          else ParseField d t
      else ParseField.classify (c :: t) := by
  cases t <;> rfl

/-- The skip loop does nothing in front of a character that is neither white space nor the
delimiter. -/
theorem ParseField_no_skip (d c : Char) (t : List Char) (h1 : isspace c = false) (h2 : c ≠ d) :
    ParseField d (c :: t) = ParseField.classify (c :: t) := by
  rw [ParseField_cons]
  simp [h1, h2]

/-- The skip loop steps over one delimiter that is followed by another character. -/
theorem ParseField_skip_one (d c : Char) (t : List Char) (h : c ≠ d) :
    ParseField d (d :: c :: t) = ParseField d (c :: t) := by
  rw [ParseField_cons]
  simp [h]

/-- An empty field: a delimiter directly followed by a delimiter. -/
theorem ParseField_null (d : Char) (t : List Char) :
    ParseField d (d :: d :: t) = Res.ret (nullField, d :: t) := by
  rw [ParseField_cons]
  simp [nullField]

theorem render_chars (n : Int) : ∀ c ∈ render n, isdigit c = true ∨ c = '-' := by
  intro c hc
  unfold render at hc
  split at hc
  · simp only [List.mem_cons] at hc
    rcases hc with h | h
    · exact Or.inr h
    · exact Or.inl ((toDigits_spec _).2.1 c h)
  · exact Or.inl ((toDigits_spec _).2.1 c hc)

theorem joinWith_cons (d : Char) (x : List Char) (xs : List (List Char)) :
    joinWith d (x :: xs) = x ++ xs.flatMap (fun y => d :: y) := by
  induction xs generalizing x with
  | nil => simp [joinWith]
  | cons y ys ih => simp [joinWith, ih y]

theorem entriesTail_chars (d : Char) (es : List (Option Int)) :
    ∀ c ∈ entriesTail d es, c = d ∨ isdigit c = true ∨ c = '-' := by
  intro c hc
  simp only [entriesTail, List.mem_flatMap, List.mem_cons] at hc
  obtain ⟨e, _, h | h⟩ := hc
  · exact Or.inl h
  · cases e with
    | none => simp [renderEntry] at h
    | some n => exact Or.inr (render_chars n c h)

theorem entriesTail_endsNumber (d : Char) (hd : PlainDelimiter d) (es : List (Option Int)) :
    EndsNumber (entriesTail d es) := by
  cases es with
  | nil => exact Or.inl rfl
  | cons e es => exact Or.inr ⟨d, _, rfl, hd.2.1, hd.2.2.2.2.1⟩

theorem entriesTail_dropSpace (d : Char) (hd : PlainDelimiter d) (es : List (Option Int)) :
    (entriesTail d es).dropWhile isspace = entriesTail d es := by
  cases es with
  | nil => rfl
  | cons e es =>
    show (d :: _).dropWhile isspace = _
    rw [List.dropWhile_cons, hd.1]
    rfl

/-- The field lexer on a rendered integer that is followed by further entries. -/
theorem ParseField_render (d : Char) (hd : PlainDelimiter d) (n : Int) (hn : InRange n)
    (es : List (Option Int)) :
    ParseField d (render n ++ entriesTail d es) = Res.ret (integerField n, entriesTail d es) := by
  obtain ⟨hsp, hdig, hminus, hdot, hx, hq⟩ := hd
  have hlit := render_isDecimalLiteral n
  obtain ⟨c, t, hct, hc⟩ := decimal_head _ hlit
  have hcd : c ≠ d := by
    rintro rfl
    have := render_chars n c (by rw [hct]; simp)
    rcases this with h | h
    · rw [h] at hdig
      exact absurd hdig (by simp)
    · exact hminus h
  have hchars : ∀ x ∈ render n ++ entriesTail d es, x = d ∨ isdigit x = true ∨ x = '-' := by
    intro x hx
    rcases List.mem_append.1 hx with h | h
    · exact Or.inr (render_chars n x h)
    · exact entriesTail_chars d es x h
  have h1 : '\'' ∉ render n ++ entriesTail d es := by
    intro h
    rcases hchars _ h with h | h | h
    · exact hq h.symm
    · exact absurd h (by decide)
    · exact absurd h (by decide)
  have h2 : '.' ∉ render n ++ entriesTail d es := by
    intro h
    rcases hchars _ h with h | h | h
    · exact hdot h.symm
    · exact absurd h (by decide)
    · exact absurd h (by decide)
  have hcl := classify_decimal (render n) (entriesTail d es) hlit
    (entriesTail_endsNumber d ⟨hsp, hdig, hminus, hdot, hx, hq⟩ es) h1 h2
  rw [stoll_render n hn.1 hn.2] at hcl
  have hns := ParseField_no_skip d c (t ++ entriesTail d es) (decimal_head_not_space hc) hcd
  rw [hct] at hcl ⊢
  rw [List.cons_append, hns, ← List.cons_append, hcl]
  rfl

/-- The loop of the record scanner on the entries after the first one: one field per entry. -/
theorem loop_entriesTail (d : Char) (hd : PlainDelimiter d) :
    ∀ (es : List (Option Int)), (∀ n, some n ∈ es → InRange n) →
      (es = [] ∨ ∃ n, es.getLast? = some (some n)) →
      ∀ fuel, es.length ≤ fuel →
        ParseLine.loop d fuel (entriesTail d es) = Res.ret (es.map entryField) := by
  intro es
  induction es with
  | nil =>
    intro _ _ fuel _
    cases fuel <;> rfl
  | cons e es ih =>
    intro hr hlast fuel hfuel
    cases fuel with
    | zero => simp at hfuel
    | succ fuel =>
      have hlast1 : es = [] ∨ ∃ n, es.getLast? = some (some n) := by
        cases es with
        | nil => exact Or.inl rfl
        | cons e1 es1 =>
          rcases hlast with h | ⟨n, h⟩
          · simp at h
          · exact Or.inr ⟨n, by simpa [List.getLast?_cons_cons] using h⟩
      have ihe := ih (fun n hn => hr n (List.mem_cons_of_mem _ hn)) hlast1 fuel
        (by simpa using hfuel)
      have hfield : ParseField d (d :: (renderEntry e ++ entriesTail d es)) =
          Res.ret (entryField e, entriesTail d es) := by
        cases e with
        | some n =>
          have hpr := ParseField_render d hd n (hr n (List.mem_cons_self _ _)) es
          obtain ⟨c, t, hct, hc⟩ := decimal_head _ (render_isDecimalLiteral n)
          have hcd : c ≠ d := by
            rintro rfl
            rcases render_chars n c (by rw [hct]; simp) with h | h
            · have h2 := hd.2.1
              rw [h] at h2
              exact absurd h2 (by simp)
            · exact hd.2.2.1 h
          show ParseField d (d :: (render n ++ entriesTail d es)) = _
          rw [hct] at hpr ⊢
          rw [List.cons_append, ParseField_skip_one d c _ hcd, ← List.cons_append, hpr]
          rfl
        | none =>
          cases es with
          | nil =>
            rcases hlast with h | ⟨n, h⟩
            · simp at h
            · simp at h
          | cons e1 es1 =>
            show ParseField d (d :: d :: _) = _
            rw [ParseField_null]
            rfl
      show ParseLine.loop d (fuel + 1) (d :: (renderEntry e ++ entriesTail d es)) = _
      simp only [ParseLine.loop, hfield, Res.bind, entriesTail_dropSpace d hd, ihe]
      rfl

/-- The record scanner on a line of optional integers whose first and last entries are
present: one field per entry. -/
theorem ParseLine_entries (d : Char) (hd : PlainDelimiter d) (n0 : Int) (es : List (Option Int))
    (h0 : InRange n0) (hr : ∀ n, some n ∈ es → InRange n)
    (hlast : es = [] ∨ ∃ n, es.getLast? = some (some n)) (fuel : Nat)
    (hfuel : es.length + 1 ≤ fuel) :
    ParseLine fuel d (joinWith d ((some n0 :: es).map renderEntry)) =
      Res.ret ((some n0 :: es).map entryField) := by
  have hjoin : joinWith d ((some n0 :: es).map renderEntry) = render n0 ++ entriesTail d es := by
    rw [List.map_cons, joinWith_cons]
    simp [renderEntry, entriesTail, List.flatMap_map]
  rw [hjoin]
  cases fuel with
  | zero => simp at hfuel
  | succ fuel =>
    have hpr := ParseField_render d hd n0 h0 es
    have hl := loop_entriesTail d hd es hr hlast fuel (by omega)
    obtain ⟨c, t, hct, _⟩ := decimal_head _ (render_isDecimalLiteral n0)
    unfold ParseLine
    rw [hct] at hpr ⊢
    rw [List.cons_append] at hpr ⊢
    simp only [ParseLine.loop, hpr, Res.bind, entriesTail_dropSpace d hd, hl]
    rfl

/-! ## Statements on lines of integers -/

theorem loop_cons (d : Char) (fuel : Nat) (c : Char) (t : List Char) :
    ParseLine.loop d (fuel + 1) (c :: t) =
      (ParseField d (c :: t)).bind (fun r =>
        (ParseLine.loop d fuel (r.2.dropWhile isspace)).bind (fun values =>
          Res.ret (r.1 :: values))) := rfl

/-- More rounds do not change the outcome of a scan that has come to an end. -/
theorem loop_succ (d : Char) : ∀ (fuel : Nat) (s : List Char),
    ParseLine.loop d fuel s ≠ Res.running →
      ParseLine.loop d (fuel + 1) s = ParseLine.loop d fuel s := by
  intro fuel
  induction fuel with
  | zero =>
    intro s h
    cases s with
    | nil => rfl
    | cons c t => exact absurd rfl h
  | succ fuel ih =>
    intro s h
    cases s with
    | nil => rfl
    | cons c t =>
      rw [loop_cons] at h
      rw [loop_cons d (fuel + 1), loop_cons d fuel]
      cases hf : ParseField d (c :: t) with
      | ret r =>
        rw [hf] at h
        simp only [Res.bind] at h ⊢
        have h1 : ParseLine.loop d fuel (r.2.dropWhile isspace) ≠ Res.running := by
          intro h2
          rw [h2] at h
          exact h rfl
        rw [ih _ h1]
      | throws e => rfl
      | undefined => rfl
      | running => rfl

theorem loop_add (d : Char) (fuel k : Nat) (s : List Char)
    (h : ParseLine.loop d fuel s ≠ Res.running) :
    ParseLine.loop d (fuel + k) s = ParseLine.loop d fuel s := by
  induction k with
  | zero => rfl
  | succ k ih =>
    rw [← Nat.add_assoc, loop_succ d (fuel + k) s (by rw [ih]; exact h), ih]

/-- C1: for every non-empty list of integers of the signed 64-bit range, `ParseLine<','>` on
their decimal renderings joined by `,` comes to an end (a budget of one round per integer is
enough) and returns exactly one field per integer, in order, each with tag `Integer` and that
integer as payload. -/
theorem C1_ParseLine_integers (ns : List Int) (hne : ns ≠ []) (hr : ∀ n ∈ ns, InRange n)
    (fuel : Nat) (hfuel : ns.length ≤ fuel) :
    ParseLine fuel ',' (joinWith ',' (ns.map render)) =
      Res.ret (ns.map (fun n => (⟨Field.Integer, value_t.intmax n⟩ : field_t))) := by
  obtain ⟨n0, ns1, hns⟩ := List.exists_cons_of_ne_nil hne
  subst hns
  have hd : PlainDelimiter ',' := by
    refine ⟨by decide, by decide, by decide, by decide, by decide, by decide⟩
  have h := ParseLine_entries ',' hd n0 (ns1.map some) (hr n0 (List.mem_cons_self _ _))
    (by
      intro n hn
      simp only [List.mem_map, Option.some.injEq, exists_eq_right] at hn
      exact hr n (List.mem_cons_of_mem _ hn))
    (by
      rcases List.eq_nil_or_concat ns1 with h | ⟨l, b, h⟩
      · exact Or.inl (by rw [h]; rfl)
      · exact Or.inr ⟨b, by rw [h]; simp⟩)
    fuel (by simpa using hfuel)
  have e1 : (some n0 :: ns1.map some).map renderEntry = (n0 :: ns1).map render := by
    simp [renderEntry, List.map_map, Function.comp_def]
  have e2 : (some n0 :: ns1.map some).map entryField =
      (n0 :: ns1).map (fun n => (⟨Field.Integer, value_t.intmax n⟩ : field_t)) := by
    simp [entryField, integerField, List.map_map, Function.comp_def]
  rw [e1, e2] at h
  exact h

theorem C1_witness :
    joinWith ',' ([1, 2, 3].map render) = "1,2,3".toList ∧
    ParseLine 3 ',' "1,2,3".toList =
      Res.ret [⟨Field.Integer, value_t.intmax 1⟩, ⟨Field.Integer, value_t.intmax 2⟩,
        ⟨Field.Integer, value_t.intmax 3⟩] :=
  ⟨by decide, C1_ParseLine_integers [1, 2, 3] (by simp) (by decide) 3 (by decide)⟩

/-- C9, as stated, fails: with the delimiter `.` (not white space) the entries 1 and 2 give
the line `1.2`, which is read as one `Float` field, not as `Integer 1`, `Integer 2`. -/
theorem C9_counterexample :
    isspace '.' = false ∧
    joinWith '.' ([some 1, some 2].map renderEntry) = "1.2".toList ∧
    ParseLine 2 '.' "1.2".toList =
      Res.ret [⟨Field.Float, value_t.longdouble ⟨false, 11068046444225730970, -63⟩⟩] ∧
    ParseLine 2 '.' "1.2".toList ≠ Res.ret ([some 1, some 2].map entryField) := by
  decide!

/-- The other delimiters left out of `PlainDelimiter` break the statement as well: a digit, `-`,
`x` and `'`. -/
theorem plainDelimiter_exclusions :
    ParseLine 2 '0' (joinWith '0' ([some 1, some 2].map renderEntry)) =
      Res.ret [⟨Field.Integer, value_t.intmax 102⟩] ∧
    ParseLine 3 '-' (joinWith '-' ([some 1, some (-2)].map renderEntry)) =
      Res.ret [⟨Field.Integer, value_t.intmax 1⟩, ⟨Field.Null, value_t.empty⟩,
        ⟨Field.Integer, value_t.intmax 2⟩] ∧
    ParseLine 2 'x' (joinWith 'x' ([some 0, some 1].map renderEntry)) =
      Res.ret [⟨Field.Integer, value_t.intmax 0⟩] ∧
    ParseLine 3 '\'' (joinWith '\'' ([some 1, none, some 2].map renderEntry)) =
      Res.ret [⟨Field.String, value_t.string []⟩, ⟨Field.Integer, value_t.intmax 2⟩] := by
  decide

/-- C9, amended: for every delimiter `d` that is not white space, not a digit and none of `-`,
`.`, `x`, `'`, and every list of optional integers of the signed 64-bit range whose first and
last entries are present, `ParseLine<d>` on the entries rendered in decimal (an absent entry as
the empty text) and joined by `d` returns one field per entry, in order: `Integer n` for a present
entry, `Null` for an absent one. And `ParseField` started on a delimiter that is directly followed
by a second delimiter returns `Null` and leaves the cursor on the second delimiter. -/
theorem C9_empty_fields (d : Char) (hd : PlainDelimiter d) (entries : List (Option Int))
    (hfirst : ∃ n, entries.head? = some (some n))
    (hlast : ∃ n, entries.getLast? = some (some n))
    (hr : ∀ n, some n ∈ entries → InRange n) (fuel : Nat) (hfuel : entries.length ≤ fuel) :
    ParseLine fuel d (joinWith d (entries.map renderEntry)) =
      Res.ret (entries.map (fun e =>
        match e with
        | some n => (⟨Field.Integer, value_t.intmax n⟩ : field_t)
        | none => ⟨Field.Null, value_t.empty⟩)) ∧
    ∀ t, ParseField d (d :: d :: t) = Res.ret (⟨Field.Null, value_t.empty⟩, d :: t) := by
  refine ⟨?_, fun t => ParseField_null d t⟩
  obtain ⟨n0, h0⟩ := hfirst
  cases entries with
  | nil => simp at h0
  | cons e es =>
    simp only [List.head?_cons, Option.some.injEq] at h0
    subst h0
    have hl : es = [] ∨ ∃ n, es.getLast? = some (some n) := by
      cases es with
      | nil => exact Or.inl rfl
      | cons e1 es1 =>
        obtain ⟨n, hn⟩ := hlast
        exact Or.inr ⟨n, by simpa [List.getLast?_cons_cons] using hn⟩
    have h := ParseLine_entries d hd n0 es (hr n0 (List.mem_cons_self _ _))
      (fun n hn => hr n (List.mem_cons_of_mem _ hn)) hl fuel (by simpa using hfuel)
    rw [h]
    rfl

theorem C9_witness :
    PlainDelimiter ',' ∧
    joinWith ',' ([some 1, none, some 2].map renderEntry) = "1,,2".toList ∧
    ParseLine 3 ',' "1,,2".toList =
      Res.ret [⟨Field.Integer, value_t.intmax 1⟩, ⟨Field.Null, value_t.empty⟩,
        ⟨Field.Integer, value_t.intmax 2⟩] ∧
    ParseField ',' ",,2".toList = Res.ret (⟨Field.Null, value_t.empty⟩, ",2".toList) :=
  have hd : PlainDelimiter ',' := ⟨by decide, by decide, by decide, by decide, by decide, by decide⟩
  have h := C9_empty_fields ',' hd [some 1, none, some 2] ⟨1, rfl⟩ ⟨2, rfl⟩
    (by
      intro n hn
      simp only [List.mem_cons, Option.some.injEq, List.mem_singleton, reduceCtorEq,
        List.not_mem_nil, or_false, false_or] at hn
      rcases hn with h | h <;> subst h <;> decide) 3
    (by decide)
  ⟨hd, by decide, h.1, h.2 ['2']⟩

/-! ## Quoted strings -/

theorem quote_split_unique (q : Char) : ∀ (b1 b2 t1 t2 : List Char), q ∉ b1 → q ∉ b2 →
    b1 ++ q :: t1 = b2 ++ q :: t2 → b1 = b2 ∧ t1 = t2 := by
  intro b1
  induction b1 with
  | nil =>
    intro b2 t1 t2 _ h2 h
    cases b2 with
    | nil => simpa using h
    | cons y ys =>
      simp only [List.nil_append, List.cons_append, List.cons.injEq] at h
      exact absurd (by rw [h.1]; simp) h2
  | cons x xs ih =>
    intro b2 t1 t2 h1 h2 h
    cases b2 with
    | nil =>
      simp only [List.nil_append, List.cons_append, List.cons.injEq] at h
      exact absurd (by rw [← h.1]; simp) h1
    | cons y ys =>
      simp only [List.cons_append, List.cons.injEq] at h
      obtain ⟨hb, ht⟩ := ih ys t1 t2 (fun hm => h1 (List.mem_cons_of_mem _ hm))
        (fun hm => h2 (List.mem_cons_of_mem _ hm)) h.2
      exact ⟨by rw [h.1, hb], ht⟩

/-- The string pattern on a quoted string at the cursor: the match ends at the first closing
quote. -/
theorem RegexMatch_string_quoted (q : Char) (hq : q = '"' ∨ q = '\'') (body rest : List Char)
    (hbody : q ∉ body) :
    RegexMatch string_regex (q :: (body ++ q :: rest)) = some (q :: (body ++ [q]), rest) := by
  have hsplit : q :: (body ++ q :: rest) = (q :: (body ++ [q])) ++ rest := by simp
  rw [hsplit]
  apply RegexMatch_of_longest_word
  · rw [lang_string_regex]
    rcases hq with h | h
    · subst h
      exact Or.inl ⟨rfl, body, hbody, rfl⟩
    · subst h
      exact Or.inr ⟨body, hbody, rfl⟩
  · intro w1 t1 hw1 heq
    rw [lang_string_regex] at hw1
    have key : ∀ q1 body1, q1 ∉ body1 → w1 = q1 :: (body1 ++ [q1]) → w1.length ≤ (q :: (body ++ [q])).length := by
      intro q1 body1 hb1 hw
      subst hw
      simp only [List.cons_append, List.append_assoc, List.singleton_append, List.cons.injEq] at heq
      obtain ⟨hqq, hrest⟩ := heq
      subst hqq
      obtain ⟨hb, _⟩ := quote_split_unique q body body1 rest t1 hbody hb1 hrest
      rw [hb]
    rcases hw1 with ⟨_, body1, hb1, hw⟩ | ⟨body1, hb1, hw⟩
    · exact key _ body1 hb1 hw
    · exact key _ body1 hb1 hw

/-- C2: for each quote character `q` (double or single quote), every body without `q` (it may
contain the delimiter) and every rest, `ParseField<','>` started at the beginning of
`q ++ body ++ q ++ rest` returns tag `String` with payload exactly `body` and leaves the cursor
`body.length + 2` characters further, at `rest`. -/
theorem C2_quoted_string (q : Char) (hq : q = '"' ∨ q = '\'') (body rest : List Char)
    (hbody : q ∉ body) :
    ParseField ',' (q :: (body ++ q :: rest)) =
      Res.ret (⟨Field.String, value_t.string body⟩, rest) ∧
    rest = (q :: (body ++ q :: rest)).drop (body.length + 2) := by
  constructor
  · have hsp : isspace q = false := by rcases hq with h | h <;> subst h <;> decide
    have hcomma : q ≠ ',' := by rcases hq with h | h <;> subst h <;> decide
    rw [ParseField_no_skip ',' q _ hsp hcomma]
    unfold ParseField.classify
    rw [RegexMatch_string_quoted q hq body rest hbody]
    simp
  · simp [List.drop_append]

theorem C2_witness :
    ParseField ',' "\"a,b\",2".toList =
      Res.ret (⟨Field.String, value_t.string "a,b".toList⟩, ",2".toList) ∧
    ParseLine 2 ',' "\"a,b\",2".toList =
      Res.ret [⟨Field.String, value_t.string "a,b".toList⟩, ⟨Field.Integer, value_t.intmax 2⟩] :=
  ⟨(C2_quoted_string '"' (Or.inl rfl) "a,b".toList ",2".toList (by decide)).1, by decide⟩

/-! ## Floating-point literals -/

theorem dropWhile_allDigits (ds rest : List Char) (h : AllDigits ds)
    (hrest : rest = [] ∨ ∃ x r, rest = x :: r ∧ isdigit x = false) :
    (ds ++ rest).dropWhile isdigit = rest := by
  induction ds with
  | nil =>
    rcases hrest with h | ⟨x, r, h, hx⟩
    · simp [h]
    · simp [h, List.dropWhile_cons, hx]
  | cons c ds ih =>
    have hc : isdigit c = true := h c (List.mem_cons_self _ _)
    simp only [List.cons_append, List.dropWhile_cons, hc, if_true]
    exact ih (fun x hx => h x (List.mem_cons_of_mem _ hx))

theorem sign_digits_scan (sg ds : List Char) (hsg : IsSign sg) (hne : ds ≠ [])
    (hds : AllDigits ds) :
    (dropSign (sg ++ ds)).takeWhile isdigit = ds ∧ hasMinus (sg ++ ds) = decide (sg = ['-']) := by
  obtain ⟨c, ds1, hcd⟩ := List.exists_cons_of_ne_nil hne
  have hc : isdigit c = true := hds c (by rw [hcd]; simp)
  have hcp : c ≠ '+' := by intro h; rw [h] at hc; exact absurd hc (by decide)
  have hcm : c ≠ '-' := by intro h; rw [h] at hc; exact absurd hc (by decide)
  have htw := takeWhile_allDigits ds [] hds (Or.inl rfl)
  rw [List.append_nil] at htw
  rcases hsg with h | h | h <;> subst h
  · have h2 : dropSign ([] ++ ds) = ds := by
      rw [hcd]
      simp only [List.nil_append]
      unfold dropSign
      split
      · rename_i heq; simp at heq; exact absurd heq.1 hcp
      · rename_i heq; simp at heq; exact absurd heq.1 hcm
      · rfl
    have h3 : hasMinus ([] ++ ds) = false := by
      rw [hcd]
      simp only [List.nil_append]
      unfold hasMinus
      split
      · rename_i heq; simp at heq; exact absurd heq.1 hcm
      · rfl
    rw [h2, h3, htw]
    simp
  · simp [dropSign, hasMinus, htw]
  · simp [dropSign, hasMinus, htw]

theorem exponentValue_of_exponentIs (ex : List Char) (E : Int) (h : ExponentIs ex E) :
    exponentValue ex = E := by
  rcases h with ⟨h1, h2⟩ | ⟨e, sg, ds, he, hsg, hne, hds, hex, hE⟩
  · subst h1 h2
    rfl
  · subst hex hE
    obtain ⟨h1, h2⟩ := sign_digits_scan sg ds hsg hne hds
    have hemp : ds.isEmpty = false := by
      cases ds with
      | nil => exact absurd rfl hne
      | cons _ _ => rfl
    simp only [exponentValue, he, if_true, h1, h2, hemp, signFactor]
    by_cases hm : sg = ['-'] <;> simp [hm]

theorem exponent_head (ex : List Char) (E : Int) (h : ExponentIs ex E) :
    ex = [] ∨ ∃ x r, ex = x :: r ∧ isdigit x = false := by
  rcases h with ⟨h1, _⟩ | ⟨e, sg, ds, he, _, _, _, hex, _⟩
  · exact Or.inl h1
  · refine Or.inr ⟨e, _, hex, ?_⟩
    rcases he with h | h <;> subst h <;> decide

/-! ## The conversion to `long double` -/

theorem bitLength_go_zero (fuel acc : Nat) : bitLength.go fuel 0 acc = acc := by
  cases fuel <;> simp [bitLength.go]

theorem bitLength_go_spec : ∀ fuel n acc, n ≤ fuel → n ≠ 0 →
    ∃ k, bitLength.go fuel n acc = acc + k + 1 ∧ 2 ^ k ≤ n ∧ n < 2 ^ (k + 1) := by
  intro fuel
  induction fuel with
  | zero => intro n acc h h0; omega
  | succ fuel ih =>
    intro n acc h h0
    simp only [bitLength.go, if_neg h0]
    by_cases h2 : n / 2 = 0
    · rw [h2, bitLength_go_zero]
      refine ⟨0, rfl, ?_, ?_⟩ <;> omega
    · obtain ⟨k, hk, hlo, hhi⟩ := ih (n / 2) (acc + 1) (by omega) h2
      refine ⟨k + 1, by rw [hk]; omega, ?_, ?_⟩
      · rw [pow_succ]; omega
      · rw [pow_succ]; omega

theorem bitLength_spec (n : Nat) (h : n ≠ 0) :
    ∃ k, bitLength n = k + 1 ∧ 2 ^ k ≤ n ∧ n < 2 ^ (k + 1) := by
  obtain ⟨k, hk, h1, h2⟩ := bitLength_go_spec n n 0 (le_refl _) h
  exact ⟨k, by rw [bitLength, hk]; omega, h1, h2⟩

theorem scaledDen_pos (den : Nat) (e : Int) (h : 0 < den) : 0 < scaledDen den e := by
  unfold scaledDen
  split
  · exact Nat.mul_pos h (by positivity)
  · exact h

theorem scaled_ratio (num den : Nat) (e : Int) (hden : 0 < den) :
    (scaledNum num e : ℚ) / (scaledDen den e : ℚ) = (num : ℚ) / den * (2 : ℚ) ^ (-e) := by
  have hd : (den : ℚ) ≠ 0 := Nat.cast_ne_zero.2 (by omega)
  unfold scaledNum scaledDen
  by_cases h : 0 ≤ e
  · rw [if_pos h, if_pos h]
    obtain ⟨k, rfl⟩ := Int.eq_ofNat_of_zero_le h
    simp only [Int.toNat_ofNat, Nat.cast_mul, Nat.cast_pow, Nat.cast_ofNat, zpow_neg,
      zpow_natCast]
    field_simp
  · rw [if_neg h, if_neg h]
    obtain ⟨k, hk⟩ : ∃ k : Nat, -e = k := Int.eq_ofNat_of_zero_le (by omega)
    rw [hk]
    simp only [Int.toNat_ofNat, Nat.cast_mul, Nat.cast_pow, Nat.cast_ofNat, zpow_natCast]
    field_simp

/-- The two cases of rounding, on the quotient and the remainder. -/
theorem round_cases (n d : Nat) (hd : 0 < d) :
    ∃ q r, n = d * q + r ∧ r < d ∧ n / d = q ∧ n % d = r ∧
      ((roundNearestEven n d = q + 1 ∧ (d < 2 * r ∨ (2 * r = d ∧ q % 2 = 1))) ∨
       (roundNearestEven n d = q ∧ ¬ (d < 2 * r ∨ (2 * r = d ∧ q % 2 = 1)))) := by
  refine ⟨n / d, n % d, (Nat.div_add_mod n d).symm, Nat.mod_lt n hd, rfl, rfl, ?_⟩
  unfold roundNearestEven
  by_cases h : d < 2 * (n % d) ∨ (2 * (n % d) = d ∧ (n / d) % 2 = 1)
  · rw [if_pos h]; exact Or.inl ⟨rfl, h⟩
  · rw [if_neg h]; exact Or.inr ⟨rfl, h⟩

/-- Rounding is off by at most one half, by exactly one half only towards an even number. -/
theorem round_spec (n d : Nat) (hd : 0 < d) :
    |(roundNearestEven n d : ℚ) - (n : ℚ) / d| * 2 ≤ 1 ∧
    (|(roundNearestEven n d : ℚ) - (n : ℚ) / d| * 2 = 1 → roundNearestEven n d % 2 = 0) ∧
    (n % d = 0 → (roundNearestEven n d : ℚ) = (n : ℚ) / d) := by
  obtain ⟨q, r, hn, hr, _, hmod, hcase⟩ := round_cases n d hd
  have hdq : (0 : ℚ) < d := by exact_mod_cast hd
  have hy : (n : ℚ) / d = q + (r : ℚ) / d := by
    rw [hn]; push_cast; field_simp; ring
  have ht0 : (0 : ℚ) ≤ (r : ℚ) / d := by positivity
  have ht1 : (r : ℚ) / d < 1 := by rw [div_lt_one hdq]; exact_mod_cast hr
  have hlt : d < 2 * r ↔ (1 : ℚ) < 2 * ((r : ℚ) / d) := by
    rw [show 2 * ((r : ℚ) / d) = (2 * r : ℚ) / d by ring, one_lt_div hdq]
    exact_mod_cast Iff.rfl
  have heq : 2 * r = d ↔ 2 * ((r : ℚ) / d) = 1 := by
    rw [show 2 * ((r : ℚ) / d) = (2 * r : ℚ) / d by ring, div_eq_one_iff_eq hdq.ne']
    exact_mod_cast Iff.rfl
  have hz : r = 0 → (r : ℚ) / d = 0 := by intro h; rw [h]; simp
  rw [hy]
  generalize (r : ℚ) / d = t at *
  rcases hcase with ⟨hs, hc⟩ | ⟨hs, hc⟩
  · rw [hs]
    push_cast
    have h12 : 1 ≤ 2 * t := by
      rcases hc with h | ⟨h, _⟩
      · exact le_of_lt (hlt.1 h)
      · exact le_of_eq (heq.1 h).symm
    have habs : |(q : ℚ) + 1 - (q + t)| = 1 - t := by
      rw [abs_of_nonneg] <;> linarith
    rw [habs]
    refine ⟨by linarith, ?_, ?_⟩
    · intro h
      have : 2 * t = 1 := by linarith
      rcases hc with h1 | ⟨_, h1⟩
      · have := hlt.1 h1; linarith
      · omega
    · intro h0
      rw [hmod] at h0
      subst h0
      rcases hc with h | ⟨h, _⟩ <;> omega
  · rw [hs]
    have h12 : 2 * t ≤ 1 := by
      by_contra hcon
      exact hc (Or.inl (hlt.2 (by linarith)))
    have habs : |(q : ℚ) - (q + t)| = t := by
      rw [abs_of_nonpos] <;> linarith
    rw [habs]
    refine ⟨by linarith, ?_, ?_⟩
    · intro h
      have h2 : 2 * r = d := heq.2 (by linarith)
      have : ¬ q % 2 = 1 := fun h3 => hc (Or.inr ⟨h2, h3⟩)
      omega
    · intro h0
      rw [hmod] at h0
      rw [hz h0]
      simp

theorem two_zpow_pos (z : Int) : (0 : ℚ) < 2 ^ z := zpow_pos (by norm_num) z

theorem two_zpow_le {a b : Int} (h : a ≤ b) : (2 : ℚ) ^ a ≤ 2 ^ b :=
  zpow_le_zpow_right₀ (by norm_num) h

theorem two_zpow_add (a b : Int) : (2 : ℚ) ^ (a + b) = 2 ^ a * 2 ^ b :=
  zpow_add₀ (by norm_num) a b

theorem le_round (n d m : Nat) (hd : 0 < d) (h : m * d ≤ n) : m ≤ roundNearestEven n d := by
  obtain ⟨q, r, _, _, hq, _, hcase⟩ := round_cases n d hd
  have : m ≤ q := by rw [← hq]; exact (Nat.le_div_iff_mul_le hd).2 h
  rcases hcase with ⟨hs, _⟩ | ⟨hs, _⟩ <;> omega

theorem round_le (n d m : Nat) (hd : 0 < d) (h : n ≤ m * d) : roundNearestEven n d ≤ m := by
  obtain ⟨q, r, hn, hr, hq, hmod, hcase⟩ := round_cases n d hd
  by_cases hlt : n < m * d
  · have : q < m := by rw [← hq]; exact (Nat.div_lt_iff_lt_mul hd).2 hlt
    rcases hcase with ⟨hs, _⟩ | ⟨hs, _⟩ <;> omega
  · have hnm : n = m * d := by omega
    have hq2 : q = m := by rw [← hq, hnm]; exact Nat.mul_div_cancel m hd
    have hr2 : r = 0 := by rw [← hmod, hnm]; exact Nat.mul_mod_left m d
    rcases hcase with ⟨hs, hc⟩ | ⟨hs, _⟩ <;> omega

/-- Rounding reaches the even bound `M` from below exactly from `M - 1/2` on. -/
theorem round_eq_top (n d M : Nat) (hd : 0 < d) (hM : M % 2 = 0) (hM0 : 0 < M)
    (h : n < M * d) : roundNearestEven n d = M ↔ (2 * M - 1) * d ≤ 2 * n := by
  obtain ⟨q, r, hn, hr, hq, hmod, hcase⟩ := round_cases n d hd
  have hqM : q < M := by rw [← hq]; exact (Nat.div_lt_iff_lt_mul hd).2 h
  constructor
  · intro hs
    have hq1 : M = q + 1 := by rcases hcase with ⟨hs2, _⟩ | ⟨hs2, _⟩ <;> omega
    have hup : d ≤ 2 * r := by
      rcases hcase with ⟨_, hc⟩ | ⟨hs2, _⟩
      · omega
      · omega
    subst hq1
    have e1 : (2 * (q + 1) - 1) * d = 2 * (d * q) + d := by
      rw [show 2 * (q + 1) - 1 = 2 * q + 1 by omega]; ring
    rw [e1, hn]
    omega
  · intro hle
    have hq1 : M = q + 1 := by
      by_contra hne
      have h2 : q + 2 ≤ M := by omega
      have h3 : d * (2 * (q + 1)) ≤ d * (2 * M - 2) := Nat.mul_le_mul_left d (by omega)
      have h4 : d * (2 * M - 2) ≤ d * (2 * M - 1) := Nat.mul_le_mul_left d (by omega)
      have h5 : d * (2 * (q + 1)) = 2 * (d * q) + 2 * d := by ring
      have h6 : (2 * M - 1) * d = d * (2 * M - 1) := Nat.mul_comm _ _
      omega
    subst hq1
    have e1 : (2 * (q + 1) - 1) * d = 2 * (d * q) + d := by
      rw [show 2 * (q + 1) - 1 = 2 * q + 1 by omega]; ring
    rw [e1, hn] at hle
    have hup : d ≤ 2 * r := by omega
    rcases hcase with ⟨hs, _⟩ | ⟨_, hc⟩
    · exact hs
    · exfalso
      apply hc
      by_cases h2 : d < 2 * r
      · exact Or.inl h2
      · exact Or.inr ⟨by omega, by omega⟩

theorem scaled_le_iff (num den A B : Nat) (e : Int) (hden : 0 < den) :
    A * scaledDen den e ≤ B * scaledNum num e ↔
      (A : ℚ) ≤ B * ((num : ℚ) / den * 2 ^ (-e)) := by
  have hD : (0 : ℚ) < scaledDen den e := by exact_mod_cast scaledDen_pos den e hden
  rw [← scaled_ratio num den e hden, ← mul_div_assoc, le_div_iff₀ hD]
  exact_mod_cast Iff.rfl

theorem scaled_lt_iff (num den A B : Nat) (e : Int) (hden : 0 < den) :
    B * scaledNum num e < A * scaledDen den e ↔
      (B : ℚ) * ((num : ℚ) / den * 2 ^ (-e)) < A := by
  have hD : (0 : ℚ) < scaledDen den e := by exact_mod_cast scaledDen_pos den e hden
  rw [← scaled_ratio num den e hden, ← mul_div_assoc, div_lt_iff₀ hD]
  exact_mod_cast Iff.rfl

theorem scaled_mod_iff (num den : Nat) (e : Int) (hden : 0 < den) :
    scaledNum num e % scaledDen den e = 0 ↔ ∃ k : Int, (num : ℚ) / den * 2 ^ (-e) = k := by
  have hD : 0 < scaledDen den e := scaledDen_pos den e hden
  have hDq : (scaledDen den e : ℚ) ≠ 0 := Nat.cast_ne_zero.2 (by omega)
  rw [← scaled_ratio num den e hden]
  constructor
  · intro h
    obtain ⟨c, hc⟩ := Nat.dvd_of_mod_eq_zero h
    refine ⟨c, ?_⟩
    rw [hc]
    push_cast
    field_simp
  · rintro ⟨k, hk⟩
    rw [div_eq_iff hDq] at hk
    have hk2 : (scaledNum num e : Int) = k * (scaledDen den e : Int) := by exact_mod_cast hk
    have : (scaledDen den e : Int) ∣ (scaledNum num e : Int) := ⟨k, by rw [hk2]; ring⟩
    exact Nat.mod_eq_zero_of_dvd (Int.natCast_dvd_natCast.1 this)

theorem normalExponent_spec (num den : Nat) (hnum : 0 < num) (hden : 0 < den) :
    (2 : ℚ) ^ 63 ≤ (num : ℚ) / den * 2 ^ (-(normalExponent num den)) ∧
    (num : ℚ) / den * 2 ^ (-(normalExponent num den)) < 2 ^ 64 := by
  obtain ⟨kn, hkn, hn1, hn2⟩ := bitLength_spec num (by omega)
  obtain ⟨kd, hkd, hd1, hd2⟩ := bitLength_spec den (by omega)
  have hdenq : (0 : ℚ) < den := by exact_mod_cast hden
  have hnq1 : (2 : ℚ) ^ (kn : ℤ) ≤ num := by rw [zpow_natCast]; exact_mod_cast hn1
  have hnq2 : (num : ℚ) < 2 ^ ((kn : ℤ) + 1) := by
    rw [show ((kn : ℤ) + 1) = ((kn + 1 : ℕ) : ℤ) by push_cast; rfl, zpow_natCast]
    exact_mod_cast hn2
  have hdq1 : (2 : ℚ) ^ (kd : ℤ) ≤ den := by rw [zpow_natCast]; exact_mod_cast hd1
  have hdq2 : (den : ℚ) < 2 ^ ((kd : ℤ) + 1) := by
    rw [show ((kd : ℤ) + 1) = ((kd + 1 : ℕ) : ℤ) by push_cast; rfl, zpow_natCast]
    exact_mod_cast hd2
  have hvlo : (2 : ℚ) ^ ((kn : ℤ) - kd - 1) < (num : ℚ) / den := by
    rw [lt_div_iff₀ hdenq]
    calc (2 : ℚ) ^ ((kn : ℤ) - kd - 1) * den
        < 2 ^ ((kn : ℤ) - kd - 1) * 2 ^ ((kd : ℤ) + 1) :=
          mul_lt_mul_of_pos_left hdq2 (two_zpow_pos _)
      _ = 2 ^ (kn : ℤ) := by rw [← two_zpow_add]; congr 1; ring
      _ ≤ num := hnq1
  have hvhi : (num : ℚ) / den < 2 ^ ((kn : ℤ) - kd + 1) := by
    rw [div_lt_iff₀ hdenq]
    calc (num : ℚ) < 2 ^ ((kn : ℤ) + 1) := hnq2
      _ = 2 ^ ((kn : ℤ) - kd + 1) * 2 ^ (kd : ℤ) := by rw [← two_zpow_add]; congr 1; ring
      _ ≤ 2 ^ ((kn : ℤ) - kd + 1) * den := mul_le_mul_of_nonneg_left hdq1 (two_zpow_pos _).le
  have he0 : ((bitLength num : ℤ) - bitLength den - 63) = (kn : ℤ) - kd - 63 := by
    rw [hkn, hkd]; push_cast; ring
  have hy0lo : (2 : ℚ) ^ 62 < (num : ℚ) / den * 2 ^ (-((kn : ℤ) - kd - 63)) := by
    calc (2 : ℚ) ^ 62 = 2 ^ ((kn : ℤ) - kd - 1) * 2 ^ (-((kn : ℤ) - kd - 63)) := by
          rw [← two_zpow_add, show ((kn : ℤ) - kd - 1 + -((kn : ℤ) - kd - 63)) = ((62 : ℕ) : ℤ) by
            push_cast; ring, zpow_natCast]
      _ < (num : ℚ) / den * 2 ^ (-((kn : ℤ) - kd - 63)) := mul_lt_mul_of_pos_right hvlo (two_zpow_pos _)
  have hy0hi : (num : ℚ) / den * 2 ^ (-((kn : ℤ) - kd - 63)) < (2 : ℚ) ^ 64 := by
    calc (num : ℚ) / den * 2 ^ (-((kn : ℤ) - kd - 63))
        < 2 ^ ((kn : ℤ) - kd + 1) * 2 ^ (-((kn : ℤ) - kd - 63)) :=
          mul_lt_mul_of_pos_right hvhi (two_zpow_pos _)
      _ = (2 : ℚ) ^ 64 := by
          rw [← two_zpow_add, show ((kn : ℤ) - kd + 1 + -((kn : ℤ) - kd - 63)) = ((64 : ℕ) : ℤ) by
            push_cast; ring, zpow_natCast]
  unfold normalExponent
  simp only []
  rw [he0]
  generalize ((kn : ℤ) - kd - 63) = e0 at hy0lo hy0hi ⊢
  have hcond : scaledNum num e0 / scaledDen den e0 < 2 ^ 63 ↔
      (num : ℚ) / den * 2 ^ (-e0) < 2 ^ 63 := by
    rw [Nat.div_lt_iff_lt_mul (scaledDen_pos den e0 hden)]
    have := scaled_lt_iff num den (2 ^ 63) 1 e0 hden
    simp only [one_mul, Nat.cast_one, Nat.cast_pow, Nat.cast_ofNat] at this
    exact this
  by_cases hc : scaledNum num e0 / scaledDen den e0 < 2 ^ 63
  · rw [if_pos hc]
    have h1 := hcond.1 hc
    have h2 : (2 : ℚ) ^ (-(e0 - 1)) = 2 * 2 ^ (-e0) := by
      rw [show -(e0 - 1) = 1 + -e0 by ring, two_zpow_add, zpow_one]
    rw [h2, show (num : ℚ) / den * (2 * 2 ^ (-e0)) = 2 * ((num : ℚ) / den * 2 ^ (-e0)) by ring]
    constructor <;> linarith
  · rw [if_neg hc]
    have h1 : ¬ (num : ℚ) / den * 2 ^ (-e0) < 2 ^ 63 := fun h => hc (hcond.2 h)
    exact ⟨not_lt.1 h1, hy0hi⟩

theorem le_mul_zpow_neg_iff (a v : ℚ) (e : ℤ) : a ≤ v * 2 ^ (-e) ↔ a * 2 ^ e ≤ v := by
  rw [zpow_neg, ← div_eq_mul_inv, le_div_iff₀ (two_zpow_pos e)]

theorem mul_zpow_neg_lt_iff (a v : ℚ) (e : ℤ) : v * 2 ^ (-e) < a ↔ v < a * 2 ^ e := by
  rw [zpow_neg, ← div_eq_mul_inv, div_lt_iff₀ (two_zpow_pos e)]

theorem scaled_le_iff_right (num den A B : Nat) (e : Int) (hden : 0 < den) :
    B * scaledNum num e ≤ A * scaledDen den e ↔
      (B : ℚ) * ((num : ℚ) / den * 2 ^ (-e)) ≤ A := by
  have hD : (0 : ℚ) < scaledDen den e := by exact_mod_cast scaledDen_pos den e hden
  rw [← scaled_ratio num den e hden, ← mul_div_assoc, div_le_iff₀ hD]
  exact_mod_cast Iff.rfl

theorem round_scaled_spec (num den : Nat) (e : Int) (hden : 0 < den) :
    |(roundNearestEven (scaledNum num e) (scaledDen den e) : ℚ) -
        (num : ℚ) / den * 2 ^ (-e)| * 2 ≤ 1 ∧
    (|(roundNearestEven (scaledNum num e) (scaledDen den e) : ℚ) -
        (num : ℚ) / den * 2 ^ (-e)| * 2 = 1 →
      roundNearestEven (scaledNum num e) (scaledDen den e) % 2 = 0) := by
  have h := round_spec (scaledNum num e) (scaledDen den e) (scaledDen_pos den e hden)
  rw [scaled_ratio num den e hden] at h
  exact ⟨h.1, h.2.1⟩

theorem round_scaled_le (num den M : Nat) (e : Int) (hden : 0 < den)
    (h : (num : ℚ) / den * 2 ^ (-e) ≤ M) :
    roundNearestEven (scaledNum num e) (scaledDen den e) ≤ M := by
  apply round_le _ _ _ (scaledDen_pos den e hden)
  have h2 := (scaled_le_iff_right num den M 1 e hden).2 (by simpa using h)
  simpa using h2

theorem le_round_scaled (num den M : Nat) (e : Int) (hden : 0 < den)
    (h : (M : ℚ) ≤ (num : ℚ) / den * 2 ^ (-e)) :
    M ≤ roundNearestEven (scaledNum num e) (scaledDen den e) := by
  apply le_round _ _ _ (scaledDen_pos den e hden)
  have h2 := (scaled_le_iff num den M 1 e hden).2 (by simpa using h)
  simpa using h2

theorem round_scaled_eq_top (num den : Nat) (e : Int) (hden : 0 < den)
    (h : (num : ℚ) / den * 2 ^ (-e) < 2 ^ 64) :
    roundNearestEven (scaledNum num e) (scaledDen den e) = 2 ^ 64 ↔
      (2 : ℚ) ^ 65 - 1 ≤ 2 * ((num : ℚ) / den * 2 ^ (-e)) := by
  have hlt : scaledNum num e < 2 ^ 64 * scaledDen den e := by
    have h2 := (scaled_lt_iff num den (2 ^ 64) 1 e hden).2 (by
      simp only [Nat.cast_one, one_mul, Nat.cast_pow, Nat.cast_ofNat]; exact h)
    simpa using h2
  rw [round_eq_top _ _ (2 ^ 64) (scaledDen_pos den e hden) (by norm_num) (by norm_num) hlt,
    scaled_le_iff num den (2 * 2 ^ 64 - 1) 2 e hden]
  have : ((2 * 2 ^ 64 - 1 : ℕ) : ℚ) = 2 ^ 65 - 1 := by norm_num
  rw [this]
  norm_num

theorem scaled_exact_iff (num den : Nat) (hden : 0 < den) :
    scaledNum num (-16445) % scaledDen den (-16445) = 0 ↔
      ∃ k : ℤ, (num : ℚ) / den = (k : ℚ) * 2 ^ (-16445 : ℤ) := by
  rw [scaled_mod_iff num den _ hden]
  constructor
  · rintro ⟨k, hk⟩
    refine ⟨k, ?_⟩
    rw [← hk, mul_assoc, ← two_zpow_add]
    simp
  · rintro ⟨k, hk⟩
    refine ⟨k, ?_⟩
    rw [hk, mul_assoc, ← two_zpow_add]
    simp

theorem scale_err (s v : ℚ) (e : ℤ) :
    |s * 2 ^ e - v| * 2 = (|s - v * 2 ^ (-e)| * 2) * 2 ^ e := by
  have hp := two_zpow_pos e
  have : s * 2 ^ e - v = (s - v * 2 ^ (-e)) * 2 ^ e := by
    rw [sub_mul, mul_assoc, ← two_zpow_add]
    simp
  rw [this, abs_mul, abs_of_pos hp]
  ring

theorem mod_eq_zero_of_lt_two_mul (x D : ℕ) (hx : x < 2 * D) :
    x % D = 0 ↔ x = 0 ∨ x = D := by
  constructor
  · intro h
    by_cases hlt : x < D
    · rw [Nat.mod_eq_of_lt hlt] at h
      exact Or.inl h
    · right
      have hsub : x % D = (x - D) % D := Nat.mod_eq_sub_mod (by omega)
      rw [hsub, Nat.mod_eq_of_lt (by omega)] at h
      omega
  · rintro (h | h)
    · rw [h]; exact Nat.zero_mod D
    · rw [h]; exact Nat.mod_self D

/-- The test for an inexact result when one bit is lost, on the quotient and the remainder before
the loss. -/
theorem one_bit_inexact_iff (N D : ℕ) (hD : 0 < D) :
    ((2 * N / D) % 2 = 1 ∨ (2 * (2 * N % D)) % D ≠ 0) ↔ (N % D ≠ 0 ∧ 4 * (N % D) ≠ D) := by
  have hr : N % D < D := Nat.mod_lt N hD
  have hN : N = D * (N / D) + N % D := (Nat.div_add_mod N D).symm
  generalize N / D = q at hN
  generalize N % D = r at hN hr ⊢
  by_cases h2 : 2 * r < D
  · have hdm : 2 * N / D = 2 * q ∧ 2 * N % D = 2 * r := by
      rw [Nat.div_mod_unique hD]
      refine ⟨?_, h2⟩
      rw [hN]
      ring
    rw [hdm.1, hdm.2, Ne, mod_eq_zero_of_lt_two_mul _ D (by omega)]
    constructor
    · rintro (h | h)
      · omega
      · constructor
        · intro h0; apply h; left; omega
        · intro h0; apply h; right; omega
    · rintro ⟨h3, h4⟩
      right
      rintro (h | h) <;> omega
  · have hdm : 2 * N / D = 2 * q + 1 ∧ 2 * N % D = 2 * r - D := by
      rw [Nat.div_mod_unique hD]
      refine ⟨?_, by omega⟩
      rw [hN]
      have : D * (2 * q + 1) = 2 * (D * q) + D := by ring
      rw [this]
      omega
    rw [hdm.1]
    constructor
    · intro _
      constructor <;> omega
    · intro _
      left
      omega

theorem scaled_one_bit (num den : ℕ) :
    scaledNum num (-16446) = 2 * scaledNum num (-16445) ∧
    scaledDen den (-16446) = scaledDen den (-16445) := by
  have h : ∀ n : ℕ, num * 2 ^ (n + 1) = 2 * (num * 2 ^ n) := fun n => by ring
  have h1 : (-(-16446 : ℤ)).toNat = 16445 + 1 := by decide
  have h2 : (-(-16445 : ℤ)).toNat = 16445 := by decide
  unfold scaledNum scaledDen
  rw [if_neg (by decide), if_neg (by decide), if_neg (by decide), if_neg (by decide), h1, h2]
  exact ⟨h 16445, rfl⟩


theorem quarter_zpow : (2 : ℚ) ^ (-16447 : ℤ) * 2 ^ (-(-16445 : ℤ)) = 1 / 4 := by
  rw [← two_zpow_add, show ((-16447 : ℤ) + -(-16445)) = -2 by norm_num]
  norm_num [zpow_neg]

/-- The values that lose exactly the bit `2^-16447`, on the quotient and the remainder at the
exponent of the subnormal numbers. -/
theorem quarter_iff (num den : ℕ) (hden : 0 < den)
    (hbig : (2 : ℚ) ^ 62 ≤ (num : ℚ) / den * 2 ^ (-(-16445 : ℤ))) :
    (∃ k : ℕ, 2 ^ 62 ≤ k ∧ (num : ℚ) / den = (4 * (k : ℚ) + 1) * 2 ^ (-16447 : ℤ)) ↔
      4 * (scaledNum num (-16445) % scaledDen den (-16445)) = scaledDen den (-16445) := by
  have hD : 0 < scaledDen den (-16445) := scaledDen_pos den _ hden
  have hratio := scaled_ratio num den (-16445) hden
  have hbigN : 2 ^ 62 ≤ scaledNum num (-16445) / scaledDen den (-16445) := by
    rw [Nat.le_div_iff_mul_le hD]
    have := (scaled_le_iff num den (2 ^ 62) 1 (-16445) hden).2 (by
      simp only [Nat.cast_pow, Nat.cast_ofNat, Nat.cast_one, one_mul]
      exact hbig)
    simpa using this
  have hc : (0 : ℚ) < 2 ^ (-(-16445 : ℤ)) := two_zpow_pos _
  have hc2 : (2 : ℚ) ^ (-16447 : ℤ) = 1 / 4 / 2 ^ (-(-16445 : ℤ)) := by
    rw [eq_div_iff hc.ne']
    exact quarter_zpow
  have key : ∀ k : ℕ, ((num : ℚ) / den = (4 * (k : ℚ) + 1) * 2 ^ (-16447 : ℤ) ↔
      (scaledNum num (-16445) : ℚ) / scaledDen den (-16445) = (4 * (k : ℚ) + 1) / 4) := by
    intro k
    rw [hratio, hc2]
    generalize (num : ℚ) / den = v
    generalize (2 : ℚ) ^ (-(-16445 : ℤ)) = c at hc
    have hc0 : c ≠ 0 := hc.ne'
    constructor
    · intro h
      rw [h]
      field_simp
      ring
    · intro h
      rw [eq_div_iff (by norm_num : (4 : ℚ) ≠ 0)] at h
      rw [← h]
      field_simp
      ring
  simp only [key]
  generalize scaledNum num (-16445) = N at *
  generalize scaledDen den (-16445) = D at *
  have hDq : (D : ℚ) ≠ 0 := Nat.cast_ne_zero.2 (by omega)
  have hr : N % D < D := Nat.mod_lt N hD
  have hN : N = D * (N / D) + N % D := (Nat.div_add_mod N D).symm
  constructor
  · rintro ⟨k, _, hk⟩
    rw [div_eq_div_iff hDq (by norm_num)] at hk
    have hk2 : N * 4 = (4 * k + 1) * D := by exact_mod_cast hk
    have hk3 : (4 * k + 1) * D = 4 * (k * D) + D := by ring
    have hDdef : D = 4 * (N - k * D) := by omega
    have hmod : N % D = N - k * D := by
      have hN2 : N = (N - k * D) + k * D := by omega
      conv_lhs => rw [hN2]
      rw [Nat.add_mul_mod_self_right]
      exact Nat.mod_eq_of_lt (by omega)
    omega
  · intro h4
    refine ⟨N / D, hbigN, ?_⟩
    rw [div_eq_div_iff hDq (by norm_num)]
    have : N * 4 = (4 * (N / D) + 1) * D := by
      have h5 : (4 * (N / D) + 1) * D = 4 * (D * (N / D)) + D := by ring
      rw [h5]
      omega
    exact_mod_cast this

/-- The test of `strtold_round` for an inexact result in the range of the subnormal numbers. -/
theorem subnormal_inexact_iff (num den : ℕ) (hden : 0 < den) (e1 : ℤ) (he1 : e1 < -16445)
    (hlo : (2 : ℚ) ^ 63 ≤ (num : ℚ) / den * 2 ^ (-e1))
    (hhi : (num : ℚ) / den * 2 ^ (-e1) < 2 ^ 64) :
    (if e1 = -16446 then
        ((scaledNum num e1 / scaledDen den e1) % 2 = 1 ∨
          (2 * (scaledNum num e1 % scaledDen den e1)) % scaledDen den e1 ≠ 0)
      else scaledNum num (-16445) % scaledDen den (-16445) ≠ 0) ↔
    ((∀ k : ℤ, (num : ℚ) / den ≠ (k : ℚ) * 2 ^ (-16445 : ℤ)) ∧
      ¬ ∃ k : ℕ, 2 ^ 62 ≤ k ∧ (num : ℚ) / den = (4 * (k : ℚ) + 1) * 2 ^ (-16447 : ℤ)) := by
  have hinex : scaledNum num (-16445) % scaledDen den (-16445) ≠ 0 ↔
      ∀ k : ℤ, (num : ℚ) / den ≠ (k : ℚ) * 2 ^ (-16445 : ℤ) := by
    rw [ne_eq, scaled_exact_iff num den hden]
    push_neg
    rfl
  by_cases he : e1 = -16446
  · subst he
    rw [if_pos rfl, (scaled_one_bit num den).1, (scaled_one_bit num den).2,
      one_bit_inexact_iff _ _ (scaledDen_pos den _ hden), hinex]
    have hbig : (2 : ℚ) ^ 62 ≤ (num : ℚ) / den * 2 ^ (-(-16445 : ℤ)) := by
      have h2 : (num : ℚ) / den * 2 ^ (-(-16446 : ℤ)) =
          2 * ((num : ℚ) / den * 2 ^ (-(-16445 : ℤ))) := by
        rw [show (-(-16446 : ℤ)) = 1 + -(-16445) by norm_num, two_zpow_add, zpow_one]
        ring
      rw [h2] at hlo
      linarith
    rw [quarter_iff num den hden hbig]
  · rw [if_neg he, hinex]
    constructor
    · intro h
      refine ⟨h, ?_⟩
      rintro ⟨k, hk, hv⟩
      have hhi2 : (num : ℚ) / den < 2 ^ 64 * 2 ^ e1 := (mul_zpow_neg_lt_iff _ _ _).1 hhi
      have h3 : (2 : ℚ) ^ e1 ≤ 2 ^ (-16447 : ℤ) := two_zpow_le (by omega)
      have hp := two_zpow_pos (-16447)
      have hkq : (2 : ℚ) ^ 62 ≤ k := by exact_mod_cast hk
      have h4 : (2 : ℚ) ^ 64 * 2 ^ (-16447 : ℤ) ≤ (4 * (k : ℚ) + 1) * 2 ^ (-16447 : ℤ) :=
        mul_le_mul_of_nonneg_right (by linarith) hp.le
      have h5 : (2 : ℚ) ^ 64 * 2 ^ e1 ≤ 2 ^ 64 * 2 ^ (-16447 : ℤ) :=
        mul_le_mul_of_nonneg_left h3 (by norm_num)
      rw [hv] at hhi2
      exact absurd (lt_of_lt_of_le hhi2 (h5.trans h4)) (lt_irrefl _)
    · intro h
      exact h.1

theorem strtold_round_eq (neg : Bool) (num den : Nat) :
    strtold_round neg num den =
      if (normalExponent num den < -16445 ∧
          ¬ (normalExponent num den = -16446 ∧
            roundNearestEven (scaledNum num (normalExponent num den))
              (scaledDen den (normalExponent num den)) = 2 ^ 64)) ∧
          (if normalExponent num den = -16446 then
            (scaledNum num (normalExponent num den) /
                scaledDen den (normalExponent num den)) % 2 = 1 ∨
              (2 * (scaledNum num (normalExponent num den) %
                scaledDen den (normalExponent num den))) %
                scaledDen den (normalExponent num den) ≠ 0
          else scaledNum num (max (normalExponent num den) (-16445)) %
            scaledDen den (max (normalExponent num den) (-16445)) ≠ 0)
      then Res.throws Exc.out_of_range
      else if roundNearestEven (scaledNum num (max (normalExponent num den) (-16445)))
          (scaledDen den (max (normalExponent num den) (-16445))) = 2 ^ 64 then
        (if 16320 ≤ max (normalExponent num den) (-16445) then Res.throws Exc.out_of_range
         else Res.ret ⟨neg, 2 ^ 63, max (normalExponent num den) (-16445) + 1⟩)
      else if 16320 < max (normalExponent num den) (-16445) then Res.throws Exc.out_of_range
      else Res.ret ⟨neg, roundNearestEven (scaledNum num (max (normalExponent num den) (-16445)))
          (scaledDen den (max (normalExponent num den) (-16445))),
          max (normalExponent num den) (-16445)⟩ := by
  unfold strtold_round
  simp only [Bool.and_eq_true, Bool.not_eq_true', decide_eq_true_eq, Bool.and_eq_false_imp,
    decide_eq_false_iff_not, ne_eq, not_and]

theorem pow_mul_zpow (k : ℕ) (e : ℤ) : (2 : ℚ) ^ k * 2 ^ e = 2 ^ ((k : ℤ) + e) := by
  rw [two_zpow_add, zpow_natCast]

theorem overflow_bound :
    (2 : ℚ) ^ (16383 : ℤ) ≤ ((2 : ℚ) ^ 65 - 1) * 2 ^ (16319 : ℤ) ∧
    ((2 : ℚ) ^ 65 - 1) * 2 ^ (16319 : ℤ) ≤ 2 ^ (16384 : ℤ) := by
  have hp := two_zpow_pos 16319
  have h1 : (2 : ℚ) ^ (16383 : ℤ) = 2 ^ 64 * 2 ^ (16319 : ℤ) := by
    rw [pow_mul_zpow]; norm_num
  have h2 : (2 : ℚ) ^ (16384 : ℤ) = 2 ^ 65 * 2 ^ (16319 : ℤ) := by
    rw [pow_mul_zpow]; norm_num
  rw [h1, h2]
  constructor
  · apply mul_le_mul_of_nonneg_right _ hp.le
    norm_num
  · apply mul_le_mul_of_nonneg_right _ hp.le
    norm_num

theorem underflow_bound :
    (2 : ℚ) ^ (-16383 : ℤ) ≤ ((2 : ℚ) ^ 65 - 1) * 2 ^ (-16447 : ℤ) ∧
    ((2 : ℚ) ^ 65 - 1) * 2 ^ (-16447 : ℤ) ≤ 2 ^ (-16382 : ℤ) := by
  have hp := two_zpow_pos (-16447)
  have h1 : (2 : ℚ) ^ (-16383 : ℤ) = 2 ^ 64 * 2 ^ (-16447 : ℤ) := by
    rw [pow_mul_zpow]; norm_num
  have h2 : (2 : ℚ) ^ (-16382 : ℤ) = 2 ^ 65 * 2 ^ (-16447 : ℤ) := by
    rw [pow_mul_zpow]; norm_num
  rw [h1, h2]
  constructor
  · apply mul_le_mul_of_nonneg_right _ hp.le
    norm_num
  · apply mul_le_mul_of_nonneg_right _ hp.le
    norm_num

theorem one_le_abs_natCast_sub (k S : ℕ) (h : k ≠ S) : (1 : ℚ) ≤ |(k : ℚ) - S| := by
  have h1 : ((k : ℤ) - S) ≠ 0 := by omega
  have h2 : (1 : ℤ) ≤ |(k : ℤ) - S| := Int.one_le_abs h1
  have h3 : ((|(k : ℤ) - S| : ℤ) : ℚ) = |(k : ℚ) - S| := by push_cast; rfl
  rw [← h3]
  exact_mod_cast h2

/-- A nearest integer is at least as near as any other integer, and only a tie is as near. -/
theorem nearest_aligned (v : ℚ) (e : ℤ) (S k : ℕ) (hS : |(S : ℚ) - v * 2 ^ (-e)| * 2 ≤ 1) :
    |(S : ℚ) * 2 ^ e - v| ≤ |(k : ℚ) * 2 ^ e - v| ∧
    (k ≠ S → |(k : ℚ) * 2 ^ e - v| = |(S : ℚ) * 2 ^ e - v| →
      |(S : ℚ) - v * 2 ^ (-e)| * 2 = 1) := by
  have hp := two_zpow_pos e
  have e1 := scale_err (S : ℚ) v e
  have e2 := scale_err (k : ℚ) v e
  by_cases hk : k = S
  · subst hk
    exact ⟨le_refl _, fun h => absurd rfl h⟩
  · have h1 := one_le_abs_natCast_sub k S hk
    have h2 : |(k : ℚ) - S| ≤ |(k : ℚ) - v * 2 ^ (-e)| + |(S : ℚ) - v * 2 ^ (-e)| := by
      have := abs_sub_le (k : ℚ) (v * 2 ^ (-e)) S
      rwa [abs_sub_comm (v * 2 ^ (-e)) (S : ℚ)] at this
    have h3 : |(S : ℚ) - v * 2 ^ (-e)| ≤ |(k : ℚ) - v * 2 ^ (-e)| := by linarith
    constructor
    · have : |(S : ℚ) * 2 ^ e - v| * 2 ≤ |(k : ℚ) * 2 ^ e - v| * 2 := by
        rw [e1, e2]
        exact mul_le_mul_of_nonneg_right (by linarith) hp.le
      linarith
    · intro _ heq
      have h4 : |(k : ℚ) * 2 ^ e - v| * 2 = |(S : ℚ) * 2 ^ e - v| * 2 := by rw [heq]
      rw [e1, e2] at h4
      have h5 := mul_right_cancel₀ hp.ne' h4
      linarith

/-- The rounded significand gives the nearest value of the format. -/
theorem nearest_of_round (v : ℚ) (e : ℤ) (S : ℕ) (hS : |(S : ℚ) - v * 2 ^ (-e)| * 2 ≤ 1)
    (hnorm : e = -16445 ∨ (2 : ℚ) ^ 63 * 2 ^ e ≤ v) (m : ℕ) (f : ℤ) (hm : m < 2 ^ 64)
    (hf : -16445 ≤ f) :
    |(S : ℚ) * 2 ^ e - v| ≤ |(m : ℚ) * 2 ^ f - v| ∧
    ((m : ℚ) * 2 ^ f ≠ (S : ℚ) * 2 ^ e → |(m : ℚ) * 2 ^ f - v| = |(S : ℚ) * 2 ^ e - v| →
      |(S : ℚ) - v * 2 ^ (-e)| * 2 = 1) := by
  by_cases hfe : e ≤ f
  · obtain ⟨j, hj⟩ : ∃ j : ℕ, f - e = j := Int.eq_ofNat_of_zero_le (by omega)
    have hk : ((m * 2 ^ j : ℕ) : ℚ) * 2 ^ e = (m : ℚ) * 2 ^ f := by
      push_cast
      rw [mul_assoc, ← zpow_natCast, ← hj, ← two_zpow_add]
      congr 2
      ring
    have := nearest_aligned v e S (m * 2 ^ j) hS
    rw [hk] at this
    refine ⟨this.1, fun hne heq => this.2 ?_ heq⟩
    intro hc
    apply hne
    rw [← hk, hc]
  · have he : e ≠ -16445 := by omega
    have hv : (2 : ℚ) ^ 63 * 2 ^ e ≤ v := by
      rcases hnorm with h | h
      · exact absurd h he
      · exact h
    have h63 := nearest_aligned v e S (2 ^ 63) hS
    have hcast : (((2 ^ 63 : ℕ) : ℚ)) = (2 : ℚ) ^ 63 := by push_cast; rfl
    rw [hcast] at h63
    have hmq : (m : ℚ) + 1 ≤ 2 ^ 64 := by exact_mod_cast hm
    have hff : (2 : ℚ) ^ f * 2 ≤ 2 ^ e := by
      have : (2 : ℚ) ^ f * 2 = 2 ^ (f + 1) := by rw [two_zpow_add, zpow_one]
      rw [this]
      exact two_zpow_le (by omega)
    have hpf := two_zpow_pos f
    have hlt : (m : ℚ) * 2 ^ f < 2 ^ 63 * 2 ^ e := by
      have h1 : (m : ℚ) * 2 ^ f + 2 ^ f ≤ 2 ^ 64 * 2 ^ f := by
        have := mul_le_mul_of_nonneg_right hmq hpf.le
        linarith
      have h2 : (2 : ℚ) ^ 64 * 2 ^ f ≤ 2 ^ 63 * 2 ^ e := by
        have := mul_le_mul_of_nonneg_left hff (by norm_num : (0 : ℚ) ≤ 2 ^ 63)
        linarith
      linarith
    have habs1 : |(m : ℚ) * 2 ^ f - v| = v - (m : ℚ) * 2 ^ f := by
      rw [abs_of_nonpos (by linarith)]
      ring
    have habs2 : |(2 : ℚ) ^ 63 * 2 ^ e - v| = v - 2 ^ 63 * 2 ^ e := by
      rw [abs_of_nonpos (by linarith)]
      ring
    have hstrict : |(S : ℚ) * 2 ^ e - v| < |(m : ℚ) * 2 ^ f - v| := by
      have := h63.1
      rw [habs2] at this
      rw [habs1]
      linarith
    exact ⟨hstrict.le, fun _ heq => absurd heq (ne_of_gt hstrict)⟩

/-- What `strtold_round` returns on a positive rational: a range error exactly on the values
outside the range, and otherwise the correctly rounded value. -/
theorem strtold_round_spec (neg : Bool) (num den : Nat) (hnum : 0 < num) (hden : 0 < den) :
    (LongDoubleRangeError ((num : ℚ) / den) ∧
        strtold_round neg num den = Res.throws Exc.out_of_range) ∨
    (¬ LongDoubleRangeError ((num : ℚ) / den) ∧
      ∃ x, strtold_round neg num den = Res.ret x ∧ x.neg = neg ∧ x.sig < 2 ^ 64 ∧
        -16445 ≤ x.exp ∧ x.exp ≤ 16320 ∧ (2 ^ 63 ≤ x.sig ∨ x.exp = -16445) ∧
        |(x.sig : ℚ) * 2 ^ x.exp - (num : ℚ) / den| * 2 ≤ 2 ^ x.exp ∧
        (∀ (m : ℕ) (f : ℤ), m < 2 ^ 64 → -16445 ≤ f →
          |(x.sig : ℚ) * 2 ^ x.exp - (num : ℚ) / den| ≤ |(m : ℚ) * 2 ^ f - (num : ℚ) / den|) ∧
        (∀ (m : ℕ) (f : ℤ), m < 2 ^ 64 → -16445 ≤ f → (m : ℚ) * 2 ^ f ≠ (x.sig : ℚ) * 2 ^ x.exp →
          |(m : ℚ) * 2 ^ f - (num : ℚ) / den| = |(x.sig : ℚ) * 2 ^ x.exp - (num : ℚ) / den| →
          x.sig % 2 = 0)) := by
  have hv : (0 : ℚ) < (num : ℚ) / den :=
    div_pos (by exact_mod_cast hnum) (by exact_mod_cast hden)
  obtain ⟨hlo, hhi⟩ := normalExponent_spec num den hnum hden
  have htop1 := round_scaled_eq_top num den (normalExponent num den) hden hhi
  have hspec := fun e => round_scaled_spec num den e hden
  have hrle := fun M e => round_scaled_le num den M e hden
  have hler := fun M e => le_round_scaled num den M e hden
  rw [strtold_round_eq]
  generalize normalExponent num den = e1 at hlo hhi htop1 ⊢
  have hlo2 : (2 : ℚ) ^ ((63 : ℤ) + e1) ≤ (num : ℚ) / den := by
    have := (le_mul_zpow_neg_iff _ _ _).1 hlo
    rwa [pow_mul_zpow] at this
  have hhi2 : (num : ℚ) / den < 2 ^ ((64 : ℤ) + e1) := by
    have := (mul_zpow_neg_lt_iff _ _ _).1 hhi
    rwa [pow_mul_zpow] at this
  obtain ⟨hT1, hT2⟩ := overflow_bound
  obtain ⟨hU1, hU2⟩ := underflow_bound
  unfold LongDoubleRangeError
  rw [abs_of_pos hv]
  by_cases hsub : e1 < -16445
  · -- the subnormal range
    have hmax : max e1 (-16445) = -16445 := by omega
    rw [hmax]
    have hsmall : (num : ℚ) / den < 2 ^ (-16382 : ℤ) :=
      lt_of_lt_of_le hhi2 (two_zpow_le (by omega))
    have hnoover : ¬ ((2 : ℚ) ^ 65 - 1) * 2 ^ (16319 : ℤ) ≤ (num : ℚ) / den := by
      intro h
      have h2 : (2 : ℚ) ^ (-16382 : ℤ) ≤ 2 ^ (16383 : ℤ) := two_zpow_le (by norm_num)
      exact absurd (lt_of_lt_of_le hsmall (h2.trans (hT1.trans h))) (lt_irrefl _)
    have hsig : roundNearestEven (scaledNum num (-16445)) (scaledDen den (-16445)) ≤ 2 ^ 63 := by
      refine hrle (2 ^ 63) (-16445) ?_
      simp only [Nat.cast_pow, Nat.cast_ofNat]
      have h3 : (num : ℚ) / den < 2 ^ 63 * 2 ^ (-16445 : ℤ) := by
        rw [pow_mul_zpow]
        exact lt_of_lt_of_le hsmall (two_zpow_le (by norm_num))
      exact le_of_lt ((mul_zpow_neg_lt_iff (2 ^ 63) _ (-16445)).2 h3)
    have htiny : ¬ (e1 = -16446 ∧
        roundNearestEven (scaledNum num e1) (scaledDen den e1) = 2 ^ 64) ↔
        (num : ℚ) / den < ((2 : ℚ) ^ 65 - 1) * 2 ^ (-16447 : ℤ) := by
      by_cases he : e1 = -16446
      · subst he
        rw [htop1]
        have h4 : 2 * ((num : ℚ) / den * 2 ^ (-(-16446 : ℤ))) =
            (num : ℚ) / den * 2 ^ (-(-16447 : ℤ)) := by
          rw [show (-(-16447 : ℤ)) = 1 + (-(-16446 : ℤ)) by norm_num, two_zpow_add, zpow_one]
          ring
        rw [h4, ← mul_zpow_neg_lt_iff]
        simp only [true_and, not_le]
      · have h5 : (num : ℚ) / den < ((2 : ℚ) ^ 65 - 1) * 2 ^ (-16447 : ℤ) :=
          lt_of_lt_of_le (lt_of_lt_of_le hhi2 (two_zpow_le (by omega))) hU1
        simp only [he, false_and, not_false_eq_true, h5]
    have hinex := subnormal_inexact_iff num den hden e1 hsub hlo hhi
    by_cases hc : (e1 < -16445 ∧ ¬ (e1 = -16446 ∧
        roundNearestEven (scaledNum num e1) (scaledDen den e1) = 2 ^ 64)) ∧
        (if e1 = -16446 then
          (scaledNum num e1 / scaledDen den e1) % 2 = 1 ∨
            (2 * (scaledNum num e1 % scaledDen den e1)) % scaledDen den e1 ≠ 0
        else scaledNum num (-16445) % scaledDen den (-16445) ≠ 0)
    · left
      rw [if_pos hc]
      exact ⟨Or.inr ⟨hv.ne', htiny.1 hc.1.2, (hinex.1 hc.2).1, (hinex.1 hc.2).2⟩, rfl⟩
    · right
      rw [if_neg hc, if_neg (by omega), if_neg (by norm_num)]
      refine ⟨?_, _, rfl, rfl, by simp only; omega, by simp only; norm_num,
        by simp only; norm_num, Or.inr rfl, ?_, ?_, ?_⟩
      · rintro (h | ⟨_, h1, h2, h3⟩)
        · exact hnoover h
        · exact hc ⟨⟨hsub, htiny.2 h1⟩, hinex.2 ⟨h2, h3⟩⟩
      · simp only
        rw [scale_err]
        have := (hspec (-16445)).1
        have hp := two_zpow_pos (-16445)
        calc _ ≤ 1 * (2 : ℚ) ^ (-16445 : ℤ) := mul_le_mul_of_nonneg_right this hp.le
          _ = _ := one_mul _
      · intro m f hm hf
        simp only
        exact (nearest_of_round _ (-16445) _ (hspec (-16445)).1 (Or.inl rfl) m f hm hf).1
      · intro m f hm hf
        simp only
        intro hne heq
        exact (hspec (-16445)).2
          ((nearest_of_round _ (-16445) _ (hspec (-16445)).1 (Or.inl rfl) m f hm hf).2 hne heq)
  · -- the normal range
    have hmax : max e1 (-16445) = e1 := by omega
    rw [hmax, if_neg (fun h => hsub h.1.1)]
    have hnounder : ¬ (num : ℚ) / den < ((2 : ℚ) ^ 65 - 1) * 2 ^ (-16447 : ℤ) := by
      intro h
      have h2 : (2 : ℚ) ^ (-16382 : ℤ) ≤ 2 ^ ((63 : ℤ) + e1) := two_zpow_le (by omega)
      exact absurd (lt_of_lt_of_le h (hU2.trans (h2.trans hlo2))) (lt_irrefl _)
    have hsig1 : 2 ^ 63 ≤ roundNearestEven (scaledNum num e1) (scaledDen den e1) := by
      refine hler (2 ^ 63) e1 ?_
      simp only [Nat.cast_pow, Nat.cast_ofNat]
      exact hlo
    have hsig2 : roundNearestEven (scaledNum num e1) (scaledDen den e1) ≤ 2 ^ 64 := by
      refine hrle (2 ^ 64) e1 ?_
      simp only [Nat.cast_pow, Nat.cast_ofNat]
      exact hhi.le
    have hhalf : 2 * ((num : ℚ) / den * 2 ^ (-e1)) = (num : ℚ) / den * 2 ^ (-(e1 - 1)) := by
      rw [show (-(e1 - 1)) = 1 + -e1 by ring, two_zpow_add, zpow_one]
      ring
    rw [hhalf, le_mul_zpow_neg_iff] at htop1
    have herr := hspec e1
    have hlo3 : (2 : ℚ) ^ 63 * 2 ^ e1 ≤ (num : ℚ) / den := (le_mul_zpow_neg_iff _ _ _).1 hlo
    by_cases hs : roundNearestEven (scaledNum num e1) (scaledDen den e1) = 2 ^ 64
    · rw [if_pos hs]
      by_cases h16 : 16320 ≤ e1
      · left
        rw [if_pos h16]
        refine ⟨Or.inl ?_, rfl⟩
        have h1 := htop1.1 hs
        have h2 : ((2 : ℚ) ^ 65 - 1) * 2 ^ (16319 : ℤ) ≤ (2 ^ 65 - 1) * 2 ^ (e1 - 1) :=
          mul_le_mul_of_nonneg_left (two_zpow_le (by omega)) (by norm_num)
        exact h2.trans h1
      · right
        rw [if_neg h16]
        have hcast : (((2 ^ 63 : ℕ) : ℚ)) * 2 ^ (e1 + 1) =
            ((roundNearestEven (scaledNum num e1) (scaledDen den e1) : ℕ) : ℚ) * 2 ^ e1 := by
          rw [hs, two_zpow_add, zpow_one]
          push_cast
          ring
        refine ⟨?_, _, rfl, rfl, by simp only; norm_num, by simp only; omega,
          by simp only; omega, Or.inl (le_refl _), ?_, ?_, ?_⟩
        · rintro (h | ⟨_, h1, _⟩)
          · have h2 : (2 : ℚ) ^ ((64 : ℤ) + e1) ≤ 2 ^ (16383 : ℤ) := two_zpow_le (by omega)
            exact absurd (lt_of_lt_of_le hhi2 (h2.trans (hT1.trans h))) (lt_irrefl _)
          · exact hnounder h1
        · simp only
          rw [hcast, scale_err]
          have hp := two_zpow_pos e1
          calc _ ≤ 1 * (2 : ℚ) ^ e1 := mul_le_mul_of_nonneg_right herr.1 hp.le
            _ = 2 ^ e1 := one_mul _
            _ ≤ 2 ^ (e1 + 1) := two_zpow_le (by omega)
        · intro m f hm hf
          simp only
          rw [hcast]
          exact (nearest_of_round _ e1 _ herr.1 (Or.inr hlo3) m f hm hf).1
        · intro _ _ _ _ _ _
          simp only
          norm_num
    · rw [if_neg hs]
      by_cases h16 : 16320 < e1
      · left
        rw [if_pos h16]
        refine ⟨Or.inl ?_, rfl⟩
        have h2 : (2 : ℚ) ^ (16384 : ℤ) ≤ 2 ^ ((63 : ℤ) + e1) := two_zpow_le (by omega)
        exact hT2.trans (h2.trans hlo2)
      · right
        rw [if_neg h16]
        refine ⟨?_, _, rfl, rfl, by simp only; omega, by simp only; omega,
          by simp only; omega, Or.inl hsig1, ?_, ?_, ?_⟩
        · rintro (h | ⟨_, h1, _⟩)
          · by_cases he : e1 = 16320
            · apply hs
              apply htop1.2
              rw [he]
              exact h
            · have h2 : (2 : ℚ) ^ ((64 : ℤ) + e1) ≤ 2 ^ (16383 : ℤ) := two_zpow_le (by omega)
              exact absurd (lt_of_lt_of_le hhi2 (h2.trans (hT1.trans h))) (lt_irrefl _)
          · exact hnounder h1
        · simp only
          rw [scale_err]
          have hp := two_zpow_pos e1
          calc _ ≤ 1 * (2 : ℚ) ^ e1 := mul_le_mul_of_nonneg_right herr.1 hp.le
            _ = _ := one_mul _
        · intro m f hm hf
          simp only
          exact (nearest_of_round _ e1 _ herr.1 (Or.inr hlo3) m f hm hf).1
        · intro m f hm hf
          simp only
          intro hne heq
          exact herr.2 ((nearest_of_round _ e1 _ herr.1 (Or.inr hlo3) m f hm hf).2 hne heq)

theorem rangeError_neg (v : ℚ) : LongDoubleRangeError (-v) ↔ LongDoubleRangeError v := by
  unfold LongDoubleRangeError
  rw [abs_neg, neg_ne_zero]
  have h : (∀ k : ℤ, -v ≠ (k : ℚ) * 2 ^ (-16445 : ℤ)) ↔
      (∀ k : ℤ, v ≠ (k : ℚ) * 2 ^ (-16445 : ℤ)) := by
    constructor
    · intro h k hk
      apply h (-k)
      rw [hk]
      push_cast
      ring
    · intro h k hk
      apply h (-k)
      have : v = -(-v) := by ring
      rw [this, hk]
      push_cast
      ring
  rw [h]

theorem not_rangeError_zero : ¬ LongDoubleRangeError 0 := by
  unfold LongDoubleRangeError
  rintro (h | ⟨h, _⟩)
  · rw [abs_zero] at h
    have hp := two_zpow_pos 16383
    exact absurd (lt_of_lt_of_le hp (overflow_bound.1.trans h)) (lt_irrefl _)
  · exact h rfl

/-- Nearness among the values of one sign carries over to the values of both signs. -/
theorem nearest_signed (bx b : Bool) (X Y V : ℚ) (hY : 0 ≤ Y) (hV : 0 < V)
    (h0 : |X - V| ≤ |0 - V|) (hm : |X - V| ≤ |Y - V|) :
    |(if bx then -1 else 1) * X - (if bx then -1 else 1) * V| ≤
        |(if b then -1 else 1) * Y - (if bx then -1 else 1) * V| ∧
    ((if b then (-1 : ℚ) else 1) * Y ≠ (if bx then -1 else 1) * X →
      |(if b then -1 else 1) * Y - (if bx then -1 else 1) * V| =
        |(if bx then -1 else 1) * X - (if bx then -1 else 1) * V| →
      (Y ≠ X ∧ |Y - V| = |X - V|) ∨ (0 ≠ X ∧ |0 - V| = |X - V|)) := by
  have hx : |(if bx then (-1 : ℚ) else 1) * X - (if bx then -1 else 1) * V| = |X - V| := by
    cases bx
    · simp
    · simp only [if_true, neg_one_mul]
      rw [show -X - -V = -(X - V) by ring, abs_neg]
  rw [hx]
  have h0V : |(0 : ℚ) - V| = V := by rw [zero_sub, abs_neg, abs_of_pos hV]
  rw [h0V] at h0 ⊢
  by_cases hsame : b = bx
  · subst hsame
    have hy : |(if b then (-1 : ℚ) else 1) * Y - (if b then -1 else 1) * V| = |Y - V| := by
      cases b
      · simp
      · simp only [if_true, neg_one_mul]
        rw [show -Y - -V = -(Y - V) by ring, abs_neg]
    rw [hy]
    refine ⟨hm, fun hne heq => Or.inl ⟨?_, heq⟩⟩
    intro h
    apply hne
    rw [h]
  · have hy : |(if b then (-1 : ℚ) else 1) * Y - (if bx then -1 else 1) * V| = Y + V := by
      cases b <;> cases bx
      · exact absurd rfl hsame
      · simp only [Bool.false_eq_true, if_false, if_true, one_mul, neg_one_mul, sub_neg_eq_add]
        exact abs_of_nonneg (by linarith)
      · simp only [Bool.false_eq_true, if_false, if_true, one_mul, neg_one_mul]
        rw [show -Y - V = -(Y + V) by ring, abs_neg]
        exact abs_of_nonneg (by linarith)
      · exact absurd rfl hsame
    rw [hy]
    refine ⟨by linarith, fun hne heq => Or.inr ⟨?_, ?_⟩⟩
    · intro h
      have hY0 : Y = 0 := by linarith
      apply hne
      rw [hY0, ← h]
      simp
    · have hY0 : Y = 0 := by linarith
      rw [← heq, hY0]
      simp

theorem abs_signed (neg : Bool) (m : ℚ) (hm : 0 ≤ m) :
    |(if neg then (-1 : ℚ) else 1) * m| = m := by
  cases neg
  · simp [abs_of_nonneg hm]
  · simp [abs_of_nonneg hm]

theorem rangeError_of_large (v : ℚ) (h : (2 : ℚ) ^ (16384 : ℤ) ≤ |v|) :
    LongDoubleRangeError v := Or.inl (overflow_bound.2.trans h)

theorem rangeError_of_small (v : ℚ) (h0 : v ≠ 0) (h : |v| < (2 : ℚ) ^ (-16447 : ℤ)) :
    LongDoubleRangeError v := by
  have hpos : 0 < |v| := abs_pos.2 h0
  refine Or.inr ⟨h0, ?_, ?_, ?_⟩
  · exact lt_of_lt_of_le h ((two_zpow_le (by norm_num)).trans underflow_bound.1)
  · intro k hk
    have hk0 : k ≠ 0 := by
      rintro rfl
      simp at hk
      exact h0 hk
    have h1 : (1 : ℚ) ≤ |(k : ℚ)| := by
      have : (1 : ℤ) ≤ |k| := Int.one_le_abs hk0
      exact_mod_cast this
    have hp := two_zpow_pos (-16445)
    have h2 : |v| = |(k : ℚ)| * 2 ^ (-16445 : ℤ) := by
      rw [hk, abs_mul, abs_of_pos hp]
    have h3 : (2 : ℚ) ^ (-16445 : ℤ) ≤ |v| := by
      rw [h2]
      calc (2 : ℚ) ^ (-16445 : ℤ) = 1 * 2 ^ (-16445 : ℤ) := (one_mul _).symm
        _ ≤ |(k : ℚ)| * 2 ^ (-16445 : ℤ) := mul_le_mul_of_nonneg_right h1 hp.le
    have h4 : (2 : ℚ) ^ (-16447 : ℤ) ≤ 2 ^ (-16445 : ℤ) := two_zpow_le (by norm_num)
    exact absurd (lt_of_lt_of_le h (h4.trans h3)) (lt_irrefl _)
  · rintro ⟨k, _, hk⟩
    have hp := two_zpow_pos (-16447)
    have h3 : (2 : ℚ) ^ (-16447 : ℤ) ≤ |v| := by
      rw [hk]
      calc (2 : ℚ) ^ (-16447 : ℤ) = 1 * 2 ^ (-16447 : ℤ) := (one_mul _).symm
        _ ≤ (4 * (k : ℚ) + 1) * 2 ^ (-16447 : ℤ) :=
          mul_le_mul_of_nonneg_right (by
            have : (0 : ℚ) ≤ k := Nat.cast_nonneg k
            linarith) hp.le
    exact absurd (lt_of_lt_of_le h h3) (lt_irrefl _)

theorem natCast_pow_le (a b m n : ℕ) (h : a ^ m ≤ b ^ n) : (a : ℚ) ^ m ≤ (b : ℚ) ^ n := by
  exact_mod_cast h

theorem two_pow_le_ten_pow : (2 : ℚ) ^ (16384 : ℤ) ≤ (10 : ℚ) ^ (4933 : ℤ) := by
  have h2 := natCast_pow_le 2 10 16384 4933 (by decide!)
  rw [← zpow_natCast, ← zpow_natCast] at h2
  exact h2

/-- What `strtold_decimal` returns: a range error exactly on the values outside the range, and
otherwise the correctly rounded value. -/
theorem strtold_decimal_spec (neg : Bool) (a : Nat) (e10 : Int) :
    (LongDoubleRangeError ((if neg then -1 else 1) * ((a : ℚ) * 10 ^ e10)) ∧
        strtold_decimal neg a e10 = Res.throws Exc.out_of_range) ∨
    (¬ LongDoubleRangeError ((if neg then -1 else 1) * ((a : ℚ) * 10 ^ e10)) ∧
      ∃ x, strtold_decimal neg a e10 = Res.ret x ∧ x.neg = neg ∧
        RoundsTo ((if neg then -1 else 1) * ((a : ℚ) * 10 ^ e10)) x) := by
  unfold strtold_decimal
  by_cases ha : a = 0
  · right
    subst ha
    rw [if_pos rfl]
    simp only [Nat.cast_zero, zero_mul, mul_zero]
    refine ⟨not_rangeError_zero, _, rfl, rfl, ?_⟩
    refine ⟨by simp only; norm_num, by simp only; norm_num, by simp only; norm_num,
      fun _ => rfl, fun h => absurd rfl h, fun _ => le_refl _, fun _ => le_refl _, ?_, ?_⟩
    · simp [long_double.toRat]
    · simp [long_double.toRat]
  · rw [if_neg ha]
    have hapos : 0 < a := Nat.pos_of_ne_zero ha
    have haq : (1 : ℚ) ≤ a := by exact_mod_cast hapos
    by_cases hbig : 4933 ≤ e10
    · left
      rw [if_pos hbig]
      refine ⟨rangeError_of_large _ ?_, rfl⟩
      have h10 : (10 : ℚ) ^ (4933 : ℤ) ≤ 10 ^ e10 := zpow_le_zpow_right₀ (by norm_num) hbig
      have hp : (0 : ℚ) < 10 ^ e10 := zpow_pos (by norm_num) _
      rw [abs_signed neg _ (mul_nonneg (by linarith) hp.le)]
      calc (2 : ℚ) ^ (16384 : ℤ) ≤ 10 ^ (4933 : ℤ) := two_pow_le_ten_pow
        _ ≤ 10 ^ e10 := h10
        _ = 1 * 10 ^ e10 := (one_mul _).symm
        _ ≤ (a : ℚ) * 10 ^ e10 := mul_le_mul_of_nonneg_right haq hp.le
    rw [if_neg hbig]
    by_cases hsmall : e10 < 0 ∧ (bitLength a : Int) + 16447 ≤ 3 * (-e10)
    · left
      rw [if_pos hsmall]
      obtain ⟨hneg, hbl⟩ := hsmall
      obtain ⟨k, hk⟩ : ∃ k : Nat, -e10 = k := Int.eq_ofNat_of_zero_le (by omega)
      have he2 : e10 = -(k : ℤ) := by omega
      obtain ⟨b, hb, _, hb2⟩ := bitLength_spec a ha
      have hp : (0 : ℚ) < 10 ^ e10 := zpow_pos (by norm_num) _
      have hval : (0 : ℚ) < (a : ℚ) * 10 ^ e10 := mul_pos (by linarith) hp
      have hlt : (a : ℚ) * 10 ^ e10 < 2 ^ (-16447 : ℤ) := by
        have ha2 : (a : ℚ) < 2 ^ (((b + 1 : ℕ) : ℤ)) := by
          rw [zpow_natCast]
          exact_mod_cast hb2
        have h8 : (2 : ℚ) ^ ((3 * k : ℕ) : ℤ) ≤ 10 ^ k := by
          rw [zpow_natCast, pow_mul]
          exact pow_le_pow_left₀ (by norm_num) (by norm_num) k
        have h10 : (10 : ℚ) ^ e10 ≤ 2 ^ (-((3 * k : ℕ) : ℤ)) := by
          rw [he2, zpow_neg, zpow_neg, zpow_natCast]
          exact inv_anti₀ (two_zpow_pos _) h8
        calc (a : ℚ) * 10 ^ e10 < 2 ^ (((b + 1 : ℕ) : ℤ)) * 10 ^ e10 :=
              mul_lt_mul_of_pos_right ha2 hp
          _ ≤ 2 ^ (((b + 1 : ℕ) : ℤ)) * 2 ^ (-((3 * k : ℕ) : ℤ)) :=
              mul_le_mul_of_nonneg_left h10 (two_zpow_pos _).le
          _ = 2 ^ ((((b + 1 : ℕ) : ℤ)) + -((3 * k : ℕ) : ℤ)) := (two_zpow_add _ _).symm
          _ ≤ 2 ^ (-16447 : ℤ) := two_zpow_le (by
              rw [hb] at hbl
              push_cast at hbl ⊢
              omega)
      refine ⟨rangeError_of_small _ ?_ ?_, rfl⟩
      · intro h0
        have : (if neg then (-1 : ℚ) else 1) ≠ 0 := by cases neg <;> simp
        rcases mul_eq_zero.1 h0 with h0 | h0
        · exact this h0
        · exact hval.ne' h0
      · rw [abs_signed neg _ hval.le]
        exact hlt
    rw [if_neg hsmall]
    -- the magnitude as a fraction of two naturals
    have hfrac : ∃ num den : Nat, 0 < num ∧ 0 < den ∧
        (a : ℚ) * 10 ^ e10 = (num : ℚ) / den ∧
        (if 0 ≤ e10 then strtold_round neg (a * 10 ^ e10.toNat) 1
          else strtold_round neg a (10 ^ (-e10).toNat)) = strtold_round neg num den := by
      by_cases he : 0 ≤ e10
      · refine ⟨a * 10 ^ e10.toNat, 1, Nat.mul_pos hapos (by positivity), by norm_num, ?_, ?_⟩
        · obtain ⟨k, rfl⟩ := Int.eq_ofNat_of_zero_le he
          simp only [Int.toNat_ofNat, Nat.cast_mul, Nat.cast_pow, Nat.cast_ofNat, Nat.cast_one,
            div_one, zpow_natCast]
        · rw [if_pos he]
      · refine ⟨a, 10 ^ (-e10).toNat, hapos, by positivity, ?_, ?_⟩
        · obtain ⟨k, hk⟩ : ∃ k : Nat, -e10 = k := Int.eq_ofNat_of_zero_le (by omega)
          have he2 : e10 = -(k : ℤ) := by omega
          rw [hk, he2]
          simp only [Int.toNat_ofNat, Nat.cast_pow, Nat.cast_ofNat, zpow_neg, zpow_natCast]
          rfl
        · rw [if_neg he]
    obtain ⟨num, den, hnum, hden, hval, hcode⟩ := hfrac
    rw [hcode, hval]
    have hv : (0 : ℚ) < (num : ℚ) / den :=
      div_pos (by exact_mod_cast hnum) (by exact_mod_cast hden)
    have hre : LongDoubleRangeError ((if neg then -1 else 1) * ((num : ℚ) / den)) ↔
        LongDoubleRangeError ((num : ℚ) / den) := by
      cases neg
      · simp
      · simp only [if_true, neg_one_mul]
        exact rangeError_neg _
    rw [hre]
    rcases strtold_round_spec neg num den hnum hden with
      h | ⟨h, x, hx, hneg, h1, h2, h3, h4, h5, h6, h7⟩
    · exact Or.inl h
    · have hzero : |(x.sig : ℚ) * 2 ^ x.exp - (num : ℚ) / den| ≤ |0 - (num : ℚ) / den| := by
        have := h6 0 0 (by norm_num) (by norm_num)
        simpa using this
      have htoRat : ∀ y : long_double,
          y.toRat = (if y.neg then -1 else 1) * ((y.sig : ℚ) * 2 ^ y.exp) := fun _ => rfl
      have hxr : x.toRat = (if neg then -1 else 1) * ((x.sig : ℚ) * 2 ^ x.exp) := by
        rw [htoRat, hneg]
      have hs : |(if neg then (-1 : ℚ) else 1)| = 1 := by cases neg <;> simp
      have herr : |x.toRat - (if neg then -1 else 1) * ((num : ℚ) / den)| =
          |(x.sig : ℚ) * 2 ^ x.exp - (num : ℚ) / den| := by
        rw [hxr, ← mul_sub, abs_mul, hs, one_mul]
      refine Or.inr ⟨h, x, hx, hneg, h1, h2, h3, fun h0 => ?_, fun _ => h4, ?_, ?_, ?_, ?_, ?_⟩
      · exfalso
        have : (if neg then (-1 : ℚ) else 1) ≠ 0 := by cases neg <;> simp
        rcases mul_eq_zero.1 h0 with h0 | h0
        · exact this h0
        · exact hv.ne' h0
      · intro hn
        rw [hneg] at hn
        rw [hn]
        simp only [if_true, neg_one_mul]
        linarith
      · intro hn
        rw [hneg] at hn
        rw [hn]
        simp only [Bool.false_eq_true, if_false, one_mul]
        exact hv.le
      · rw [herr]
        exact h5
      · intro y hy1 hy2
        rw [hxr, htoRat y]
        exact (nearest_signed neg y.neg _ _ _
          (mul_nonneg (Nat.cast_nonneg _) (two_zpow_pos _).le) hv hzero
          (h6 y.sig y.exp hy1 hy2)).1
      · intro y hy1 hy2 hne heq
        rw [hxr, htoRat y] at hne heq
        rcases (nearest_signed neg y.neg _ _ _
          (mul_nonneg (Nat.cast_nonneg _) (two_zpow_pos _).le) hv hzero
          (h6 y.sig y.exp hy1 hy2)).2 hne heq with ⟨hn, he⟩ | ⟨hn, he⟩
        · exact h7 y.sig y.exp hy1 hy2 hn he
        · exact h7 0 0 (by norm_num) (by norm_num) (by simpa using hn) (by simpa using he)

/-- What `stold` reads from a floating-point literal. -/
theorem stold_literal (sg ip fp ex : List Char) (E : Int) (hsg : IsSign sg) (hip : AllDigits ip)
    (hfp : AllDigits fp) (hne : ip ≠ [] ∨ fp ≠ []) (hex : ExponentIs ex E) :
    stold (sg ++ (ip ++ '.' :: (fp ++ ex))) =
      strtold_decimal (decide (sg = ['-'])) (digitsValue (ip ++ fp)) (E - fp.length) := by
  have hdot : ∀ t, (ip ++ '.' :: t).takeWhile isdigit = ip ∧
      (ip ++ '.' :: t).dropWhile isdigit = '.' :: t := fun t =>
    ⟨takeWhile_allDigits ip _ hip (Or.inr ⟨'.', t, rfl, by decide⟩),
      dropWhile_allDigits ip _ hip (Or.inr ⟨'.', t, rfl, by decide⟩)⟩
  have hexh := exponent_head ex E hex
  have hfrac : fractionDigits ('.' :: (fp ++ ex)) = fp := takeWhile_allDigits fp ex hfp hexh
  have hafter : afterFraction ('.' :: (fp ++ ex)) = ex := dropWhile_allDigits fp ex hfp hexh
  have hev := exponentValue_of_exponentIs ex E hex
  have hemp : (ip.isEmpty && fp.isEmpty) = false := by
    rcases hne with h | h
    · cases ip with
      | nil => exact absurd rfl h
      | cons _ _ => rfl
    · cases fp with
      | nil => exact absurd rfl h
      | cons _ _ => simp
  -- the text after the sign starts with a digit or with the point
  have hhead : ∃ c t, ip ++ '.' :: (fp ++ ex) = c :: t ∧ isspace c = false ∧ c ≠ '+' ∧ c ≠ '-' := by
    cases ip with
    | nil => exact ⟨'.', _, rfl, by decide, by decide, by decide⟩
    | cons c t =>
      have hc : isdigit c = true := hip c (List.mem_cons_self _ _)
      refine ⟨c, _, rfl, isspace_of_isdigit hc, ?_, ?_⟩
      · intro h; rw [h] at hc; exact absurd hc (by decide)
      · intro h; rw [h] at hc; exact absurd hc (by decide)
  obtain ⟨c, t, hct, hcs, hcp, hcm⟩ := hhead
  have hscan : ∀ s, s = sg ++ (ip ++ '.' :: (fp ++ ex)) →
      s.dropWhile isspace = s ∧ dropSign s = ip ++ '.' :: (fp ++ ex) ∧
        hasMinus s = decide (sg = ['-']) := by
    intro s hs
    rcases hsg with h | h | h <;> subst h
    · simp only [List.nil_append] at hs
      rw [hs, hct]
      refine ⟨by simp [List.dropWhile_cons, hcs], ?_, ?_⟩
      · unfold dropSign
        split
        · rename_i heq; simp at heq; exact absurd heq.1 hcp
        · rename_i heq; simp at heq; exact absurd heq.1 hcm
        · rfl
      · unfold hasMinus
        split
        · rename_i heq; simp at heq; exact absurd heq.1 hcm
        · simp
    · rw [hs]
      exact ⟨by simp [List.dropWhile_cons, show isspace '+' = false by decide], rfl, by
        simp [hasMinus]⟩
    · rw [hs]
      exact ⟨by simp [List.dropWhile_cons, show isspace '-' = false by decide], rfl, by
        simp [hasMinus]⟩
  obtain ⟨h1, h2, h3⟩ := hscan _ rfl
  simp only [stold, h1, h2, h3, (hdot _).1, (hdot _).2, hfrac, hafter, hev, hemp,
    Bool.false_eq_true, if_false]

theorem digitsValue_append_list (xs ys : List Char) :
    digitsValue (xs ++ ys) = digitsValue xs * 10 ^ ys.length + digitsValue ys := by
  induction ys using List.reverseRecOn with
  | nil => simp [digitsValue]
  | append_singleton ys y ih =>
    rw [← List.append_assoc, digitsValue_append, digitsValue_append, ih]
    simp only [List.length_append, List.length_singleton, pow_succ]
    ring

theorem literalValue_eq (sg ip fp : List Char) (E : Int) :
    literalValue sg ip fp E =
      (if decide (sg = ['-']) = true then -1 else 1) *
        ((digitsValue (ip ++ fp) : ℚ) * 10 ^ (E - (fp.length : ℤ))) := by
  unfold literalValue signFactor
  rw [digitsValue_append_list]
  have h10 : (10 : ℚ) ≠ 0 := by norm_num
  rw [zpow_sub₀ h10, zpow_natCast]
  by_cases h : sg = ['-']
  · simp only [h, if_true, decide_True]
    push_cast
    field_simp
    ring
  · simp only [h, if_false, decide_False, Bool.false_eq_true]
    push_cast
    field_simp

/-- What `stold` returns on a floating-point literal: `std::out_of_range` exactly when the value
of the literal is outside the range of `long double`, and otherwise that value rounded to the
format. -/
theorem stold_spec (sg ip fp ex : List Char) (E : Int) (hsg : IsSign sg) (hip : AllDigits ip)
    (hfp : AllDigits fp) (hne : ip ≠ [] ∨ fp ≠ []) (hex : ExponentIs ex E) :
    (LongDoubleRangeError (literalValue sg ip fp E) ∧
        stold (floatText sg ip fp ex) = Res.throws Exc.out_of_range) ∨
    (¬ LongDoubleRangeError (literalValue sg ip fp E) ∧
      ∃ x, stold (floatText sg ip fp ex) = Res.ret x ∧ RoundsTo (literalValue sg ip fp E) x) := by
  have hst := stold_literal sg ip fp ex E hsg hip hfp hne hex
  unfold floatText
  rw [hst, literalValue_eq]
  rcases strtold_decimal_spec (decide (sg = ['-'])) (digitsValue (ip ++ fp))
    (E - (fp.length : ℤ)) with h | ⟨h, x, hx, _, hr⟩
  · exact Or.inl h
  · exact Or.inr ⟨h, x, hx, hr⟩

/-- C4, evaluated: on `0x1F,10` the integer pattern consumes the whole hexadecimal literal, but
`std::stoll` reads it in base 10, stops at the `x` and returns 0, not 31. -/
theorem C4_hex_reads_zero :
    RegexMatch integer_regex "0x1F,10".toList = some ("0x1F".toList, ",10".toList) ∧
    stoll "0x1F".toList = Res.ret 0 ∧
    ParseField ',' "0x1F,10".toList =
      Res.ret (⟨Field.Integer, value_t.intmax 0⟩, ",10".toList) ∧
    Parse 2 ',' "0x1F,10".toList =
      Res.ret [[⟨Field.Integer, value_t.intmax 0⟩, ⟨Field.Integer, value_t.intmax 10⟩]] := by
  decide

/-- A scan whose field lexer returns without moving the cursor never comes to an end. -/
theorem loop_stuck (d : Char) (c : Char) (t : List Char) (f : field_t)
    (hf : ParseField d (c :: t) = Res.ret (f, c :: t)) (hc : isspace c = false) :
    ∀ fuel, ParseLine.loop d fuel (c :: t) = Res.running := by
  intro fuel
  induction fuel with
  | zero => rfl
  | succ fuel ih =>
    rw [loop_cons, hf]
    simp only [Res.bind, List.dropWhile_cons, hc]
    rw [show (if false = true then List.dropWhile isspace t else c :: t) = c :: t by simp, ih]

/-- C6, evaluated: on the line `abc` no pattern matches, `ParseField` returns `Undefined` with
the cursor where it was, and the loop of `ParseLine` never comes to an end, whatever the
budget. -/
theorem C6_no_progress (fuel : Nat) :
    ParseField ',' "abc".toList =
      Res.ret (⟨Field.Undefined, value_t.empty⟩, "abc".toList) ∧
    ParseLine fuel ',' "abc".toList = Res.running :=
  ⟨by decide,
    loop_stuck ',' 'a' "bc".toList ⟨Field.Undefined, value_t.empty⟩ (by decide) (by decide) fuel⟩

/-- C5, evaluated: on `1.5,abc,` the scan returns `Float 1.5`, then stays on `abc` for ever:
`Parse` returns no table, whatever the budget. -/
theorem C5_malformed_field_loops (fuel : Nat) :
    ParseField ',' "1.5,abc,".toList =
      Res.ret (⟨Field.Float, value_t.longdouble ⟨false, 13835058055282163712, -63⟩⟩,
        ",abc,".toList) ∧
    ParseField ',' ",abc,".toList =
      Res.ret (⟨Field.Undefined, value_t.empty⟩, "abc,".toList) ∧
    ParseField ',' "abc,".toList =
      Res.ret (⟨Field.Undefined, value_t.empty⟩, "abc,".toList) ∧
    Parse fuel ',' "1.5,abc,".toList = Res.running := by
  have h1 : ParseField ',' "1.5,abc,".toList =
      Res.ret (⟨Field.Float, value_t.longdouble ⟨false, 13835058055282163712, -63⟩⟩,
        ",abc,".toList) := by decide!
  have h2 : ParseField ',' ",abc,".toList =
      Res.ret (⟨Field.Undefined, value_t.empty⟩, "abc,".toList) := by decide
  have h3 : ParseField ',' "abc,".toList =
      Res.ret (⟨Field.Undefined, value_t.empty⟩, "abc,".toList) := by decide
  refine ⟨h1, h2, h3, ?_⟩
  have hstuck := loop_stuck ',' 'a' "bc,".toList _ h3 (by decide)
  have hline : ParseLine fuel ',' "1.5,abc,".toList = Res.running := by
    unfold ParseLine
    cases fuel with
    | zero => rfl
    | succ fuel =>
      show ParseLine.loop ',' (fuel + 1) ('1' :: ".5,abc,".toList) = _
      rw [loop_cons]
      have h1b : ParseField ',' ('1' :: ".5,abc,".toList) =
          Res.ret (⟨Field.Float, value_t.longdouble ⟨false, 13835058055282163712, -63⟩⟩,
        ",abc,".toList) := h1
      rw [h1b]
      simp only [Res.bind]
      have hd : (",abc,".toList).dropWhile isspace = ',' :: "abc,".toList := by decide
      rw [hd]
      cases fuel with
      | zero => rfl
      | succ fuel =>
        rw [loop_cons]
        have h2b : ParseField ',' (',' :: "abc,".toList) =
            Res.ret (⟨Field.Undefined, value_t.empty⟩, "abc,".toList) := h2
        rw [h2b]
        simp only [Res.bind]
        have hd2 : ("abc,".toList).dropWhile isspace = 'a' :: "bc,".toList := by decide
        rw [hd2, hstuck fuel]
  show Parse.loop fuel ',' 8 "1.5,abc,".toList = _
  have hg : getline "1.5,abc,".toList = some ("1.5,abc,".toList, []) := by decide
  rw [Parse.loop, hg]
  simp only [hline, Res.bind]

/-- C10, evaluated: on `,,` the first delimiter gives `Null` and leaves the cursor on the
second; there the skip loop advances to the end of the line and dereferences the end iterator.
In general a line of `n + 1` delimiters has no defined result. -/
theorem C10_only_delimiters (n : Nat) :
    ParseField ',' ",,".toList = Res.ret (⟨Field.Null, value_t.empty⟩, ",".toList) ∧
    ParseField ',' ",".toList = Res.undefined ∧
    ParseLine 2 ',' ",,".toList = Res.undefined ∧
    ∀ fuel, n + 1 ≤ fuel → ParseLine fuel ',' (List.replicate (n + 1) ',') = Res.undefined := by
  refine ⟨by decide, by decide, by decide, ?_⟩
  induction n with
  | zero =>
    intro fuel hfuel
    obtain ⟨k, rfl⟩ : ∃ k, fuel = k + 1 := ⟨fuel - 1, by omega⟩
    rfl
  | succ n ih =>
    intro fuel hfuel
    obtain ⟨k, rfl⟩ : ∃ k, fuel = k + 1 := ⟨fuel - 1, by omega⟩
    have hk := ih k (by omega)
    unfold ParseLine at hk ⊢
    show ParseLine.loop ',' (k + 1) (',' :: ',' :: List.replicate n ',') = _
    rw [loop_cons, ParseField_null]
    simp only [Res.bind, List.dropWhile_cons]
    rw [show isspace ',' = false by decide]
    simp only [Bool.false_eq_true, if_false]
    have : ',' :: List.replicate n ',' = List.replicate (n + 1) ',' := rfl
    rw [this, hk]

/-! ## Exceptions -/

theorem searchFrom_some (r : Regex) : ∀ (s : List Char) (i j len : Nat),
    searchFrom r i s = some (j, len) →
      ∃ k, k ≤ s.length ∧ j = i + k ∧ longest (r.run (j, s.drop k)) = some (j + len) := by
  have hge : ∀ (p : Pos) (e : Nat), longest (r.run p) = some e → p.1 ≤ e := by
    intro p e h
    obtain ⟨⟨q, hq, hqe⟩, _⟩ := (longest_eq_some_iff _ _).1 h
    obtain ⟨w, _, _, hn⟩ := (mem_run_iff r p q).1 hq
    omega
  intro s
  induction s with
  | nil =>
    intro i j len h
    simp only [searchFrom] at h
    cases hl : longest (r.run (i, [])) with
    | none => simp [hl] at h
    | some e =>
      simp only [hl, Option.some.injEq, Prod.mk.injEq] at h
      have := hge _ _ hl
      refine ⟨0, le_refl _, by omega, ?_⟩
      rw [← h.1, ← h.2]
      simp only [List.drop_nil, hl, Option.some.injEq]
      simp only at this
      omega
  | cons x t ih =>
    intro i j len h
    simp only [searchFrom] at h
    cases hl : longest (r.run (i, x :: t)) with
    | none =>
      simp only [hl] at h
      obtain ⟨k, hk, hj, hlong⟩ := ih (i + 1) j len h
      exact ⟨k + 1, by simp only [List.length_cons]; omega, by omega, by
        simpa only [List.drop_succ_cons] using hlong⟩
    | some e =>
      simp only [hl, Option.some.injEq, Prod.mk.injEq] at h
      have := hge _ _ hl
      refine ⟨0, Nat.zero_le _, by omega, ?_⟩
      rw [← h.1, ← h.2]
      simp only [List.drop_zero, hl, Option.some.injEq]
      simp only at this
      omega

/-- What `RegexMatch` returns is a word of the expression that occurs in the text, and the
cursor is advanced by the length of that word. -/
theorem RegexMatch_sound (r : Regex) (s w s1 : List Char) (h : RegexMatch r s = some (w, s1)) :
    ∃ u t, s = u ++ (w ++ t) ∧ r.lang (decide (u.length = 0)) w ∧ s1 = s.drop w.length := by
  unfold RegexMatch regex_search at h
  cases hs : searchFrom r 0 s with
  | none => simp [hs] at h
  | some jl =>
    obtain ⟨j, len⟩ := jl
    simp only [hs, Option.some.injEq, Prod.mk.injEq] at h
    obtain ⟨k, hk, hj, hlong⟩ := searchFrom_some r s 0 j len hs
    simp only [Nat.zero_add] at hj
    subst hj
    obtain ⟨⟨q, hq, hqe⟩, _⟩ := (longest_eq_some_iff _ _).1 hlong
    obtain ⟨w0, hw0, hsw, hn⟩ := (mem_run_iff r _ q).1 hq
    simp only at hw0 hsw hn
    have hlen : len = w0.length := by omega
    have hw : w = w0 := by
      rw [← h.1, hsw, hlen]
      simp
    refine ⟨s.take j, q.2, ?_, ?_, ?_⟩
    · rw [hw, ← hsw, List.take_append_drop]
    · rw [List.length_take, Nat.min_eq_left hk, hw]
      exact hw0
    · rw [← h.2, hw, hlen]

theorem stoll_hex (w : List Char) (h : IsHexLiteral w) : stoll w = Res.ret 0 := by
  obtain ⟨hs, _, _, hw⟩ := h
  subst hw
  simp [stoll, List.dropWhile_cons, List.takeWhile_cons, dropSign, hasMinus, digitsValue,
    show isspace '0' = false by decide, show isdigit '0' = true by decide,
    show isdigit 'x' = false by decide]

/-- The quotes can always be removed: a match of `string_regex` has at least two characters. -/
theorem string_match_length (pos ostr pos1 : List Char)
    (h : RegexMatch string_regex pos = some (ostr, pos1)) : 2 ≤ ostr.length := by
  obtain ⟨u, t, _, hl, _⟩ := RegexMatch_sound _ _ _ _ h
  rw [lang_string_regex] at hl
  rcases hl with ⟨_, body, _, hw⟩ | ⟨body, _, hw⟩ <;> rw [hw] <;> simp

/-! ## The table builder -/

theorem splitNewline_ne_nil (text : List Char) : splitNewline text ≠ [] := by
  cases text with
  | nil => simp [splitNewline]
  | cons c t =>
    simp only [splitNewline]
    split
    · simp
    · split <;> simp

theorem splitNewline_eq (text : List Char) :
    splitNewline text = text.takeWhile (fun x => x != '\n') ::
      (match text.dropWhile (fun x => x != '\n') with
       | [] => []
       | _ :: t => splitNewline t) := by
  induction text with
  | nil => rfl
  | cons c t ih =>
    by_cases hc : c = '\n'
    · subst hc
      simp [splitNewline, List.takeWhile_cons, List.dropWhile_cons]
    · have hb : (c != '\n') = true := by simpa using hc
      simp only [splitNewline, hc, if_false, List.takeWhile_cons, List.dropWhile_cons, hb, if_true]
      rw [ih]

theorem takeWhile_eq_self_of_dropWhile_nil (p : Char → Bool) (s : List Char)
    (h : s.dropWhile p = []) : s.takeWhile p = s := by
  have := List.takeWhile_append_dropWhile p s
  rw [h, List.append_nil] at this
  exact this

/-- The first line of a non-empty text is what `getline` reads, and the further lines are the
lines of what `getline` leaves. -/
theorem linesOf_getline (text line rest : List Char) (h : getline text = some (line, rest)) :
    linesOf text = line :: linesOf rest := by
  cases text with
  | nil => simp [getline] at h
  | cons c t =>
    simp only [getline, Option.some.injEq, Prod.mk.injEq] at h
    obtain ⟨hline, hrest⟩ := h
    have hs := splitNewline_eq (c :: t)
    rw [hline] at hs
    cases hd : (c :: t).dropWhile (fun x => x != '\n') with
    | nil =>
      rw [hd] at hs hrest
      simp only at hs
      have hl : line = c :: t := by
        rw [← hline]
        exact takeWhile_eq_self_of_dropWhile_nil _ _ hd
      simp only [List.tail_nil] at hrest
      subst hrest
      unfold linesOf
      rw [hs, hl]
      simp [splitNewline]
    | cons x u =>
      rw [hd] at hs hrest
      simp only [List.tail_cons] at hs hrest
      subst hrest
      obtain ⟨p, ps, hps⟩ := List.exists_cons_of_ne_nil (splitNewline_ne_nil u)
      unfold linesOf
      rw [hs, hps]
      simp only [List.getLast?_cons_cons, List.dropLast_cons₂]
      split <;> rfl

theorem Parse_loop_eq (fuel : Nat) (d : Char) : ∀ (k : Nat) (text : List Char), text.length ≤ k →
    Parse.loop fuel d k text = mapRes (ParseLine fuel d) (linesOf text) := by
  intro k
  induction k with
  | zero =>
    intro text h
    have : text = [] := List.length_eq_zero.1 (Nat.le_zero.1 h)
    subst this
    rfl
  | succ k ih =>
    intro text h
    cases hg : getline text with
    | none =>
      cases text with
      | nil => rfl
      | cons c t => simp [getline] at hg
    | some m =>
      obtain ⟨line, rest⟩ := m
      have hlen : rest.length ≤ k := by
        cases text with
        | nil => simp [getline] at hg
        | cons c t =>
          simp only [getline, Option.some.injEq, Prod.mk.injEq] at hg
          rw [← hg.2]
          have h1 : ((c :: t).dropWhile (fun x => x != '\n')).length ≤ (c :: t).length :=
            (List.dropWhile_sublist _).length_le
          have h2 : ((c :: t).dropWhile (fun x => x != '\n')).tail.length ≤ t.length := by
            rw [List.length_tail]
            simp only [List.length_cons] at h1
            omega
          simp only [List.length_cons] at h
          omega
      rw [Parse.loop, hg, linesOf_getline text line rest hg]
      simp only [mapRes, ih rest hlen]

theorem Parse_eq_mapRes (fuel : Nat) (d : Char) (text : List Char) :
    Parse fuel d text = mapRes (ParseLine fuel d) (linesOf text) :=
  Parse_loop_eq fuel d _ text (le_refl _)

theorem mapRes_eq_ret_iff {α β : Type} (f : α → Res β) :
    ∀ (xs : List α) (ys : List β),
      mapRes f xs = Res.ret ys ↔ List.Forall₂ (fun x y => f x = Res.ret y) xs ys := by
  intro xs
  induction xs with
  | nil =>
    intro ys
    simp only [mapRes, Res.ret.injEq, List.forall₂_nil_left_iff]
    exact eq_comm
  | cons x xs ih =>
    intro ys
    simp only [mapRes]
    cases hf : f x with
    | ret y =>
      simp only [Res.bind]
      cases hm : mapRes f xs with
      | ret zs =>
        simp only [Res.bind, Res.ret.injEq]
        constructor
        · intro h
          subst h
          exact List.Forall₂.cons hf ((ih zs).1 hm)
        · intro h
          cases h with
          | cons h1 h2 =>
            rw [hf] at h1
            injection h1 with h1
            have := (ih _).2 h2
            rw [hm] at this
            injection this with this
            rw [h1, this]
      | throws e =>
        simp only [Res.bind]
        constructor
        · intro h; simp at h
        · intro h
          cases h with
          | cons h1 h2 =>
            have := (ih _).2 h2
            rw [hm] at this
            simp at this
      | undefined =>
        simp only [Res.bind]
        constructor
        · intro h; simp at h
        · intro h
          cases h with
          | cons h1 h2 =>
            have := (ih _).2 h2
            rw [hm] at this
            simp at this
      | running =>
        simp only [Res.bind]
        constructor
        · intro h; simp at h
        · intro h
          cases h with
          | cons h1 h2 =>
            have := (ih _).2 h2
            rw [hm] at this
            simp at this
    | throws e =>
      simp only [Res.bind]
      constructor
      · intro h; simp at h
      · intro h
        cases h with
        | cons h1 h2 => rw [hf] at h1; simp at h1
    | undefined =>
      simp only [Res.bind]
      constructor
      · intro h; simp at h
      · intro h
        cases h with
        | cons h1 h2 => rw [hf] at h1; simp at h1
    | running =>
      simp only [Res.bind]
      constructor
      · intro h; simp at h
      · intro h
        cases h with
        | cons h1 h2 => rw [hf] at h1; simp at h1

/-- C8: `Parse` builds the table line by line. For every text, delimiter and budget, `Parse`
returns the table `recs` exactly when `recs` has one record per line of the text, in input
order, each being what `ParseLine` returns on that line (lines: the pieces split at `\n`, an
empty piece after the final `\n` not counted). No line is dropped, a blank line gives an empty
record, and the empty text gives the table with zero records. -/
theorem C8_Parse_line_by_line (fuel : Nat) (d : Char) (text : List Char)
    (recs : List (List field_t)) :
    (Parse fuel d text = Res.ret recs ↔
      List.Forall₂ (fun line rec => ParseLine fuel d line = Res.ret rec) (linesOf text) recs) ∧
    ParseLine fuel d [] = Res.ret [] ∧
    Parse fuel d [] = Res.ret [] ∧
    Parse fuel d ['\n'] = Res.ret [[]] := by
  refine ⟨?_, ?_, ?_, ?_⟩
  · rw [Parse_eq_mapRes, mapRes_eq_ret_iff]
  · cases fuel <;> rfl
  · rfl
  · cases fuel <;> rfl

theorem C8_witness :
    linesOf "1,2\n\n3".toList = ["1,2".toList, [], "3".toList] ∧
    Parse 2 ',' "1,2\n\n3".toList =
      Res.ret [[⟨Field.Integer, value_t.intmax 1⟩, ⟨Field.Integer, value_t.intmax 2⟩], [],
        [⟨Field.Integer, value_t.intmax 3⟩]] :=
  ⟨by decide, (C8_Parse_line_by_line 2 ',' "1,2\n\n3".toList _).1.2 (by
    refine List.Forall₂.cons (by decide) (List.Forall₂.cons (by decide)
      (List.Forall₂.cons (by decide) List.Forall₂.nil)))⟩

/-! ## Hexadecimal literals in general -/

/-- The integer pattern on a hexadecimal literal at the cursor: the whole literal is matched. -/
theorem RegexMatch_integer_hex (hs rest : List Char) (hne : hs ≠ [])
    (hall : ∀ c ∈ hs, isxdigit c = true)
    (hrest : rest = [] ∨ ∃ x r, rest = x :: r ∧ isxdigit x = false) :
    RegexMatch integer_regex ('0' :: 'x' :: (hs ++ rest)) = some ('0' :: 'x' :: hs, rest) := by
  have hsplit : '0' :: 'x' :: (hs ++ rest) = ('0' :: 'x' :: hs) ++ rest := by simp
  rw [hsplit]
  apply RegexMatch_of_longest_word
  · rw [lang_integer_regex]
    exact Or.inl ⟨rfl, hs, hne, hall, rfl⟩
  · intro w1 t1 hw1 heq
    rw [lang_integer_regex] at hw1
    rcases hw1 with ⟨_, hs1, _, hall1, hw⟩ | ⟨sg, ds, hsg, hne1, hds, hw⟩
    · subst hw
      simp only [List.cons_append, List.cons.injEq, true_and] at heq
      have := prefix_length_le isxdigit hs rest hs1 t1 heq hall1 hrest
      simpa using this
    · subst hw
      obtain ⟨c, ds1, hcd⟩ := List.exists_cons_of_ne_nil hne1
      subst hcd
      rcases hsg with h | h | h <;> subst h
      · simp only [List.cons_append, List.nil_append, List.cons.injEq] at heq
        cases ds1 with
        | nil => simp
        | cons c1 ds2 =>
          simp only [List.cons_append, List.cons.injEq] at heq
          have hc1 : isdigit c1 = true := hds c1 (by simp)
          rw [← heq.2.1] at hc1
          exact absurd hc1 (by decide)
      · simp at heq
      · simp at heq

/-- Every hexadecimal literal is read as zero: the integer pattern consumes the whole literal
and `std::stoll`, called in base 10, stops at the `x`. -/
theorem ParseField_hex (d : Char) (hs rest : List Char) (hne : hs ≠ [])
    (hall : ∀ c ∈ hs, isxdigit c = true)
    (hrest : rest = [] ∨ ∃ x r, rest = x :: r ∧ isxdigit x = false)
    (hq : '\'' ∉ hs ++ rest) (hd : d ≠ '0') :
    ParseField d ('0' :: 'x' :: (hs ++ rest)) =
      Res.ret (⟨Field.Integer, value_t.intmax 0⟩, rest) := by
  rw [ParseField_no_skip d '0' _ (by decide) (fun h => hd h.symm)]
  have hstr : RegexMatch string_regex ('0' :: 'x' :: (hs ++ rest)) = none := by
    apply RegexMatch_string_none
    · simp only [List.mem_cons, not_or]
      exact ⟨by decide, by decide, hq⟩
    · simp
  have hfl : RegexMatch float_regex ('0' :: 'x' :: (hs ++ rest)) = none := by
    apply RegexMatch_eq_none
    intro u w t hs1 hw
    rw [lang_float_regex] at hw
    obtain ⟨hb, sg, ip, fp, ex, hsg, hip, _, _, _, hw⟩ := hw
    have hu : u = [] := by
      cases u with
      | nil => rfl
      | cons _ _ => simp at hb
    subst hu hw
    rcases hsg with h | h | h <;> subst h
    · cases ip with
      | nil => simp at hs1
      | cons c ip1 =>
        cases ip1 with
        | nil => simp at hs1
        | cons c1 ip2 =>
          simp only [List.nil_append, List.cons_append, List.cons.injEq] at hs1
          have hc1 : isdigit c1 = true := hip c1 (by simp)
          rw [← hs1.2.1] at hc1
          exact absurd hc1 (by decide)
    · simp at hs1
    · simp at hs1
  unfold ParseField.classify
  rw [hstr, hfl, RegexMatch_integer_hex hs rest hne hall hrest]
  show (stoll ('0' :: 'x' :: hs)).bind _ = _
  rw [stoll_hex _ ⟨hs, hne, hall, rfl⟩]
  rfl

/-! ## Delimiters at the ends of a line, escapes, anchoring -/

/-- The skip loop on a delimiter that ends the text: the cursor is advanced to the end and the
end iterator is dereferenced. -/
theorem ParseField_last_delimiter (d : Char) : ParseField d [d] = Res.undefined := by
  rw [ParseField_cons]
  simp

/-- C11, evaluated: on `1,` the scan returns `Integer 1` and leaves the cursor on the trailing
delimiter; there the skip loop advances to the end of the line and dereferences the end
iterator, so no `Null` field is produced. The same holds for every integer of the 64-bit range
in front of the trailing delimiter. -/
theorem C11_trailing_delimiter (n : Int) (fuel : Nat) :
    ParseField ',' "1,".toList = Res.ret (⟨Field.Integer, value_t.intmax 1⟩, ",".toList) ∧
    ParseField ',' ",".toList = Res.undefined ∧
    ParseLine 2 ',' "1,".toList = Res.undefined ∧
    (InRange n → 2 ≤ fuel → ParseLine fuel ',' (render n ++ [',']) = Res.undefined) := by
  refine ⟨by decide, by decide, by decide, ?_⟩
  intro hn hfuel
  obtain ⟨k, rfl⟩ : ∃ k, fuel = k + 2 := ⟨fuel - 2, by omega⟩
  have hd : PlainDelimiter ',' := ⟨by decide, by decide, by decide, by decide, by decide, by decide⟩
  have hpr := ParseField_render ',' hd n hn [none]
  have ht : entriesTail ',' [none] = [','] := rfl
  rw [ht] at hpr
  obtain ⟨c, t, hct, _⟩ := decimal_head _ (render_isDecimalLiteral n)
  unfold ParseLine
  rw [hct] at hpr ⊢
  rw [List.cons_append] at hpr ⊢
  rw [loop_cons, hpr]
  simp only [Res.bind, List.dropWhile_cons, show isspace ',' = false by decide,
    Bool.false_eq_true, if_false]
  rw [loop_cons, ParseField_last_delimiter]
  rfl

/-- C12, as stated, fails: on `,1` the delimiter at the cursor is skipped as a separator,
`ParseField` returns `Integer 1`, not `Null`, and `ParseLine` returns that one field. -/
theorem C12_counterexample :
    ParseField ',' ",1".toList = Res.ret (⟨Field.Integer, value_t.intmax 1⟩, []) ∧
    ParseLine 2 ',' ",1".toList = Res.ret [⟨Field.Integer, value_t.intmax 1⟩] ∧
    ParseLine 2 ',' ",1".toList ≠
      Res.ret [⟨Field.Null, value_t.empty⟩, ⟨Field.Integer, value_t.intmax 1⟩] := by
  decide

/-- C12, amended: when the character at the cursor on entry to `ParseField` is the delimiter
and the character after it is the delimiter too, `ParseField` returns `Null` and leaves the
cursor on the second delimiter; when the character after it is not the delimiter, the delimiter
at the cursor is stepped over as the separator in front of the field, which is read from the
next character on. -/
theorem C12_delimiter_at_cursor (d c : Char) (t : List Char) :
    ParseField d (d :: d :: t) = Res.ret (⟨Field.Null, value_t.empty⟩, d :: t) ∧
    (c ≠ d → ParseField d (d :: c :: t) = ParseField d (c :: t)) :=
  ⟨ParseField_null d t, fun h => ParseField_skip_one d c t h⟩

theorem C12_witness :
    ParseField ',' ",,1".toList = Res.ret (⟨Field.Null, value_t.empty⟩, ",1".toList) ∧
    ParseField ',' ",1".toList = ParseField ',' "1".toList :=
  ⟨(C12_delimiter_at_cursor ',' '1' "1".toList).1,
    (C12_delimiter_at_cursor ',' '1' []).2 (by decide)⟩

/-- C13, evaluated: on the six characters `"a\"b"` the string pattern stops at the first
double quote, the one after the backslash: `ParseField` returns `String` with the two
characters `a\` and advances the cursor by four, leaving `b"`, on which the scan then stays for
ever. In `string_regex` the escape branch `\\.` of the C++ literal is the expression `\.`, a
literal dot, not a backslash followed by any character. -/
theorem C13_escape_not_recognised (fuel : Nat) :
    RegexMatch string_regex ['"', 'a', '\\', '"', 'b', '"'] =
      some (['"', 'a', '\\', '"'], ['b', '"']) ∧
    ParseField ',' ['"', 'a', '\\', '"', 'b', '"'] =
      Res.ret (⟨Field.String, value_t.string ['a', '\\']⟩, ['b', '"']) ∧
    ParseField ',' ['b', '"'] = Res.ret (⟨Field.Undefined, value_t.empty⟩, ['b', '"']) ∧
    ParseLine (fuel + 1) ',' ['"', 'a', '\\', '"', 'b', '"'] = Res.running := by
  have h1 : ParseField ',' ['"', 'a', '\\', '"', 'b', '"'] =
      Res.ret (⟨Field.String, value_t.string ['a', '\\']⟩, ['b', '"']) := by decide
  have h2 : ParseField ',' ['b', '"'] =
      Res.ret (⟨Field.Undefined, value_t.empty⟩, ['b', '"']) := by decide
  refine ⟨by decide, h1, h2, ?_⟩
  unfold ParseLine
  rw [loop_cons, h1]
  simp only [Res.bind, List.dropWhile_cons, show isspace 'b' = false by decide,
    Bool.false_eq_true, if_false]
  rw [loop_stuck ',' 'b' ['"'] _ h2 (by decide) fuel]

/-- C14, evaluated: on `abc1` nothing matches at the cursor, but the decimal branch of
`integer_regex` is not anchored and `std::regex_search` finds `1` three characters further;
`RegexMatch` advances the cursor by the length of the match, one character, from where it stood.
`ParseField` returns `Integer 1` with the cursor on `b`: the character consumed is `a`, not the
matched literal, and the same `1` is matched again on each of the next calls. The single-quoted
branch of `string_regex` behaves in the same way. -/
theorem C14_match_not_anchored :
    regex_search integer_regex "abc1".toList = some (3, 1) ∧
    ParseField ',' "abc1".toList =
      Res.ret (⟨Field.Integer, value_t.intmax 1⟩, "bc1".toList) ∧
    ParseLine 4 ',' "abc1".toList =
      Res.ret [⟨Field.Integer, value_t.intmax 1⟩, ⟨Field.Integer, value_t.intmax 1⟩,
        ⟨Field.Integer, value_t.intmax 1⟩, ⟨Field.Integer, value_t.intmax 1⟩] ∧
    regex_search string_regex "x'y'".toList = some (1, 3) ∧
    ParseField ',' "x'y'".toList =
      Res.ret (⟨Field.String, value_t.string "y".toList⟩, "'".toList) := by
  decide

theorem stoll_defined (s : List Char) : stoll s ≠ Res.undefined ∧ stoll s ≠ Res.running := by
  unfold stoll
  dsimp only
  constructor <;> (repeat' split) <;> simp

theorem stold_defined (s : List Char) : stold s ≠ Res.undefined ∧ stold s ≠ Res.running := by
  unfold stold
  dsimp only
  split
  · constructor <;> simp
  · rcases strtold_decimal_spec (hasMinus (List.dropWhile isspace s))
      (digitsValue (List.takeWhile isdigit (dropSign (List.dropWhile isspace s)) ++
        fractionDigits (List.dropWhile isdigit (dropSign (List.dropWhile isspace s)))))
      (exponentValue (afterFraction (List.dropWhile isdigit (dropSign (List.dropWhile isspace s)))) -
        ((fractionDigits (List.dropWhile isdigit (dropSign (List.dropWhile isspace s)))).length : ℤ))
      with h | ⟨_, x, hx, _⟩
    · rw [h.2]
      constructor <;> simp
    · rw [hx]
      constructor <;> simp

/-- C16, evaluated: the skip loop reads at the end of the text. On `,`, on a single space and
on `1,` the cursor is advanced to the end of the line and `*pos` is evaluated there. The only
other operation without a defined result, the removal of the quotes, always has one. -/
theorem C16_reads_at_end (d : Char) (s : List Char) :
    ParseField ',' ",".toList = Res.undefined ∧
    ParseLine 1 ',' ",".toList = Res.undefined ∧
    ParseLine 1 ',' " ".toList = Res.undefined ∧
    ParseLine 2 ',' "1,".toList = Res.undefined ∧
    ParseField d [d] = Res.undefined ∧
    ParseField.classify s ≠ Res.undefined := by
  refine ⟨by decide, by decide, by decide, by decide, ParseField_last_delimiter d, ?_⟩
  unfold ParseField.classify
  cases h1 : RegexMatch string_regex s with
  | some m =>
    obtain ⟨ostr, pos1⟩ := m
    have := string_match_length s ostr pos1 h1
    simp only
    rw [if_neg (by omega)]
    simp
  | none =>
    simp only
    cases h2 : RegexMatch float_regex s with
    | some m =>
      obtain ⟨ostr, pos1⟩ := m
      simp only
      have hs := (stold_defined ostr).1
      cases hst : stold ostr with
      | undefined => exact absurd hst hs
      | _ => simp [Res.bind]
    | none =>
      simp only
      cases h3 : RegexMatch integer_regex s with
      | some m =>
        obtain ⟨ostr, pos1⟩ := m
        simp only
        have hs := (stoll_defined ostr).1
        cases hst : stoll ostr with
        | undefined => exact absurd hst hs
        | _ => simp [Res.bind]
      | none => simp

/-- C18, as stated, fails: with the delimiter `\t`, which is white space, the skip after the
first field consumes both delimiters of `1\t\t2` and the scan returns `Integer 1`, `Integer 2`
without a `Null` between them. -/
theorem C18_counterexample :
    isspace '\t' = true ∧
    ("\t\t2".toList).dropWhile isspace = "2".toList ∧
    ParseLine 3 '\t' "1\t\t2".toList =
      Res.ret [⟨Field.Integer, value_t.intmax 1⟩, ⟨Field.Integer, value_t.intmax 2⟩] ∧
    ParseLine 3 '\t' "1\t\t2".toList ≠
      Res.ret [⟨Field.Integer, value_t.intmax 1⟩, ⟨Field.Null, value_t.empty⟩,
        ⟨Field.Integer, value_t.intmax 2⟩] := by
  decide

/-! ## Tags and payloads -/

theorem bind_eq_ret {α β : Type} (r : Res α) (f : α → Res β) (b : β)
    (h : r.bind f = Res.ret b) : ∃ a, r = Res.ret a ∧ f a = Res.ret b := by
  cases r with
  | ret a => exact ⟨a, rfl, h⟩
  | throws e => simp [Res.bind] at h
  | undefined => simp [Res.bind] at h
  | running => simp [Res.bind] at h

theorem forall₂_mem_right {α β : Type} (R : α → β → Prop) :
    ∀ (xs : List α) (ys : List β), List.Forall₂ R xs ys → ∀ y ∈ ys, ∃ x, x ∈ xs ∧ R x y := by
  intro xs ys h
  induction h with
  | nil => intro y hy; simp at hy
  | cons h1 _ ih =>
    intro y hy
    rcases List.mem_cons.1 hy with hy | hy
    · subst hy
      exact ⟨_, List.mem_cons_self _ _, h1⟩
    · obtain ⟨x, hx, hr⟩ := ih y hy
      exact ⟨x, List.mem_cons_of_mem _ hx, hr⟩

theorem classify_wellTagged (s : List Char) (f : field_t) (s1 : List Char)
    (h : ParseField.classify s = Res.ret (f, s1)) : WellTagged f := by
  unfold ParseField.classify at h
  cases h1 : RegexMatch string_regex s with
  | some m =>
    obtain ⟨ostr, pos1⟩ := m
    simp only [h1] at h
    split at h
    · simp at h
    · simp only [Res.ret.injEq, Prod.mk.injEq] at h
      rw [← h.1]
      exact ⟨_, rfl⟩
  | none =>
    simp only [h1] at h
    cases h2 : RegexMatch float_regex s with
    | some m =>
      obtain ⟨ostr, pos1⟩ := m
      simp only [h2] at h
      obtain ⟨x, _, hx⟩ := bind_eq_ret _ _ _ h
      simp only [Res.ret.injEq, Prod.mk.injEq] at hx
      rw [← hx.1]
      exact ⟨_, rfl⟩
    | none =>
      simp only [h2] at h
      cases h3 : RegexMatch integer_regex s with
      | some m =>
        obtain ⟨ostr, pos1⟩ := m
        simp only [h3] at h
        obtain ⟨n, _, hn⟩ := bind_eq_ret _ _ _ h
        simp only [Res.ret.injEq, Prod.mk.injEq] at hn
        rw [← hn.1]
        exact ⟨_, rfl⟩
      | none =>
        simp only [h3, Res.ret.injEq, Prod.mk.injEq] at h
        rw [← h.1]
        rfl

theorem ParseField_wellTagged (d : Char) : ∀ (s : List Char) (f : field_t) (s1 : List Char),
    ParseField d s = Res.ret (f, s1) → WellTagged f := by
  intro s
  induction s with
  | nil => intro f s1 h; simp [ParseField] at h
  | cons c t ih =>
    intro f s1 h
    rw [ParseField_cons] at h
    split at h
    · cases t with
      | nil => simp at h
      | cons c1 t1 =>
        simp only at h
        split at h
        · simp only [Res.ret.injEq, Prod.mk.injEq] at h
          rw [← h.1]
          rfl
        · exact ih f s1 h
    · exact classify_wellTagged _ f s1 h

theorem loop_wellTagged (d : Char) : ∀ (fuel : Nat) (s : List Char) (fs : List field_t),
    ParseLine.loop d fuel s = Res.ret fs → ∀ f ∈ fs, WellTagged f := by
  intro fuel
  induction fuel with
  | zero =>
    intro s fs h
    cases s with
    | nil =>
      simp only [ParseLine.loop, Res.ret.injEq] at h
      subst h
      simp
    | cons c t => simp [ParseLine.loop] at h
  | succ fuel ih =>
    intro s fs h
    cases s with
    | nil =>
      simp only [ParseLine.loop, Res.ret.injEq] at h
      subst h
      simp
    | cons c t =>
      rw [loop_cons] at h
      obtain ⟨r, hr, h2⟩ := bind_eq_ret _ _ _ h
      obtain ⟨vs, hvs, h3⟩ := bind_eq_ret _ _ _ h2
      simp only [Res.ret.injEq] at h3
      subst h3
      intro f hf
      rcases List.mem_cons.1 hf with hf | hf
      · rw [hf]
        exact ParseField_wellTagged d _ r.1 r.2 hr
      · exact ih _ vs hvs f hf

theorem wellTagged_not_boolean (f : field_t) (h : WellTagged f) : f.type ≠ Field.Boolean := by
  intro hb
  unfold WellTagged at h
  rw [hb] at h
  exact h

/-- C19: every field returned by `ParseField`, hence every field of a record returned by
`ParseLine` and of a table returned by `Parse`, has a tag other than `Boolean` and a payload of
the alternative of its tag: a string for `String`, an integer for `Integer`, a floating-point
value for `Float`, and for `Undefined` and `Null` no payload, that is the value-initialised
variant `{}`. -/
theorem C19_tag_payload (fuel : Nat) (d : Char) (text : List Char) :
    (∀ f pos1, ParseField d text = Res.ret (f, pos1) →
      f.type ≠ Field.Boolean ∧ WellTagged f) ∧
    (∀ fs, ParseLine fuel d text = Res.ret fs →
      ∀ f ∈ fs, f.type ≠ Field.Boolean ∧ WellTagged f) ∧
    (∀ table, Parse fuel d text = Res.ret table →
      ∀ record ∈ table, ∀ f ∈ record, f.type ≠ Field.Boolean ∧ WellTagged f) := by
  refine ⟨?_, ?_, ?_⟩
  · intro f pos1 h
    have := ParseField_wellTagged d text f pos1 h
    exact ⟨wellTagged_not_boolean f this, this⟩
  · intro fs h f hf
    have := loop_wellTagged d fuel text fs h f hf
    exact ⟨wellTagged_not_boolean f this, this⟩
  · intro table h record hrec f hf
    rw [Parse_eq_mapRes, mapRes_eq_ret_iff] at h
    obtain ⟨line, _, hline⟩ := forall₂_mem_right _ _ _ h record hrec
    have := loop_wellTagged d fuel line record hline f hf
    exact ⟨wellTagged_not_boolean f this, this⟩

theorem C19_witness :
    ParseLine 5 ',' "'a',1,2.5,,3".toList =
      Res.ret [⟨Field.String, value_t.string "a".toList⟩, ⟨Field.Integer, value_t.intmax 1⟩,
        ⟨Field.Float, value_t.longdouble ⟨false, 11529215046068469760, -62⟩⟩,
        ⟨Field.Null, value_t.empty⟩,
        ⟨Field.Integer, value_t.intmax 3⟩] ∧
    ∀ f ∈ [(⟨Field.String, value_t.string "a".toList⟩ : field_t),
        ⟨Field.Integer, value_t.intmax 1⟩,
        ⟨Field.Float, value_t.longdouble ⟨false, 11529215046068469760, -62⟩⟩,
        ⟨Field.Null, value_t.empty⟩, ⟨Field.Integer, value_t.intmax 3⟩],
      f.type ≠ Field.Boolean ∧ WellTagged f :=
  have h : ParseLine 5 ',' "'a',1,2.5,,3".toList =
      Res.ret [⟨Field.String, value_t.string "a".toList⟩, ⟨Field.Integer, value_t.intmax 1⟩,
        ⟨Field.Float, value_t.longdouble ⟨false, 11529215046068469760, -62⟩⟩,
        ⟨Field.Null, value_t.empty⟩,
        ⟨Field.Integer, value_t.intmax 3⟩] := by decide!
  ⟨h, (C19_tag_payload 5 ',' "'a',1,2.5,,3".toList).2.1 _ h⟩

/-! ## The cursor -/

theorem cursors_cons (d : Char) (fuel : Nat) (c : Char) (t : List Char) :
    ParseLine.cursors d (fuel + 1) (c :: t) =
      match ParseField d (c :: t) with
      | Res.ret r => (c :: t) :: r.2 :: ParseLine.cursors d fuel (r.2.dropWhile isspace)
      | _ => [c :: t] := rfl

/-- The function `RegexMatch` advances the cursor by the length of the match, which is at most
the length of the text that is left. -/
theorem RegexMatch_advance (r : Regex) (s w s1 : List Char)
    (h : RegexMatch r s = some (w, s1)) : w.length ≤ s.length ∧ s1 = s.drop w.length := by
  obtain ⟨u, t, hs, _, hs1⟩ := RegexMatch_sound r s w s1 h
  refine ⟨?_, hs1⟩
  rw [hs]
  simp only [List.length_append]
  omega

theorem classify_cursor (s : List Char) (f : field_t) (s1 : List Char)
    (h : ParseField.classify s = Res.ret (f, s1)) : ∃ k, k ≤ s.length ∧ s1 = s.drop k := by
  unfold ParseField.classify at h
  cases h1 : RegexMatch string_regex s with
  | some m =>
    obtain ⟨ostr, pos1⟩ := m
    simp only [h1] at h
    split at h
    · simp at h
    · simp only [Res.ret.injEq, Prod.mk.injEq] at h
      obtain ⟨hl, hd⟩ := RegexMatch_advance _ _ _ _ h1
      exact ⟨ostr.length, hl, by rw [← h.2, hd]⟩
  | none =>
    simp only [h1] at h
    cases h2 : RegexMatch float_regex s with
    | some m =>
      obtain ⟨ostr, pos1⟩ := m
      simp only [h2] at h
      obtain ⟨x, _, hx⟩ := bind_eq_ret _ _ _ h
      simp only [Res.ret.injEq, Prod.mk.injEq] at hx
      obtain ⟨hl, hd⟩ := RegexMatch_advance _ _ _ _ h2
      exact ⟨ostr.length, hl, by rw [← hx.2, hd]⟩
    | none =>
      simp only [h2] at h
      cases h3 : RegexMatch integer_regex s with
      | some m =>
        obtain ⟨ostr, pos1⟩ := m
        simp only [h3] at h
        obtain ⟨n, _, hn⟩ := bind_eq_ret _ _ _ h
        simp only [Res.ret.injEq, Prod.mk.injEq] at hn
        obtain ⟨hl, hd⟩ := RegexMatch_advance _ _ _ _ h3
        exact ⟨ostr.length, hl, by rw [← hn.2, hd]⟩
      | none =>
        simp only [h3, Res.ret.injEq, Prod.mk.injEq] at h
        exact ⟨0, Nat.zero_le _, by rw [← h.2]; rfl⟩

/-- The cursor left by `ParseField` is the cursor on entry advanced by some number of
characters, at most as many as are left. -/
theorem ParseField_cursor (d : Char) : ∀ (s : List Char) (f : field_t) (s1 : List Char),
    ParseField d s = Res.ret (f, s1) → ∃ k, k ≤ s.length ∧ s1 = s.drop k := by
  intro s
  induction s with
  | nil => intro f s1 h; simp [ParseField] at h
  | cons c t ih =>
    intro f s1 h
    rw [ParseField_cons] at h
    split at h
    · cases t with
      | nil => simp at h
      | cons c1 t1 =>
        simp only at h
        split at h
        · simp only [Res.ret.injEq, Prod.mk.injEq] at h
          exact ⟨1, by simp, by rw [← h.2]; rfl⟩
        · obtain ⟨k, hk, hs⟩ := ih f s1 h
          exact ⟨k + 1, by simp only [List.length_cons] at hk ⊢; omega, by
            rw [hs, List.drop_succ_cons]⟩
    · exact classify_cursor _ f s1 h

theorem dropWhile_eq_drop (p : Char → Bool) (s : List Char) :
    s.dropWhile p = s.drop (s.takeWhile p).length ∧ (s.takeWhile p).length ≤ s.length := by
  induction s with
  | nil => simp
  | cons c t ih =>
    by_cases hc : p c = true
    · simp only [List.dropWhile_cons, List.takeWhile_cons, hc, if_true, List.length_cons,
        List.drop_succ_cons]
      exact ⟨ih.1, by omega⟩
    · simp [List.dropWhile_cons, List.takeWhile_cons, hc]

/-- The cursor values of a scan are positions of the line, in ascending order. -/
theorem cursors_positions (d : Char) (line : List Char) : ∀ (fuel q : Nat), q ≤ line.length →
    ∃ ps : List Nat, ParseLine.cursors d fuel (line.drop q) = ps.map (fun x => line.drop x) ∧
      (∀ x ∈ ps, q ≤ x ∧ x ≤ line.length) ∧ ps.Pairwise (fun a b => a ≤ b) := by
  intro fuel
  induction fuel with
  | zero =>
    intro q hq
    refine ⟨[q], ?_, by simpa using hq, by simp⟩
    cases h : line.drop q <;> simp [ParseLine.cursors, h]
  | succ fuel ih =>
    intro q hq
    cases h : line.drop q with
    | nil => exact ⟨[q], by simp [ParseLine.cursors, h], by simpa using hq, by simp⟩
    | cons c t =>
      rw [cursors_cons]
      cases hf : ParseField d (c :: t) with
      | ret r =>
        obtain ⟨k, hk, hr⟩ := ParseField_cursor d _ r.1 r.2 hf
        rw [← h] at hk hr
        rw [List.length_drop] at hk
        rw [List.drop_drop] at hr
        have hr2 : r.2 = line.drop (q + k) := by
          rw [hr]
        have hlen2 : r.2.length = line.length - (q + k) := by
          rw [hr2, List.length_drop]
        obtain ⟨hdw, hj⟩ := dropWhile_eq_drop isspace r.2
        generalize (r.2.takeWhile isspace).length = j at hdw hj
        have hnext : r.2.dropWhile isspace = line.drop (q + k + j) := by
          rw [hdw, hr2, List.drop_drop]
        obtain ⟨ps, hps, hbd, hsorted⟩ := ih (q + k + j) (by omega)
        refine ⟨q :: (q + k) :: ps, ?_, ?_, ?_⟩
        · simp only [List.map_cons, hnext, hps, ← h, ← hr2]
        · intro x hx
          simp only [List.mem_cons] at hx
          rcases hx with hx | hx | hx
          · omega
          · omega
          · have := hbd x hx
            omega
        · simp only [List.pairwise_cons, List.mem_cons, forall_eq_or_imp]
          refine ⟨⟨by omega, fun x hx => ?_⟩, fun x hx => ?_, hsorted⟩
          · have := hbd x hx
            omega
          · have := hbd x hx
            omega
      | throws e => exact ⟨[q], by simp [h], by simpa using hq, by simp⟩
      | undefined => exact ⟨[q], by simp [h], by simpa using hq, by simp⟩
      | running => exact ⟨[q], by simp [h], by simpa using hq, by simp⟩

/-- C15: the cursor only moves forward and stays inside the line. For every line, delimiter and
start position `p`, the cursor that `ParseField` leaves is a position `p1` of the line with
`p ≤ p1 ≤ end`; and the cursor values taken during `ParseLine` (at the head of each round, after
`ParseField`, after the skip of trailing white space) are positions of the line, none beyond
`end`, each at least the one before. -/
theorem C15_cursor_forward (d : Char) (line : List Char) (p : Nat) :
    (∀ f pos1, ParseField d (line.drop p) = Res.ret (f, pos1) →
      ∃ p1, p ≤ p1 ∧ p1 ≤ line.length ∧ pos1 = line.drop p1) ∧
    (∀ fuel, ∃ ps : List Nat,
      ParseLine.cursors d fuel line = ps.map (fun q => line.drop q) ∧
      (∀ q ∈ ps, q ≤ line.length) ∧ ps.Pairwise (fun a b => a ≤ b)) := by
  constructor
  · intro f pos1 h
    obtain ⟨k, hk, hs⟩ := ParseField_cursor d _ f pos1 h
    rw [List.length_drop] at hk
    rw [List.drop_drop] at hs
    have hp : p < line.length := by
      by_contra hge
      have : line.drop p = [] := List.drop_eq_nil_of_le (by omega)
      rw [this] at h
      simp [ParseField] at h
    refine ⟨p + k, by omega, by omega, ?_⟩
    rw [hs]
  · intro fuel
    obtain ⟨ps, hps, hbd, hsorted⟩ := cursors_positions d line fuel 0 (Nat.zero_le _)
    exact ⟨ps, by simpa using hps, fun q hq => (hbd q hq).2, hsorted⟩

theorem C15_witness :
    ParseField ',' ("1, 22 ,3".toList.drop 1) =
      Res.ret (⟨Field.Integer, value_t.intmax 22⟩, "1, 22 ,3".toList.drop 5) ∧
    ParseLine.cursors ',' 3 "1, 22 ,3".toList =
      [0, 1, 1, 5, 6, 8, 8].map (fun q => "1, 22 ,3".toList.drop q) ∧
    (∃ p1, 1 ≤ p1 ∧ p1 ≤ "1, 22 ,3".toList.length ∧
      "1, 22 ,3".toList.drop 5 = "1, 22 ,3".toList.drop p1) :=
  have h : ParseField ',' ("1, 22 ,3".toList.drop 1) =
      Res.ret (⟨Field.Integer, value_t.intmax 22⟩, "1, 22 ,3".toList.drop 5) := by decide
  ⟨h, by decide, (C15_cursor_forward ',' "1, 22 ,3".toList 1).1 _ _ h⟩

/-! ## A final newline -/

theorem splitNewline_cons_newline (t : List Char) :
    splitNewline ('\n' :: t) = [] :: splitNewline t := by
  simp [splitNewline]

theorem splitNewline_cons_char (c : Char) (t p : List Char) (ps : List (List Char))
    (hc : c ≠ '\n') (h : splitNewline t = p :: ps) :
    splitNewline (c :: t) = (c :: p) :: ps := by
  simp [splitNewline, hc, h]

theorem splitNewline_snoc_newline (s : List Char) :
    splitNewline (s ++ ['\n']) = splitNewline s ++ [[]] := by
  induction s with
  | nil => rfl
  | cons c t ih =>
    by_cases hc : c = '\n'
    · subst hc
      rw [List.cons_append, splitNewline_cons_newline, splitNewline_cons_newline, ih]
      rfl
    · obtain ⟨p, ps, hps⟩ := List.exists_cons_of_ne_nil (splitNewline_ne_nil t)
      rw [List.cons_append, splitNewline_cons_char c t p ps hc hps,
        splitNewline_cons_char c (t ++ ['\n']) p (ps ++ [[]]) hc (by rw [ih, hps]; rfl)]
      rfl

theorem splitNewline_snoc_char (s : List Char) (x : Char) (hx : x ≠ '\n') :
    ∃ ps p, splitNewline (s ++ [x]) = ps ++ [p ++ [x]] := by
  induction s with
  | nil => exact ⟨[], [], by simp [splitNewline, hx]⟩
  | cons c t ih =>
    obtain ⟨ps, p, h⟩ := ih
    by_cases hc : c = '\n'
    · subst hc
      exact ⟨[] :: ps, p, by rw [List.cons_append, splitNewline_cons_newline, h]; rfl⟩
    · cases ps with
      | nil =>
        exact ⟨[], c :: p, by
          rw [List.cons_append, splitNewline_cons_char c _ (p ++ [x]) [] hc (by rw [h]; rfl)]
          rfl⟩
      | cons q qs =>
        exact ⟨(c :: q) :: qs, p, by
          rw [List.cons_append,
            splitNewline_cons_char c _ q (qs ++ [p ++ [x]]) hc (by rw [h]; rfl)]
          rfl⟩

/-- The lines of a text that ends in a character other than `\n`, with one and with two `\n`
added. -/
theorem linesOf_final_newline (s : List Char) (x : Char) (hx : x ≠ '\n') :
    linesOf (s ++ [x] ++ ['\n']) = linesOf (s ++ [x]) ∧
    linesOf (s ++ [x] ++ ['\n'] ++ ['\n']) = linesOf (s ++ [x]) ++ [[]] := by
  obtain ⟨ps, p, h⟩ := splitNewline_snoc_char s x hx
  have h0 : linesOf (s ++ [x]) = ps ++ [p ++ [x]] := by
    unfold linesOf
    rw [h]
    simp
  have h1 : linesOf (s ++ [x] ++ ['\n']) = ps ++ [p ++ [x]] := by
    unfold linesOf
    rw [splitNewline_snoc_newline, h]
    simp
  have h2 : linesOf (s ++ [x] ++ ['\n'] ++ ['\n']) = ps ++ [p ++ [x]] ++ [[]] := by
    unfold linesOf
    rw [splitNewline_snoc_newline, splitNewline_snoc_newline, h]
    simp
  rw [h0, h1, h2]
  exact ⟨rfl, rfl⟩

theorem mapRes_cons {α β : Type} (f : α → Res β) (x : α) (xs : List α) :
    mapRes f (x :: xs) =
      (f x).bind (fun y => (mapRes f xs).bind (fun ys => Res.ret (y :: ys))) := rfl

theorem mapRes_append_empty (fuel : Nat) (d : Char) (ls : List (List Char)) :
    mapRes (ParseLine fuel d) (ls ++ [[]]) =
      (mapRes (ParseLine fuel d) ls).bind (fun table => Res.ret (table ++ [[]])) := by
  induction ls with
  | nil => cases fuel <;> rfl
  | cons l ls ih =>
    rw [List.cons_append, mapRes_cons, mapRes_cons, ih]
    cases ParseLine fuel d l with
    | ret record => cases mapRes (ParseLine fuel d) ls <;> rfl
    | throws e => rfl
    | undefined => rfl
    | running => rfl

/-- C20: a single final newline does not change the table. For every non-empty text `t` that
does not end in `\n`, `Parse` has the same outcome on `t` followed by `\n` as on `t`; and when
`Parse` returns a table on `t`, it returns on `t` followed by two `\n` that table with one more
record at its end, an empty one. -/
theorem C20_final_newline (fuel : Nat) (d : Char) (t : List Char) (hne : t ≠ [])
    (hlast : t.getLast? ≠ some '\n') :
    Parse fuel d (t ++ ['\n']) = Parse fuel d t ∧
    ∀ table, Parse fuel d t = Res.ret table →
      Parse fuel d (t ++ ['\n', '\n']) = Res.ret (table ++ [[]]) := by
  obtain ⟨s, x, hsx⟩ : ∃ s x, t = s ++ [x] := by
    rcases List.eq_nil_or_concat t with h | ⟨s, x, h⟩
    · exact absurd h hne
    · exact ⟨s, x, by rw [h]; simp⟩
  subst hsx
  have hx : x ≠ '\n' := by
    intro h
    rw [h] at hlast
    simp at hlast
  obtain ⟨h1, h2⟩ := linesOf_final_newline s x hx
  constructor
  · rw [Parse_eq_mapRes, Parse_eq_mapRes, h1]
  · intro table htable
    have : s ++ [x] ++ ['\n', '\n'] = s ++ [x] ++ ['\n'] ++ ['\n'] := by simp
    rw [this, Parse_eq_mapRes, h2, mapRes_append_empty, ← Parse_eq_mapRes, htable]
    rfl

theorem C20_witness :
    Parse 2 ',' "1,2\n3".toList =
      Res.ret [[⟨Field.Integer, value_t.intmax 1⟩, ⟨Field.Integer, value_t.intmax 2⟩],
        [⟨Field.Integer, value_t.intmax 3⟩]] ∧
    Parse 2 ',' ("1,2\n3".toList ++ ['\n']) = Parse 2 ',' "1,2\n3".toList ∧
    Parse 2 ',' ("1,2\n3".toList ++ ['\n', '\n']) =
      Res.ret ([[⟨Field.Integer, value_t.intmax 1⟩, ⟨Field.Integer, value_t.intmax 2⟩],
        [⟨Field.Integer, value_t.intmax 3⟩]] ++ [[]]) :=
  have h := C20_final_newline 2 ',' "1,2\n3".toList (by decide) (by decide)
  have h0 : Parse 2 ',' "1,2\n3".toList =
      Res.ret [[⟨Field.Integer, value_t.intmax 1⟩, ⟨Field.Integer, value_t.intmax 2⟩],
        [⟨Field.Integer, value_t.intmax 3⟩]] := by decide
  ⟨h0, h.1, h.2 _ h0⟩

/-! ## White space around integers -/

theorem loop_of_ne_nil (d : Char) (fuel : Nat) (s : List Char) (h : s ≠ []) :
    ParseLine.loop d (fuel + 1) s =
      (ParseField d s).bind (fun r =>
        (ParseLine.loop d fuel (r.2.dropWhile isspace)).bind (fun values =>
          Res.ret (r.1 :: values))) := by
  cases s with
  | nil => exact absurd rfl h
  | cons c t => rfl

/-- The skip loop steps over white space in front of a field. -/
theorem ParseField_skip_space (d : Char) (hd : isspace d = false) (c : Char) (t : List Char)
    (hc1 : isspace c = false) (hc2 : c ≠ d) :
    ∀ ws, AllSpace ws → ParseField d (ws ++ c :: t) = ParseField.classify (c :: t) := by
  intro ws
  induction ws with
  | nil => intro _; exact ParseField_no_skip d c t hc1 hc2
  | cons w ws ih =>
    intro hws
    have hw : isspace w = true := hws w (List.mem_cons_self _ _)
    have hws1 : AllSpace ws := fun x hx => hws x (List.mem_cons_of_mem _ hx)
    rw [List.cons_append, ParseField_cons]
    simp only [hw, Bool.true_or, if_true]
    cases ws with
    | nil =>
      simp only [List.nil_append, if_neg hc2]
      exact ih hws1
    | cons w1 ws1 =>
      have hw1 : w1 ≠ d := by
        intro h
        have := hws1 w1 (List.mem_cons_self _ _)
        rw [h, hd] at this
        exact absurd this (by simp)
      simp only [List.cons_append, if_neg hw1]
      exact ih hws1

/-- The skip loop steps over a delimiter and the white space after it. -/
theorem ParseField_skip_delimiter_space (d : Char) (hd : isspace d = false) (c : Char)
    (t : List Char) (hc1 : isspace c = false) (hc2 : c ≠ d) (ws : List Char)
    (hws : AllSpace ws) :
    ParseField d (d :: (ws ++ c :: t)) = ParseField.classify (c :: t) := by
  rw [ParseField_cons]
  simp only [beq_self_eq_true, Bool.or_true, if_true]
  cases ws with
  | nil =>
    simp only [List.nil_append, if_neg hc2]
    exact ParseField_no_skip d c t hc1 hc2
  | cons w1 ws1 =>
    have hw1 : w1 ≠ d := by
      intro h
      have := hws w1 (List.mem_cons_self _ _)
      rw [h, hd] at this
      exact absurd this (by simp)
    simp only [List.cons_append, if_neg hw1]
    exact ParseField_skip_space d hd c t hc1 hc2 (w1 :: ws1) hws

theorem space_not_plain {c : Char} (h : isspace c = true) :
    isdigit c = false ∧ c ≠ 'x' ∧ c ≠ '\'' ∧ c ≠ '.' ∧ c ≠ '-' := by
  refine ⟨?_, ?_, ?_, ?_, ?_⟩
  · cases hd : isdigit c with
    | false => rfl
    | true =>
      rw [isspace_of_isdigit hd] at h
      exact absurd h (by simp)
  all_goals
    intro hc
    rw [hc] at h
    exact absurd h (by decide)

theorem paddedTail_chars (d : Char) (es : List (List Char × Int × List Char))
    (hws : ∀ e ∈ es, AllSpace e.1 ∧ AllSpace e.2.2) :
    ∀ c ∈ paddedTail d es, c = d ∨ isspace c = true ∨ isdigit c = true ∨ c = '-' := by
  intro c hc
  simp only [paddedTail, List.mem_flatMap, List.mem_cons, renderPadded, List.mem_append] at hc
  obtain ⟨e, he, h | h | h | h⟩ := hc
  · exact Or.inl h
  · exact Or.inr (Or.inl ((hws e he).1 c h))
  · exact Or.inr (Or.inr (render_chars _ c h))
  · exact Or.inr (Or.inl ((hws e he).2 c h))

theorem paddedTail_dropSpace (d : Char) (hd : isspace d = false)
    (es : List (List Char × Int × List Char)) :
    ∀ post, AllSpace post → (post ++ paddedTail d es).dropWhile isspace = paddedTail d es := by
  intro post
  induction post with
  | nil =>
    intro _
    cases es with
    | nil => rfl
    | cons e es =>
      show (d :: _).dropWhile isspace = _
      rw [List.dropWhile_cons, hd]
      rfl
  | cons w ws ih =>
    intro h
    rw [List.cons_append, List.dropWhile_cons, h w (List.mem_cons_self _ _)]
    exact ih (fun x hx => h x (List.mem_cons_of_mem _ hx))

/-- The three patterns on a rendered integer that is followed by white space and further padded
integers. -/
theorem classify_render_padded (d : Char) (hd : PlainDelimiter d) (n : Int) (hn : InRange n)
    (post : List Char) (hpost : AllSpace post) (es : List (List Char × Int × List Char))
    (hws : ∀ e ∈ es, AllSpace e.1 ∧ AllSpace e.2.2) :
    ParseField.classify (render n ++ (post ++ paddedTail d es)) =
      Res.ret (integerField n, post ++ paddedTail d es) := by
  obtain ⟨hsp, hdig, hminus, hdot, hx, hq⟩ := hd
  have hchars : ∀ c ∈ render n ++ (post ++ paddedTail d es),
      c = d ∨ isspace c = true ∨ isdigit c = true ∨ c = '-' := by
    intro c hc
    simp only [List.mem_append] at hc
    rcases hc with h | h | h
    · exact Or.inr (Or.inr (render_chars n c h))
    · exact Or.inr (Or.inl (hpost c h))
    · exact paddedTail_chars d es hws c h
  have h1 : '\'' ∉ render n ++ (post ++ paddedTail d es) := by
    intro h
    rcases hchars _ h with h | h | h | h
    · exact hq h.symm
    · exact absurd h (by decide)
    · exact absurd h (by decide)
    · exact absurd h (by decide)
  have h2 : '.' ∉ render n ++ (post ++ paddedTail d es) := by
    intro h
    rcases hchars _ h with h | h | h | h
    · exact hdot h.symm
    · exact absurd h (by decide)
    · exact absurd h (by decide)
    · exact absurd h (by decide)
  have hends : EndsNumber (post ++ paddedTail d es) := by
    cases post with
    | nil =>
      cases es with
      | nil => exact Or.inl rfl
      | cons e es => exact Or.inr ⟨d, _, rfl, hdig, hx⟩
    | cons w ws =>
      have hw := space_not_plain (hpost w (List.mem_cons_self _ _))
      exact Or.inr ⟨w, _, rfl, hw.1, hw.2.1⟩
  rw [classify_decimal (render n) _ (render_isDecimalLiteral n) hends h1 h2,
    stoll_render n hn.1 hn.2]
  rfl

theorem render_head (d : Char) (hd : PlainDelimiter d) (n : Int) :
    ∃ c t, render n = c :: t ∧ isspace c = false ∧ c ≠ d := by
  obtain ⟨c, t, hct, hc⟩ := decimal_head _ (render_isDecimalLiteral n)
  refine ⟨c, t, hct, decimal_head_not_space hc, ?_⟩
  rintro rfl
  rcases render_chars n c (by rw [hct]; simp) with h | h
  · have h2 := hd.2.1
    rw [h] at h2
    exact absurd h2 (by simp)
  · exact hd.2.2.1 h

/-- The loop of the record scanner on the padded integers after the first one. -/
theorem loop_paddedTail (d : Char) (hd : PlainDelimiter d) :
    ∀ (es : List (List Char × Int × List Char)),
      (∀ e ∈ es, AllSpace e.1 ∧ AllSpace e.2.2) → (∀ e ∈ es, InRange e.2.1) →
      ∀ fuel, es.length ≤ fuel →
        ParseLine.loop d fuel (paddedTail d es) =
          Res.ret (es.map (fun e => integerField e.2.1)) := by
  intro es
  induction es with
  | nil =>
    intro _ _ fuel _
    cases fuel <;> rfl
  | cons e es ih =>
    intro hws hr fuel hfuel
    cases fuel with
    | zero => simp at hfuel
    | succ fuel =>
      have hws1 : ∀ x ∈ es, AllSpace x.1 ∧ AllSpace x.2.2 :=
        fun x hx => hws x (List.mem_cons_of_mem _ hx)
      have ihe := ih hws1 (fun x hx => hr x (List.mem_cons_of_mem _ hx)) fuel
        (by simpa using hfuel)
      obtain ⟨pre, n, post⟩ := e
      have hpre : AllSpace pre := (hws _ (List.mem_cons_self _ _)).1
      have hpost : AllSpace post := (hws _ (List.mem_cons_self _ _)).2
      have hn : InRange n := hr _ (List.mem_cons_self _ _)
      obtain ⟨c, t, hct, hc1, hc2⟩ := render_head d hd n
      have hcl := classify_render_padded d hd n hn post hpost es hws1
      have htext : paddedTail d ((pre, n, post) :: es) =
          d :: (pre ++ c :: (t ++ (post ++ paddedTail d es))) := by
        show d :: (pre ++ (render n ++ post)) ++ paddedTail d es = _
        rw [hct]
        simp
      have hfield : ParseField d (paddedTail d ((pre, n, post) :: es)) =
          Res.ret (integerField n, post ++ paddedTail d es) := by
        rw [htext, ParseField_skip_delimiter_space d hd.1 c _ hc1 hc2 pre hpre, ← hcl, hct]
        rfl
      rw [loop_of_ne_nil d fuel _ (by rw [htext]; simp), hfield]
      simp only [Res.bind, paddedTail_dropSpace d hd.1 es post hpost, ihe]
      rfl

/-- The record scanner on a line of padded integers. -/
theorem ParseLine_padded (d : Char) (hd : PlainDelimiter d)
    (es : List (List Char × Int × List Char)) (hne : es ≠ [])
    (hws : ∀ e ∈ es, AllSpace e.1 ∧ AllSpace e.2.2) (hr : ∀ e ∈ es, InRange e.2.1)
    (fuel : Nat) (hfuel : es.length ≤ fuel) :
    ParseLine fuel d (joinWith d (es.map renderPadded)) =
      Res.ret (es.map (fun e => integerField e.2.1)) := by
  obtain ⟨e, es1, hes⟩ := List.exists_cons_of_ne_nil hne
  subst hes
  obtain ⟨pre, n, post⟩ := e
  have hws1 : ∀ x ∈ es1, AllSpace x.1 ∧ AllSpace x.2.2 :=
    fun x hx => hws x (List.mem_cons_of_mem _ hx)
  have hpre : AllSpace pre := (hws _ (List.mem_cons_self _ _)).1
  have hpost : AllSpace post := (hws _ (List.mem_cons_self _ _)).2
  have hn : InRange n := hr _ (List.mem_cons_self _ _)
  obtain ⟨c, t, hct, hc1, hc2⟩ := render_head d hd n
  have hcl := classify_render_padded d hd n hn post hpost es1 hws1
  have hjoin : joinWith d (((pre, n, post) :: es1).map renderPadded) =
      pre ++ c :: (t ++ (post ++ paddedTail d es1)) := by
    rw [List.map_cons, joinWith_cons]
    simp [renderPadded, paddedTail, List.flatMap_map, hct]
  cases fuel with
  | zero => simp at hfuel
  | succ fuel =>
    have hl := loop_paddedTail d hd es1 hws1 (fun x hx => hr x (List.mem_cons_of_mem _ hx)) fuel
      (by simpa using hfuel)
    have hfield : ParseField d (pre ++ c :: (t ++ (post ++ paddedTail d es1))) =
        Res.ret (integerField n, post ++ paddedTail d es1) := by
      rw [ParseField_skip_space d hd.1 c _ hc1 hc2 pre hpre, ← hcl, hct]
      rfl
    unfold ParseLine
    rw [hjoin, loop_of_ne_nil d fuel _ (by simp), hfield]
    simp only [Res.bind, paddedTail_dropSpace d hd.1 es1 post hpost, hl]
    rfl

/-- C17: white space around fields is insignificant. For every non-empty list of integers of
the signed 64-bit range and every choice of white-space strings before and after each rendered
integer, `ParseLine<','>` on the padded, comma-joined line returns the same record as on the
unpadded line: one `Integer` field per integer, in order. -/
theorem C17_whitespace_insignificant (es : List (List Char × Int × List Char)) (hne : es ≠ [])
    (hws : ∀ e ∈ es, AllSpace e.1 ∧ AllSpace e.2.2) (hr : ∀ e ∈ es, InRange e.2.1)
    (fuel : Nat) (hfuel : es.length ≤ fuel) :
    ParseLine fuel ',' (joinWith ',' (es.map (fun e => e.1 ++ (render e.2.1 ++ e.2.2)))) =
      ParseLine fuel ',' (joinWith ',' (es.map (fun e => render e.2.1))) ∧
    ParseLine fuel ',' (joinWith ',' (es.map (fun e => e.1 ++ (render e.2.1 ++ e.2.2)))) =
      Res.ret (es.map (fun e => (⟨Field.Integer, value_t.intmax e.2.1⟩ : field_t))) := by
  have hd : PlainDelimiter ',' := ⟨by decide, by decide, by decide, by decide, by decide, by decide⟩
  have h1 := ParseLine_padded ',' hd es hne hws hr fuel hfuel
  have h2 := ParseLine_padded ',' hd (es.map (fun e => ([], e.2.1, []))) (by simpa using hne)
    (by
      intro e he
      simp only [List.mem_map] at he
      obtain ⟨a, _, ha⟩ := he
      rw [← ha]
      exact ⟨by simp [AllSpace], by simp [AllSpace]⟩)
    (by
      intro e he
      simp only [List.mem_map] at he
      obtain ⟨a, ha1, ha⟩ := he
      rw [← ha]
      exact hr a ha1)
    fuel (by simpa using hfuel)
  have e2 : (es.map (fun e => (([] : List Char), e.2.1, ([] : List Char)))).map renderPadded =
      es.map (fun e => render e.2.1) := by
    simp [renderPadded, List.map_map, Function.comp_def]
  have e3 : (es.map (fun e => (([] : List Char), e.2.1, ([] : List Char)))).map
      (fun e => integerField e.2.1) = es.map (fun e => integerField e.2.1) := by
    simp [List.map_map, Function.comp_def]
  rw [e2, e3] at h2
  have e1 : es.map renderPadded = es.map (fun e => e.1 ++ (render e.2.1 ++ e.2.2)) := rfl
  rw [e1] at h1
  exact ⟨h1.trans h2.symm, h1⟩

theorem C17_witness :
    joinWith ',' ([(" ".toList, (1 : Int), " ".toList), ("\t".toList, 2, " ".toList)].map
      (fun e => e.1 ++ (render e.2.1 ++ e.2.2))) = " 1 ,\t2 ".toList ∧
    ParseLine 2 ',' " 1 ,\t2 ".toList = ParseLine 2 ',' "1,2".toList ∧
    ParseLine 2 ',' " 1 ,\t2 ".toList =
      Res.ret [⟨Field.Integer, value_t.intmax 1⟩, ⟨Field.Integer, value_t.intmax 2⟩] :=
  have h := C17_whitespace_insignificant
    [(" ".toList, (1 : Int), " ".toList), ("\t".toList, 2, " ".toList)] (by simp)
    (by decide) (by decide) 2 (by decide)
  ⟨by decide, h.1, h.2⟩

/-! ## Exceptions of the numeric conversions -/

theorem bind_eq_throws {α β : Type} (r : Res α) (f : α → Res β) (e : Exc)
    (h : r.bind f = Res.throws e) : r = Res.throws e ∨ ∃ a, r = Res.ret a ∧ f a = Res.throws e := by
  cases r with
  | ret a => exact Or.inr ⟨a, rfl, h⟩
  | throws e1 =>
    left
    simpa [Res.bind] using h
  | undefined => simp [Res.bind] at h
  | running => simp [Res.bind] at h

theorem stoll_outOfRange (w : List Char) (h : OutOfRangeInteger w) :
    stoll w = Res.throws Exc.out_of_range := by
  obtain ⟨sg, ds, hsg, hne, hds, hw, hr⟩ := h
  have hst := stoll_decimal sg ds [] hsg hne hds (Or.inl rfl)
  rw [List.append_nil] at hst
  rw [hw, hst]
  dsimp only
  have hv : (if sg = ['-'] then -(digitsValue ds : Int) else (digitsValue ds : Int)) =
      signFactor sg * (digitsValue ds : Int) := by
    unfold signFactor
    by_cases h : sg = ['-'] <;> simp [h]
  rw [hv]
  unfold InRange at hr
  rw [if_pos]
  by_contra hc
  apply hr
  constructor <;> omega

theorem stoll_throws (b : Bool) (w : List Char) (h : integer_regex.lang b w) (e : Exc)
    (ht : stoll w = Res.throws e) : e = Exc.out_of_range ∧ OutOfRangeInteger w := by
  rw [lang_integer_regex] at h
  rcases h with ⟨_, h⟩ | ⟨sg, ds, hsg, hne, hds, hw⟩
  · rw [stoll_hex w h] at ht
    simp at ht
  · have hst := stoll_decimal sg ds [] hsg hne hds (Or.inl rfl)
    rw [List.append_nil] at hst
    rw [hw, hst] at ht
    dsimp only at ht
    have hv : (if sg = ['-'] then -(digitsValue ds : Int) else (digitsValue ds : Int)) =
        signFactor sg * (digitsValue ds : Int) := by
      unfold signFactor
      by_cases h : sg = ['-'] <;> simp [h]
    rw [hv] at ht
    split at ht
    · rename_i hc
      injection ht with ht
      refine ⟨ht.symm, sg, ds, hsg, hne, hds, hw, ?_⟩
      unfold InRange
      omega
    · simp at ht

theorem stold_outOfRange (w : List Char) (h : OutOfRangeFloat w) :
    stold w = Res.throws Exc.out_of_range := by
  obtain ⟨sg, ip, fp, ex, E, hsg, hip, hfp, hne, hex, hw, hr⟩ := h
  rcases stold_spec sg ip fp ex E hsg hip hfp hne hex with h | h
  · rw [hw]; exact h.2
  · exact absurd hr h.1

theorem stold_throws (b : Bool) (w : List Char) (h : float_regex.lang b w) (e : Exc)
    (ht : stold w = Res.throws e) : e = Exc.out_of_range ∧ OutOfRangeFloat w := by
  rw [lang_float_regex] at h
  obtain ⟨_, sg, ip, fp, ex, hsg, hip, hfp, hne, hex, hw⟩ := h
  have hE : ∃ E, ExponentIs ex E := by
    rcases hex with h | ⟨e, sg2, ds, he, hsg2, hne2, hds, hex⟩
    · exact ⟨0, Or.inl ⟨h, rfl⟩⟩
    · exact ⟨_, Or.inr ⟨e, sg2, ds, he, hsg2, hne2, hds, hex, rfl⟩⟩
  obtain ⟨E, hE⟩ := hE
  have hw2 : w = floatText sg ip fp ex := hw
  rcases stold_spec sg ip fp ex E hsg hip hfp hne hE with h | ⟨_, x, hx, _⟩
  · rw [hw2, h.2] at ht
    injection ht with ht
    exact ⟨ht.symm, sg, ip, fp, ex, E, hsg, hip, hfp, hne, hE, hw2, h.1⟩
  · rw [hw2, hx] at ht
    simp at ht

/-- The pattern step throws exactly when it converts an out-of-range literal. -/
theorem classify_throws_iff (pos : List Char) (e : Exc) :
    ParseField.classify pos = Res.throws e ↔ e = Exc.out_of_range ∧ ConvertsOutOfRange pos := by
  unfold ParseField.classify ConvertsOutOfRange
  cases h1 : RegexMatch string_regex pos with
  | some m =>
    obtain ⟨ostr, pos1⟩ := m
    simp only
    constructor
    · intro h
      split at h <;> simp at h
    · rintro ⟨_, h, _⟩
      simp at h
  | none =>
    simp only
    cases h2 : RegexMatch float_regex pos with
    | some m =>
      obtain ⟨ostr, pos1⟩ := m
      obtain ⟨u, t, _, hl, _⟩ := RegexMatch_sound _ _ _ _ h2
      simp only
      constructor
      · intro h
        rcases bind_eq_throws _ _ _ h with h | ⟨a, _, h⟩
        · obtain ⟨he, ho⟩ := stold_throws _ _ hl e h
          exact ⟨he, trivial, Or.inl ⟨ostr, pos1, rfl, ho⟩⟩
        · simp at h
      · rintro ⟨he, _, h | h⟩
        · obtain ⟨w, p1, hw, ho⟩ := h
          simp only [Option.some.injEq, Prod.mk.injEq] at hw
          rw [hw.1, stold_outOfRange w ho, he]
          rfl
        · simp at h
    | none =>
      simp only
      cases h3 : RegexMatch integer_regex pos with
      | some m =>
        obtain ⟨ostr, pos1⟩ := m
        obtain ⟨u, t, _, hl, _⟩ := RegexMatch_sound _ _ _ _ h3
        simp only
        constructor
        · intro h
          rcases bind_eq_throws _ _ _ h with h | ⟨a, _, h⟩
          · obtain ⟨he, ho⟩ := stoll_throws _ _ hl e h
            exact ⟨he, trivial, Or.inr ⟨trivial, ostr, pos1, rfl, ho⟩⟩
          · simp at h
        · rintro ⟨he, _, h | ⟨_, w, p1, hw, ho⟩⟩
          · simp at h
          · simp only [Option.some.injEq, Prod.mk.injEq] at hw
            rw [hw.1, stoll_outOfRange w ho, he]
            rfl
      | none =>
        simp only
        constructor
        · intro h; simp at h
        · rintro ⟨_, _, h | ⟨_, h⟩⟩
          · simp at h
          · simp at h


theorem ParseField_throws (d : Char) (e : Exc) : ∀ text, ParseField d text = Res.throws e →
    e = Exc.out_of_range ∧ ∃ pre pos, text = pre ++ pos ∧
      (∀ c ∈ pre, isspace c = true ∨ c = d) ∧ ConvertsOutOfRange pos := by
  intro text
  induction text with
  | nil => intro h; simp [ParseField] at h
  | cons c t ih =>
    intro h
    rw [ParseField_cons] at h
    split at h
    · rename_i hc
      cases t with
      | nil => simp at h
      | cons c1 t1 =>
        simp only at h
        split at h
        · simp at h
        · obtain ⟨he, pre, pos, hsplit, hpre, hconv⟩ := ih h
          refine ⟨he, c :: pre, pos, by rw [hsplit]; rfl, ?_, hconv⟩
          intro x hx
          rcases List.mem_cons.1 hx with hx | hx
          · subst hx
            simpa using hc
          · exact hpre x hx
    · have := (classify_throws_iff _ e).1 h
      exact ⟨this.1, [], c :: t, rfl, by simp, this.2⟩

theorem loop_throws (d : Char) (e : Exc) : ∀ fuel text,
    ParseLine.loop d fuel text = Res.throws e →
      e = Exc.out_of_range ∧ ∃ pre pos, text = pre ++ pos ∧ ConvertsOutOfRange pos := by
  intro fuel
  induction fuel with
  | zero => intro text h; cases text <;> simp [ParseLine.loop] at h
  | succ fuel ih =>
    intro text h
    cases text with
    | nil => simp [ParseLine.loop] at h
    | cons c t =>
      rw [loop_cons] at h
      rcases bind_eq_throws _ _ _ h with h | ⟨r, hr, h⟩
      · obtain ⟨he, pre, pos, hs, _, hc⟩ := ParseField_throws d e _ h
        exact ⟨he, pre, pos, hs, hc⟩
      · rcases bind_eq_throws _ _ _ h with h | ⟨vs, _, h⟩
        · obtain ⟨he, pre, pos, hs, hc⟩ := ih _ h
          obtain ⟨k, _, hk⟩ := ParseField_cursor d (c :: t) r.1 r.2 (by rw [hr])
          refine ⟨he, (c :: t).take k ++ (r.2.takeWhile isspace ++ pre), pos, ?_, hc⟩
          have h1 : c :: t = (c :: t).take k ++ r.2 := by
            rw [hk]
            exact (List.take_append_drop k _).symm
          have h2 : r.2 = r.2.takeWhile isspace ++ r.2.dropWhile isspace :=
            (List.takeWhile_append_dropWhile _ _).symm
          rw [List.append_assoc, List.append_assoc, ← hs, ← h2]
          exact h1
        · simp at h

theorem mapRes_throws {α β : Type} (f : α → Res β) (e : Exc) :
    ∀ xs, mapRes f xs = Res.throws e → ∃ x ∈ xs, f x = Res.throws e := by
  intro xs
  induction xs with
  | nil => intro h; simp [mapRes] at h
  | cons x xs ih =>
    intro h
    rw [mapRes_cons] at h
    rcases bind_eq_throws _ _ _ h with h | ⟨y, _, h⟩
    · exact ⟨x, List.mem_cons_self _ _, h⟩
    · rcases bind_eq_throws _ _ _ h with h | ⟨ys, _, h⟩
      · obtain ⟨z, hz, hf⟩ := ih h
        exact ⟨z, List.mem_cons_of_mem _ hz, hf⟩
      · simp at h

theorem Parse_throws (fuel : Nat) (d : Char) (text : List Char) (e : Exc)
    (h : Parse fuel d text = Res.throws e) :
    e = Exc.out_of_range ∧ ∃ line ∈ linesOf text, ∃ pre pos, line = pre ++ pos ∧
      ConvertsOutOfRange pos := by
  rw [Parse_eq_mapRes] at h
  obtain ⟨line, hline, hl⟩ := mapRes_throws _ e _ h
  obtain ⟨he, hrest⟩ := loop_throws d e fuel line hl
  exact ⟨he, line, hline, hrest⟩

theorem appended_cons (d : Char) (fuel : Nat) (c : Char) (t : List Char) :
    ParseLine.appended d (fuel + 1) (c :: t) =
      match ParseField d (c :: t) with
      | Res.ret r => r.1 :: ParseLine.appended d fuel (r.2.dropWhile isspace)
      | _ => [] := rfl

theorem bind_eq_running {α β : Type} (r : Res α) (f : α → Res β)
    (h : r.bind f = Res.running) : r = Res.running ∨ ∃ a, r = Res.ret a ∧ f a = Res.running := by
  cases r with
  | ret a => exact Or.inr ⟨a, rfl, h⟩
  | throws e1 => simp [Res.bind] at h
  | undefined => simp [Res.bind] at h
  | running => exact Or.inl rfl

theorem classify_ne_running (pos : List Char) : ParseField.classify pos ≠ Res.running := by
  unfold ParseField.classify
  intro h
  split at h
  · split at h <;> simp at h
  · split at h
    · rcases bind_eq_running _ _ h with h | ⟨a, _, h⟩
      · exact (stold_defined _).2 h
      · simp at h
    · split at h
      · rcases bind_eq_running _ _ h with h | ⟨a, _, h⟩
        · exact (stoll_defined _).2 h
        · simp at h
      · simp at h

theorem ParseField_ne_running (d : Char) : ∀ text, ParseField d text ≠ Res.running := by
  intro text
  induction text with
  | nil => simp [ParseField]
  | cons c t ih =>
    rw [ParseField_cons]
    split
    · cases t with
      | nil => simp
      | cons c1 t1 =>
        simp only
        split
        · simp
        · exact ih
    · exact classify_ne_running _

/-- A scan that is still going after `fuel` rounds has appended `fuel` fields. -/
theorem appended_of_running (d : Char) : ∀ fuel text,
    ParseLine.loop d fuel text = Res.running → (ParseLine.appended d fuel text).length = fuel := by
  intro fuel
  induction fuel with
  | zero => intro text _; cases text <;> rfl
  | succ fuel ih =>
    intro text h
    cases text with
    | nil => simp [ParseLine.loop] at h
    | cons c t =>
      rw [loop_cons] at h
      rcases bind_eq_running _ _ h with h | ⟨r, hr, h⟩
      · exact absurd h (ParseField_ne_running d _)
      · rcases bind_eq_running _ _ h with h | ⟨vs, _, h⟩
        · rw [appended_cons, hr]
          simp only [List.length_cons, ih _ h]
        · simp at h

/-- A scan that returns has appended the fields that it returns. -/
theorem appended_of_ret (d : Char) : ∀ fuel text values,
    ParseLine.loop d fuel text = Res.ret values → ParseLine.appended d fuel text = values := by
  intro fuel
  induction fuel with
  | zero =>
    intro text values h
    cases text with
    | nil =>
      simp only [ParseLine.loop, Res.ret.injEq] at h
      rw [← h]; rfl
    | cons c t => simp [ParseLine.loop] at h
  | succ fuel ih =>
    intro text values h
    cases text with
    | nil =>
      simp only [ParseLine.loop, Res.ret.injEq] at h
      rw [← h]; rfl
    | cons c t =>
      rw [loop_cons] at h
      obtain ⟨r, hr, h⟩ := bind_eq_ret _ _ _ h
      obtain ⟨vs, hvs, h⟩ := bind_eq_ret _ _ _ h
      simp only [Res.ret.injEq] at h
      rw [appended_cons, hr]
      simp only
      rw [ih _ _ hvs, h]

theorem appended_stuck (d : Char) (c : Char) (t : List Char) (f : field_t)
    (hf : ParseField d (c :: t) = Res.ret (f, c :: t)) (hc : isspace c = false) :
    ∀ fuel, ParseLine.appended d fuel (c :: t) = List.replicate fuel f := by
  intro fuel
  induction fuel with
  | zero => rfl
  | succ fuel ih =>
    rw [appended_cons, hf]
    simp only [List.dropWhile_cons, hc]
    rw [show (if false = true then List.dropWhile isspace t else c :: t) = c :: t by simp, ih]
    rfl

/-- C7, as stated, fails: the integer literal 9223372036854775808 is one more than the largest
`long long`, `std::stoll` throws `std::out_of_range` and the exception leaves `Parse`; so does
the exception of `std::stold` on `1.0e5000`. Nor does every input yield a table: on `abc` the
scan never returns, and every round of it appends one more `Undefined` field to the vector. -/
theorem C7_counterexample :
    stoll "9223372036854775808".toList = Res.throws Exc.out_of_range ∧
    Parse 1 ',' "9223372036854775808".toList = Res.throws Exc.out_of_range ∧
    Parse 1 ',' "1.0e5000".toList = Res.throws Exc.out_of_range ∧
    (∀ fuel, ParseLine fuel ',' "abc".toList = Res.running) ∧
    (∀ fuel, ParseLine.appended ',' fuel "abc".toList =
      List.replicate fuel ⟨Field.Undefined, value_t.empty⟩) :=
  ⟨by decide, by decide, by decide!,
    loop_stuck ',' 'a' "bc".toList ⟨Field.Undefined, value_t.empty⟩ (by decide) (by decide),
    appended_stuck ',' 'a' "bc".toList ⟨Field.Undefined, value_t.empty⟩ (by decide) (by decide)⟩

/-- C7, amended: for every input text and delimiter, the numeric conversions and the quote
stripping raise no error but `std::out_of_range`, and that one exactly on an out-of-range
literal. The pattern step of `ParseField` throws if and only if the exception is
`std::out_of_range` and the text it hands to a conversion is an out-of-range literal: no string
matches at the cursor, and the float pattern matches a floating-point literal whose value is
outside the range of `long double` (`stold`), or it does not match and the integer pattern
matches a decimal literal whose value is outside the signed 64-bit range (`stoll`). An error of
a conversion that leaves `ParseField`, `ParseLine` or `Parse` is this one, raised at some cursor
position of the text (of one of its lines, for `Parse`); nothing catches it: from a cursor on a
character that is neither white space nor the delimiter it leaves `ParseField` and `ParseLine`,
and `Parse` when the line is the first one. `std::invalid_argument` is never thrown, and the
quote stripping always has its two quotes to remove. A table is not returned for every input: a
scan that is still going after `fuel` rounds has appended `fuel` fields to its vector, so that a
scan that never ends stops only when an allocation fails, which is no error of a conversion or
of the quote stripping; a scan that returns, returns the fields that it has appended. -/
theorem C7_only_out_of_range (fuel : Nat) (d : Char) (text : List Char) (e : Exc) :
    (ParseField.classify text = Res.throws e ↔
      e = Exc.out_of_range ∧ ConvertsOutOfRange text) ∧
    (ParseField d text = Res.throws e →
      e = Exc.out_of_range ∧ ∃ pre pos, text = pre ++ pos ∧
        (∀ c ∈ pre, isspace c = true ∨ c = d) ∧ ConvertsOutOfRange pos) ∧
    (ParseLine fuel d text = Res.throws e →
      e = Exc.out_of_range ∧ ∃ pre pos, text = pre ++ pos ∧ ConvertsOutOfRange pos) ∧
    (Parse fuel d text = Res.throws e →
      e = Exc.out_of_range ∧ ∃ line ∈ linesOf text, ∃ pre pos, line = pre ++ pos ∧
        ConvertsOutOfRange pos) ∧
    (∀ c t, text = c :: t → isspace c = false → c ≠ d → ConvertsOutOfRange text →
      ParseField d text = Res.throws Exc.out_of_range ∧
      ParseLine (fuel + 1) d text = Res.throws Exc.out_of_range ∧
      ∀ rest more, linesOf rest = text :: more →
        Parse (fuel + 1) d rest = Res.throws Exc.out_of_range) ∧
    Parse fuel d text ≠ Res.throws Exc.invalid_argument ∧
    ParseLine fuel d text ≠ Res.throws Exc.invalid_argument ∧
    ParseField d text ≠ Res.throws Exc.invalid_argument ∧
    (∀ ostr pos1, RegexMatch string_regex text = some (ostr, pos1) → 2 ≤ ostr.length) ∧
    (ParseLine fuel d text = Res.running → (ParseLine.appended d fuel text).length = fuel) ∧
    (∀ values, ParseLine fuel d text = Res.ret values →
      ParseLine.appended d fuel text = values) := by
  refine ⟨classify_throws_iff text e, ParseField_throws d e text, loop_throws d e fuel text,
    Parse_throws fuel d text e, ?_, ?_, ?_, ?_,
    fun ostr pos1 h => string_match_length text ostr pos1 h,
    appended_of_running d fuel text, appended_of_ret d fuel text⟩
  · intro c t ht hc1 hc2 hconv
    subst ht
    have hcl := (classify_throws_iff (c :: t) Exc.out_of_range).2 ⟨rfl, hconv⟩
    have hpf : ParseField d (c :: t) = Res.throws Exc.out_of_range := by
      rw [ParseField_no_skip d c t hc1 hc2, hcl]
    have hpl : ParseLine (fuel + 1) d (c :: t) = Res.throws Exc.out_of_range := by
      unfold ParseLine
      rw [loop_cons, hpf]
      rfl
    refine ⟨hpf, hpl, ?_⟩
    intro rest more hrest
    rw [Parse_eq_mapRes, hrest, mapRes_cons, hpl]
    rfl
  · intro h
    exact absurd (Parse_throws fuel d text _ h).1 (by decide)
  · intro h
    exact absurd (loop_throws d _ fuel text h).1 (by decide)
  · intro h
    exact absurd (ParseField_throws d _ text h).1 (by decide)

theorem C7_witness :
    Parse 1 ',' "9223372036854775808".toList = Res.throws Exc.out_of_range ∧
    ConvertsOutOfRange "9223372036854775808".toList ∧
    ConvertsOutOfRange "1.0e5000".toList ∧
    Parse 1 ',' "9223372036854775808".toList ≠ Res.throws Exc.invalid_argument :=
  ⟨by decide,
    ((C7_only_out_of_range 1 ',' "9223372036854775808".toList Exc.out_of_range).1.1
      (by decide)).2,
    ((C7_only_out_of_range 1 ',' "1.0e5000".toList Exc.out_of_range).1.1 (by decide!)).2,
    (C7_only_out_of_range 1 ',' "9223372036854775808".toList
      Exc.out_of_range).2.2.2.2.2.1⟩

/-! ## The skip of trailing white space -/

/-- The record scanner on `1`, white space, two delimiters, `2`. -/
theorem loop_one_null_two (d : Char) (hd : PlainDelimiter d) (sp : List Char)
    (hsp : AllSpace sp) (fuel : Nat) :
    ParseLine.loop d (fuel + 3) ('1' :: (sp ++ d :: d :: ['2'])) =
      Res.ret [integerField 1, nullField, integerField 2] := by
  obtain ⟨hdsp, hdig, hminus, hdot, hx, hq⟩ := hd
  have hd1 : '1' ≠ d := by
    intro h
    rw [← h] at hdig
    exact absurd hdig (by decide)
  have hd2 : '2' ≠ d := by
    intro h
    rw [← h] at hdig
    exact absurd hdig (by decide)
  have hchars : ∀ c ∈ ['1'] ++ (sp ++ d :: d :: ['2']), c ≠ '\'' ∧ c ≠ '.' := by
    intro c hc
    simp only [List.mem_append, List.mem_cons, List.mem_singleton, List.not_mem_nil,
      or_false] at hc
    rcases hc with h | h | h | h | h
    · subst h; exact ⟨by decide, by decide⟩
    · have := space_not_plain (hsp c h)
      exact ⟨this.2.2.1, this.2.2.2.1⟩
    · subst h; exact ⟨hq, hdot⟩
    · subst h; exact ⟨hq, hdot⟩
    · subst h; exact ⟨by decide, by decide⟩
  have hends : EndsNumber (sp ++ d :: d :: ['2']) := by
    cases sp with
    | nil => exact Or.inr ⟨d, _, rfl, hdig, hx⟩
    | cons w ws =>
      have hw := space_not_plain (hsp w (List.mem_cons_self _ _))
      exact Or.inr ⟨w, _, rfl, hw.1, hw.2.1⟩
  have hlit : IsDecimalLiteral ['1'] := ⟨[], ['1'], Or.inl rfl, by simp, by decide, rfl⟩
  have h1 : ParseField d ('1' :: (sp ++ d :: d :: ['2'])) =
      Res.ret (integerField 1, sp ++ d :: d :: ['2']) := by
    rw [ParseField_no_skip d '1' _ (by decide) hd1]
    have := classify_decimal ['1'] (sp ++ d :: d :: ['2']) hlit hends
      (fun h => (hchars _ h).1 rfl) (fun h => (hchars _ h).2 rfl)
    rw [show stoll ['1'] = Res.ret 1 by decide] at this
    exact this
  have hdrop1 : (sp ++ d :: d :: ['2']).dropWhile isspace = d :: d :: ['2'] := by
    rw [List.dropWhile_append_of_pos (fun a ha => hsp a ha), List.dropWhile_cons, hdsp]
    rfl
  have h2 : ParseField d (d :: d :: ['2']) = Res.ret (nullField, d :: ['2']) :=
    ParseField_null d _
  have hdrop2 : (d :: ['2']).dropWhile isspace = d :: ['2'] := by
    rw [List.dropWhile_cons, hdsp]
    rfl
  have h3 : ParseField d (d :: ['2']) = Res.ret (integerField 2, []) := by
    rw [ParseField_skip_one d '2' [] hd2, ParseField_no_skip d '2' [] (by decide) hd2]
    decide
  rw [loop_cons, h1]
  simp only [Res.bind, hdrop1]
  rw [loop_cons, h2]
  simp only [Res.bind, hdrop2]
  rw [loop_cons, h3]
  simp only [Res.bind, List.dropWhile_nil]
  cases fuel <;> rfl

/-- C18, amended: for every delimiter `d` that is not white space, the skip of trailing white
space in `ParseLine<d>` consumes white space but never a delimiter. Whenever `ParseField` returns
in a round of the scan, the next round starts at a cursor `pos2` reached from the cursor `r.2`
that `ParseField` left by stepping over characters `ws` that are all white space, none of them
`d`, up to the end of the line or the first character that is not white space: every occurrence
of `d` in the text `ParseField` left is still ahead of the cursor. When `d` moreover cannot be
part of a decimal integer or of another literal (not a digit, none of `-`, `.`, `x`, `'`), the
line made of `1`, any white space, `d`, `d`, `2` yields `Integer 1`, `Null`, `Integer 2`, as
`1,,2` does with `,`. -/
theorem C18_trailing_skip (d : Char) (hd : isspace d = false) :
    (∀ (fuel : Nat) (c : Char) (t : List Char) (r : field_t × List Char),
      ParseField d (c :: t) = Res.ret r →
      ∃ ws pos2, r.2 = ws ++ pos2 ∧ AllSpace ws ∧ d ∉ ws ∧
        (∀ x, pos2.head? = some x → isspace x = false) ∧
        (∀ u v, r.2 = u ++ d :: v → ∃ u2, pos2 = u2 ++ d :: v) ∧
        ParseLine.loop d (fuel + 1) (c :: t) =
          (ParseLine.loop d fuel pos2).bind (fun values => Res.ret (r.1 :: values)) ∧
        ParseLine.cursors d (fuel + 1) (c :: t) =
          (c :: t) :: r.2 :: ParseLine.cursors d fuel pos2) ∧
    (PlainDelimiter d → ∀ sp, AllSpace sp → ∀ fuel, 3 ≤ fuel →
      ParseLine fuel d ('1' :: (sp ++ d :: d :: ['2'])) =
        Res.ret [⟨Field.Integer, value_t.intmax 1⟩, ⟨Field.Null, value_t.empty⟩,
          ⟨Field.Integer, value_t.intmax 2⟩]) := by
  constructor
  · intro fuel c t r hr
    have hsplit : r.2 = r.2.takeWhile isspace ++ r.2.dropWhile isspace :=
      (List.takeWhile_append_dropWhile _ _).symm
    have hws : AllSpace (r.2.takeWhile isspace) := fun x hx => List.mem_takeWhile_imp hx
    have hnd : d ∉ r.2.takeWhile isspace := by
      intro hmem
      have := hws d hmem
      rw [hd] at this
      exact absurd this (by simp)
    refine ⟨r.2.takeWhile isspace, r.2.dropWhile isspace, hsplit, hws, hnd, ?_, ?_, ?_, ?_⟩
    · intro x hx
      have := List.head?_dropWhile_not isspace r.2
      rw [hx] at this
      exact this
    · intro u v huv
      have h2 : r.2.takeWhile isspace ++ r.2.dropWhile isspace = u ++ d :: v := by
        rw [← hsplit]
        exact huv
      rcases List.append_eq_append_iff.1 h2 with ⟨a, ha, hb⟩ | ⟨a, ha, hb⟩
      · exact ⟨a, hb⟩
      · cases a with
        | nil =>
          simp only [List.nil_append] at hb
          exact ⟨[], by rw [← hb]; rfl⟩
        | cons x a =>
          exfalso
          simp only [List.cons_append, List.cons.injEq] at hb
          apply hnd
          rw [ha, ← hb.1]
          simp
    · rw [loop_cons, hr]
      rfl
    · rw [cursors_cons, hr]
  · intro hpd sp hsp fuel hfuel
    obtain ⟨k, rfl⟩ : ∃ k, fuel = k + 3 := ⟨fuel - 3, by omega⟩
    exact loop_one_null_two d hpd sp hsp k

theorem C18_witness :
    isspace ',' = false ∧
    (∃ ws pos2, " \t,,2".toList = ws ++ pos2 ∧ AllSpace ws ∧ ',' ∉ ws ∧
      (∀ x, pos2.head? = some x → isspace x = false) ∧
      (∀ u v, " \t,,2".toList = u ++ ',' :: v → ∃ u2, pos2 = u2 ++ ',' :: v) ∧
      ParseLine.loop ',' 3 "1 \t,,2".toList =
        (ParseLine.loop ',' 2 pos2).bind (fun values =>
          Res.ret (⟨Field.Integer, value_t.intmax 1⟩ :: values)) ∧
      ParseLine.cursors ',' 3 "1 \t,,2".toList =
        "1 \t,,2".toList :: " \t,,2".toList :: ParseLine.cursors ',' 2 pos2) ∧
    ParseLine 3 ',' "1 \t,,2".toList =
      Res.ret [⟨Field.Integer, value_t.intmax 1⟩, ⟨Field.Null, value_t.empty⟩,
        ⟨Field.Integer, value_t.intmax 2⟩] ∧
    ParseLine 3 ',' "1,,2".toList =
      Res.ret [⟨Field.Integer, value_t.intmax 1⟩, ⟨Field.Null, value_t.empty⟩,
        ⟨Field.Integer, value_t.intmax 2⟩] :=
  have hp : PlainDelimiter ',' := ⟨by decide, by decide, by decide, by decide, by decide, by decide⟩
  ⟨by decide,
    (C18_trailing_skip ',' (by decide)).1 2 '1' " \t,,2".toList
      (⟨Field.Integer, value_t.intmax 1⟩, " \t,,2".toList) (by decide),
    (C18_trailing_skip ',' (by decide)).2 hp " \t".toList (by decide) 3 (by decide),
    (C18_trailing_skip ',' (by decide)).2 hp [] (by decide) 3 (by decide)⟩

end shortcsv
